import Mathlib

/-!
OpenDCX channel identity: a shallow embedding of `DcxChannelSet.cpp`

The development follows `src/opendcx/DcxChannelSet.cpp`.

Modelling conventions.

* `std::string` and NUL-terminated `const char*` text are lists of characters
  (`Str`); a `const char*` argument that may be `NULL` is an `Option Str`.
* `std::map` is an association list with unique keys (`StdMap`): `find` is
  `std::map::find`, `assign` is `m[k] = v`.
* `m_channelalias_list` is a `std::vector<ChannelAlias*>` whose elements are
  owned, pairwise distinct heap objects; a `ChannelAlias*` that points to a
  registered alias is modelled by the position of that alias in the list.
* Out-parameters are modelled by explicit state passing.
* The headers `DcxChannelDefs.h`, `DcxChannelAlias.h` and
  `DcxChannelContext.h` are not among the sources.  The values of the
  `Chan_*` constants of the standard table are the ones written next to each
  table row; the threshold `Chan_ArbitraryStart` is a parameter of every
  definition that uses it.
-/

namespace Dcx

/-- Text: the characters of a `std::string` or of a C string. -/
abbrev Str := List Char

/-- Modelled from the spec: the type `ChannelIdx` is declared in
`DcxChannelDefs.h`, which is absent; the spec describes it as an unsigned
ordinal identifying a channel, `0` being the invalid sentinel. -/
abbrev ChannelIdx := Nat

/-- The pixel types of `Imf::PixelType` used by the table. -/
inductive PixelType where
  | UINT
  | HALF
  | FLOAT
  deriving DecidableEq, Repr, Inhabited

/-! ## std::map -/

/-- A `std::map`: association list with pairwise distinct keys. -/
abbrev StdMap (κ ν : Type) := List (κ × ν)

/-- The lookup `std::map::find`; `none` stands for `end()`. -/
def StdMap.find {κ ν : Type} [DecidableEq κ] : StdMap κ ν → κ → Option ν
  | [], _ => none
  | (k, v) :: m, key => if key = k then some v else StdMap.find m key

/-- The assignment `m[key] = value`: overwrites the entry of an existing key,
inserts otherwise. -/
def StdMap.assign {κ ν : Type} [DecidableEq κ] : StdMap κ ν → κ → ν → StdMap κ ν
  | [], key, value => [(key, value)]
  | (k, v) :: m, key, value =>
    if key = k then (k, value) :: m else (k, v) :: StdMap.assign m key value

/-! ## Channel constants (values as noted beside the rows of the table) -/

abbrev Chan_Invalid : ChannelIdx := 0
abbrev Chan_R : ChannelIdx := 1
abbrev Chan_G : ChannelIdx := 2
abbrev Chan_B : ChannelIdx := 3
abbrev Chan_A : ChannelIdx := 4
abbrev Chan_AR : ChannelIdx := 5
abbrev Chan_AG : ChannelIdx := 6
abbrev Chan_AB : ChannelIdx := 7
abbrev Chan_Y : ChannelIdx := 8
abbrev Chan_RY : ChannelIdx := 9
abbrev Chan_BY : ChannelIdx := 10
abbrev Chan_Z : ChannelIdx := 11
abbrev Chan_ZFront : ChannelIdx := 12
abbrev Chan_ZBack : ChannelIdx := 13
abbrev Chan_DeepFlags : ChannelIdx := 14
abbrev Chan_SpBits1 : ChannelIdx := 15
abbrev Chan_SpBits2 : ChannelIdx := 16
abbrev Chan_UvS : ChannelIdx := 17
abbrev Chan_UvT : ChannelIdx := 18
abbrev Chan_UvP : ChannelIdx := 19
abbrev Chan_UvQ : ChannelIdx := 20
abbrev Chan_ID0 : ChannelIdx := 21
abbrev Chan_ID1 : ChannelIdx := 22
abbrev Chan_ID2 : ChannelIdx := 23
abbrev Chan_ID3 : ChannelIdx := 24
abbrev Chan_CutoutA : ChannelIdx := 25
abbrev Chan_CutoutAR : ChannelIdx := 26
abbrev Chan_CutoutAG : ChannelIdx := 27
abbrev Chan_CutoutAB : ChannelIdx := 28
abbrev Chan_CutoutZ : ChannelIdx := 29

/-- Modelled from the spec: `Chan_SpBitsLast` is declared in the absent
`DcxChannelDefs.h`; the spec gives the spmask group as `flags..bits2`, so the
last id of the group is `Chan_SpBits2`. -/
abbrev Chan_SpBitsLast : ChannelIdx := Chan_SpBits2

/-! ## String utilities -/

/-- The C function `toupper` in the "C" locale. -/
def toupper (c : Char) : Char :=
  if 97 ≤ c.toNat ∧ c.toNat ≤ 122 then Char.ofNat (c.toNat - 32) else c

/-- The call `src.find_first_of(delimiters, index)`; `none` stands for `npos`. -/
def find_first_of (src delimiters : Str) (index : Nat) : Option Nat :=
  ((src.drop index).findIdx? (fun c => delimiters.contains c)).map (fun i => index + i)

/-- The call `s.find_last_of(c)`; `none` stands for `npos`. -/
def find_last_of : Str → Char → Option Nat
  | [], _ => none
  | x :: xs, c =>
    match find_last_of xs c with
    | some i => some (i + 1)
    | none => if x = c then some 0 else none

/-- The loop of `split`, started at `index` with the tokens pushed so far;
`none` when the fuel is used up before the loop breaks. -/
def splitLoop (src delimiters : Str) : Nat → Nat → List Str → Option (List Str)
  | 0, _, _ => none
  | fuel + 1, index, tokens =>
    match find_first_of src delimiters index with
    | none =>
      some (if src.length > index then tokens ++ [src.drop index] else tokens)
    | some a =>
      splitLoop src delimiters fuel (a + 1)
        (if a ≠ index then tokens ++ [(src.drop index).take (a - index)] else tokens)

/-- The function `split`: the tokens vector after the call.  Every round of
the loop moves `index` past one character of `src`, so `src.length + 1`
rounds are enough. -/
def split (src delimiters : Str) (tokens : List Str) : Option (List Str) :=
  splitLoop src delimiters (src.length + 1) 0 tokens

/-- The default delimiter list of `strip`: space, newline, tab, carriage return. -/
def whitespace : Str := [Char.ofNat 32, Char.ofNat 10, Char.ofNat 9, Char.ofNat 13]

/-- The function `strip`: one pass per delimiter, each pass copying the
characters different from that delimiter into the other buffer. -/
def strip (src : Str) (delimiters : Str) : Str :=
  delimiters.foldl (fun p0 dp => p0.filter (fun i => i ≠ dp)) src

/-- The function `splitName`: the pair `(layer, chan)` after the call. -/
def splitName (name : Str) : Str × Str :=
  let s := strip name whitespace
  match find_last_of s (Char.ofNat 46) with
  | some a =>
    if a > 0 then (s.take a, s.drop (a + 1))
    else ([], name)
  | none => ([], name)

/-! ## The standard channel table -/

/-- One row of the table. -/
structure StandardChannel where
  layer_name : Str
  channel_name : Str
  match_list : Str
  dflt_io_name : Str
  dflt_io_pixel_type : PixelType
  ordering_index : ChannelIdx
  deriving DecidableEq, Repr, Inhabited

/-- Row builder from string literals. -/
def stdRow (layer chan matchList io : String) (type : PixelType) (idx : ChannelIdx) :
    StandardChannel :=
  ⟨layer.toList, chan.toList, matchList.toList, io.toList, type, idx⟩

/-- The table `g_standard_channel_table`, without its end-of-table row (the
row with the null layer name that stops every loop over the table). -/
def g_standard_channel_table : List StandardChannel :=
  [ stdRow "invalid" "invalid" "" "" .HALF Chan_Invalid,
    stdRow "rgba" "R" "R,RED" "R" .HALF Chan_R,
    stdRow "rgba" "G" "G,GREEN" "G" .HALF Chan_G,
    stdRow "rgba" "B" "B,BLUE" "B" .HALF Chan_B,
    stdRow "rgba" "A" "A,ALPHA" "A" .HALF Chan_A,
    stdRow "opacity" "R" "AR,RA" "AR" .HALF Chan_AR,
    stdRow "opacity" "G" "AG,GA" "AG" .HALF Chan_AG,
    stdRow "opacity" "B" "AB,BA" "AB" .HALF Chan_AB,
    stdRow "yuv" "Y" "Y" "Y" .HALF Chan_Y,
    stdRow "yuv" "RY" "RY" "RY" .HALF Chan_RY,
    stdRow "yuv" "BY" "BY" "BY" .HALF Chan_BY,
    stdRow "depth" "Z" "Z" "Z" .FLOAT Chan_Z,
    stdRow "depth" "ZFront" "ZF,ZFRONT" "" .FLOAT Chan_ZFront,
    stdRow "depth" "ZBack" "ZB,ZBACK" "ZBack" .FLOAT Chan_ZBack,
    stdRow "spmask" "flags" "FLAGS,3" "spmask.flags" .HALF Chan_DeepFlags,
    stdRow "spmask" "1" "1" "spmask.1" .FLOAT Chan_SpBits1,
    stdRow "spmask" "2" "2" "spmask.2" .FLOAT Chan_SpBits2,
    stdRow "tex" "s" "S" "tex.s" .HALF Chan_UvS,
    stdRow "tex" "t" "T" "tex.t" .HALF Chan_UvT,
    stdRow "tex" "p" "P" "tex.p" .HALF Chan_UvP,
    stdRow "tex" "q" "Q" "tex.q" .HALF Chan_UvQ,
    stdRow "id" "0" "ID,ID0" "ID" .UINT Chan_ID0,
    stdRow "id" "1" "ID1" "ID1" .UINT Chan_ID1,
    stdRow "id" "2" "ID2" "ID2" .UINT Chan_ID2,
    stdRow "id" "3" "ID3" "ID3" .UINT Chan_ID3,
    stdRow "cutout" "A" "" "cutout.A" .HALF Chan_CutoutA,
    stdRow "cutout" "AR" "" "cutout.AR" .HALF Chan_CutoutAR,
    stdRow "cutout" "AG" "" "cutout.AG" .HALF Chan_CutoutAG,
    stdRow "cutout" "AB" "" "cutout.AB" .HALF Chan_CutoutAB,
    stdRow "cutout" "Z" "" "cutout.Z" .FLOAT Chan_CutoutZ ]

/-- The tokens that `BuildStandardChannels` inserts for one row: the match list
split at commas, every token stripped of whitespace, empty tokens dropped. -/
def matchTokens (c : StandardChannel) : List Str :=
  if c.match_list = [] then []
  else (((split c.match_list [Char.ofNat 44] []).getD []).map
    (fun t => strip t whitespace)).filter (fun t => t ≠ [])

/-- The constructor `BuildStandardChannels`: the contents of
`g_standard_channel_matching_map` after static initialisation. -/
def BuildStandardChannels : StdMap Str StandardChannel :=
  g_standard_channel_table.foldl
    (fun m c => (matchTokens c).foldl (fun m t => StdMap.assign m t c) m) []

/-- The static map of channel-matching strings. -/
def g_standard_channel_matching_map : StdMap Str StandardChannel :=
  BuildStandardChannels

/-- The out-parameters of `matchStandardChannel`. -/
structure MatchOut where
  std_layer_name : Str
  std_chan_name : Str
  std_channel : ChannelIdx
  std_io_name : Str
  std_io_type : PixelType
  deriving DecidableEq, Repr, Inhabited

/-- The function `matchStandardChannel`: the returned flag and the
out-parameters after the call, from their values `out` before it. -/
def matchStandardChannel (channel_name : Option Str) (out : MatchOut) : Bool × MatchOut :=
  let out := { out with std_channel := Chan_Invalid, std_layer_name := [], std_io_name := [] }
  match channel_name with
  | none => (false, out)
  | some channel_name =>
    if channel_name = [] then (false, out)
    else
      let name := channel_name.map toupper
      match StdMap.find g_standard_channel_matching_map name with
      | none => (false, out)
      | some c =>
        (true, { std_layer_name := c.layer_name,
                 std_chan_name := c.channel_name,
                 std_channel := c.ordering_index,
                 std_io_name := c.dflt_io_name,
                 std_io_type := c.dflt_io_pixel_type })

/-- The function `getLayerPositionFromKind`.  The result is an `int`: the
difference of two ids is taken as an integer, which is what the conversion of
the unsigned difference to `int` gives (so `Chan_Y - Chan_RY` is `-1`). -/
def getLayerPositionFromKind (Chan_ArbitraryStart : ChannelIdx) (kind : ChannelIdx) : Int :=
  if kind ≤ Chan_Invalid ∨ kind ≥ Chan_ArbitraryStart then 0
  else if kind ≤ Chan_A then (kind : Int) - Chan_R
  else if kind ≤ Chan_AB then (kind : Int) - Chan_AR
  else if kind ≤ Chan_BY then (kind : Int) - Chan_RY
  else if kind = Chan_Z ∨ kind = Chan_ZFront then 0
  else if kind = Chan_ZBack then 1
  else if kind ≤ Chan_SpBitsLast then (kind : Int) - Chan_DeepFlags
  else if kind ≤ Chan_UvQ then (kind : Int) - Chan_UvS
  else 0

/-- Conversion of an `int` to the `uint32_t` of a position argument: the value
modulo 2^32. -/
def toUInt32 (i : Int) : Nat := (i % 4294967296).toNat

/-! ## ChannelAlias -/

/-- The data members of a `ChannelAlias`. -/
structure ChannelAlias where
  m_name : Str
  m_layer : Str
  m_channel : ChannelIdx
  m_position : Nat
  m_io_name : Str
  m_io_type : PixelType
  deriving DecidableEq, Repr, Inhabited

/-- The method `ChannelAlias::fullName`. -/
def ChannelAlias.fullName (a : ChannelAlias) : Str :=
  if a.m_layer ≠ [] then a.m_layer ++ [Char.ofNat 46] ++ a.m_name else a.m_name

/-- The method `ChannelAlias::fileIOName`. -/
def ChannelAlias.fileIOName (a : ChannelAlias) : Str :=
  if a.m_io_name = [] then a.fullName else a.m_io_name

/-! ## ChannelContext -/

/-- A `ChanOrder`: a channel id with its position in the layer. -/
structure ChanOrder where
  channel : ChannelIdx
  order : Nat
  deriving DecidableEq, Repr, Inhabited

/-- A `Layer`: a name and its channels in order of arrival. -/
structure Layer where
  name : Str
  channels : List ChanOrder
  deriving DecidableEq, Repr, Inhabited

/-- The data members of a `ChannelContext`. -/
structure ChannelContext where
  m_channelalias_list : List ChannelAlias
  m_channelalias_channel_map : StdMap ChannelIdx Nat
  m_channelalias_name_map : StdMap Str Nat
  m_layers : List Layer
  m_layer_name_map : StdMap Str Nat
  m_last_assigned : ChannelIdx
  deriving DecidableEq, Repr, Inhabited

/-- An argument of type `ChannelAlias*`: null, a pointer to the alias
registered at a position of the list, or a pointer to an alias object that is
not in the list. -/
inductive AliasPtr where
  | null
  | registered (index : Nat)
  | fresh (obj : ChannelAlias)
  deriving DecidableEq, Repr, Inhabited

namespace ChannelContext

/-- The alias a registered pointer points to.  A position outside the list is
not a pointer the program can hold; the default alias stands for it. -/
def deref (ctx : ChannelContext) (p : Nat) : ChannelAlias :=
  ctx.m_channelalias_list.getD p default

/-- The overload `findChannelAlias(const std::string&)`. -/
def findChannelAlias (ctx : ChannelContext) (name : Str) : Option Nat :=
  if name ≠ [] then StdMap.find ctx.m_channelalias_name_map name else none

/-- The overload `findChannelAlias(const char*)`. -/
def findChannelAliasCStr (ctx : ChannelContext) (name : Option Str) : Option Nat :=
  match name with
  | none => none
  | some name => if name = [] then none else ctx.findChannelAlias name

/-- The overload `findChannelAlias(ChannelIdx)`. -/
def findChannelAliasIdx (ctx : ChannelContext) (channel : ChannelIdx) : Option Nat :=
  if channel > Chan_Invalid then StdMap.find ctx.m_channelalias_channel_map channel else none

/-- The overload `addChannelAlias(ChannelAlias*)`: the context after the call
and the returned pointer. -/
def addChannelAlias (ctx : ChannelContext) (ptr : AliasPtr) : ChannelContext × Option Nat :=
  match ptr with
  | .null => (ctx, none)
  | .registered i => (ctx, some i)
  | .fresh obj =>
    let al : ChannelAlias :=
      if obj.m_channel = Chan_Invalid then { obj with m_channel := ctx.m_last_assigned + 1 }
      else obj
    let last :=
      if obj.m_channel = Chan_Invalid then ctx.m_last_assigned + 1 else ctx.m_last_assigned
    let index := ctx.m_channelalias_list.length
    let ctx := { ctx with m_last_assigned := last,
                          m_channelalias_list := ctx.m_channelalias_list ++ [al] }
    let ctx := { ctx with
      m_channelalias_channel_map :=
        if ctx.findChannelAliasIdx al.m_channel = none then
          StdMap.assign ctx.m_channelalias_channel_map al.m_channel index
        else ctx.m_channelalias_channel_map }
    let ctx := { ctx with
      m_channelalias_name_map :=
        if ctx.findChannelAlias al.fullName = none then
          StdMap.assign ctx.m_channelalias_name_map al.fullName index
        else ctx.m_channelalias_name_map }
    let ctx := { ctx with
      m_channelalias_name_map :=
        if al.m_io_name ≠ [] ∧ ctx.findChannelAlias al.m_io_name = none then
          StdMap.assign ctx.m_channelalias_name_map al.m_io_name index
        else ctx.m_channelalias_name_map }
    (ctx, some index)

/-- The six-argument overload of `addChannelAlias`, which registers a newly
allocated alias. -/
def addChannelAliasNew (ctx : ChannelContext) (chan_name layer_name : Str)
    (channel : ChannelIdx) (position : Nat) (io_name : Str) (io_type : PixelType) :
    ChannelContext × Option Nat :=
  ctx.addChannelAlias (.fresh ⟨chan_name, layer_name, channel, position, io_name, io_type⟩)

/-- The method `addStandardChannels`. -/
def addStandardChannels (Chan_ArbitraryStart : ChannelIdx) (ctx : ChannelContext) :
    ChannelContext :=
  g_standard_channel_table.foldl
    (fun ctx c =>
      if c.layer_name = "invalid".toList then ctx
      else (ctx.addChannelAliasNew c.channel_name c.layer_name c.ordering_index
              (toUInt32 (getLayerPositionFromKind Chan_ArbitraryStart c.ordering_index))
              c.dflt_io_name c.dflt_io_pixel_type).1)
    ctx

/-- The constructor `ChannelContext(bool addStandardChans)`. -/
def new (Chan_ArbitraryStart : ChannelIdx) (addStandardChans : Bool) : ChannelContext :=
  let ctx : ChannelContext := ⟨[], [], [], [], [], Chan_ArbitraryStart - 1⟩
  if addStandardChans then addStandardChannels Chan_ArbitraryStart ctx else ctx

/-- The method `getChannelName`. -/
def getChannelName (ctx : ChannelContext) (channel : ChannelIdx) : Str :=
  if channel = Chan_Invalid then "invalid".toList
  else
    match (if channel < ctx.m_last_assigned then
             StdMap.find ctx.m_channelalias_channel_map channel else none) with
    | some i => (ctx.deref i).m_name
    | none => "unknown".toList

/-- The method `getChannelFullName`. -/
def getChannelFullName (ctx : ChannelContext) (channel : ChannelIdx) : Str :=
  if channel = Chan_Invalid then "invalid".toList
  else
    match (if channel < ctx.m_last_assigned then
             StdMap.find ctx.m_channelalias_channel_map channel else none) with
    | some i => (ctx.deref i).fullName
    | none => "unknown".toList

/-- The method `getChannelAlias`: the context after the call and the
returned pointer. -/
def getChannelAlias (Chan_ArbitraryStart : ChannelIdx) (ctx : ChannelContext)
    (name : Option Str) : ChannelContext × Option Nat :=
  match name with
  | none => (ctx, none)
  | some name =>
    if name = [] then (ctx, none)
    else
      match ctx.findChannelAliasCStr (some name) with
      | some chan => (ctx, some chan)
      | none =>
        let split := splitName name
        let layer_name := split.1
        let chan_name := split.2
        let m := matchStandardChannel (some chan_name) ⟨[], [], Chan_Invalid, [], .HALF⟩
        let channel := m.2.std_channel
        let position : Int :=
          if m.1 then getLayerPositionFromKind Chan_ArbitraryStart channel else 0
        let layer_name :=
          if m.1 then (if layer_name = [] then m.2.std_layer_name else layer_name)
          else (if layer_name = [] then "other".toList else layer_name)
        match (if layer_name ≠ [] then
                 ctx.findChannelAlias (layer_name ++ [Char.ofNat 46] ++ chan_name)
               else none) with
        | some chan => (ctx, some chan)
        | none =>
          let r := ctx.addChannelAliasNew chan_name layer_name channel (toUInt32 position)
                     m.2.std_io_name m.2.std_io_type
          match r.2 with
          | none => (r.1, none)
          | some chan =>
            let chan_order : ChanOrder :=
              ⟨(r.1.deref chan).m_channel, (r.1.deref chan).m_position⟩
            match StdMap.find r.1.m_layer_name_map layer_name with
            | none =>
              ({ r.1 with
                  m_layers := r.1.m_layers ++ [⟨layer_name, [chan_order]⟩],
                  m_layer_name_map :=
                    StdMap.assign r.1.m_layer_name_map layer_name r.1.m_layers.length },
               some chan)
            | some l =>
              ({ r.1 with
                  m_layers := r.1.m_layers.modify
                    (fun layer => { layer with channels := layer.channels ++ [chan_order] }) l },
               some chan)

end ChannelContext

/-! ## Specification vocabulary -/

/-- The alias as `addChannelAlias` stores it: an invalid id is replaced by the
next arbitrary id. -/
def storedAlias (ctx : ChannelContext) (obj : ChannelAlias) : ChannelAlias :=
  if obj.m_channel = Chan_Invalid then { obj with m_channel := ctx.m_last_assigned + 1 }
  else obj

/-- Two texts are ASCII case variants of each other: they have the same
upper-cased form. -/
def caseVariant (a b : Str) : Prop := a.map toupper = b.map toupper

instance (a b : Str) : Decidable (caseVariant a b) :=
  inferInstanceAs (Decidable (a.map toupper = b.map toupper))

/-- The dot that separates layer and channel. -/
abbrev dot : Char := Char.ofNat 46

/-- The table row the matching map holds for a channel name: the lookup that
`matchStandardChannel` performs. -/
def stdMatch (name : Str) : Option StandardChannel :=
  if name = [] then none
  else StdMap.find g_standard_channel_matching_map (name.map toupper)

/-- The alias object `getChannelAlias` builds for a name that the registry
does not know: channel part, completed layer, matched id (or the invalid id),
position, and default IO name and type. -/
def resolvedAlias (Chan_ArbitraryStart : ChannelIdx) (name : Str) : ChannelAlias :=
  let split := splitName name
  let m := matchStandardChannel (some split.2) ⟨[], [], Chan_Invalid, [], .HALF⟩
  { m_name := split.2,
    m_layer :=
      if m.1 then (if split.1 = [] then m.2.std_layer_name else split.1)
      else (if split.1 = [] then "other".toList else split.1),
    m_channel := m.2.std_channel,
    m_position :=
      toUInt32 (if m.1 then getLayerPositionFromKind Chan_ArbitraryStart m.2.std_channel else 0),
    m_io_name := m.2.std_io_name,
    m_io_type := m.2.std_io_type }

/-- The layer bookkeeping at the end of `getChannelAlias`: the pair is
appended to the layer of that name, which is created when it is missing. -/
def addToLayer (ctx : ChannelContext) (layer_name : Str) (chan_order : ChanOrder) :
    ChannelContext :=
  match StdMap.find ctx.m_layer_name_map layer_name with
  | none =>
    { ctx with
        m_layers := ctx.m_layers ++ [⟨layer_name, [chan_order]⟩],
        m_layer_name_map :=
          StdMap.assign ctx.m_layer_name_map layer_name ctx.m_layers.length }
  | some l =>
    { ctx with
        m_layers := ctx.m_layers.modify
          (fun layer => { layer with channels := layer.channels ++ [chan_order] }) l }

/-- The context left by `getChannelAlias` when it creates an alias for a name. -/
def createdCtx (Chan_ArbitraryStart : ChannelIdx) (ctx : ChannelContext) (name : Str) :
    ChannelContext :=
  addToLayer (ctx.addChannelAlias (.fresh (resolvedAlias Chan_ArbitraryStart name))).1
    (resolvedAlias Chan_ArbitraryStart name).m_layer
    ⟨(storedAlias ctx (resolvedAlias Chan_ArbitraryStart name)).m_channel,
     (storedAlias ctx (resolvedAlias Chan_ArbitraryStart name)).m_position⟩

/-- The contexts reachable from a newly constructed `ChannelContext` by
`getChannelAlias` calls. -/
inductive Reachable (Chan_ArbitraryStart : ChannelIdx) (addStandardChans : Bool) :
    ChannelContext → Prop
  | init : Reachable Chan_ArbitraryStart addStandardChans
      (ChannelContext.new Chan_ArbitraryStart addStandardChans)
  | step {ctx : ChannelContext} (name : Option Str) :
      Reachable Chan_ArbitraryStart addStandardChans ctx →
      Reachable Chan_ArbitraryStart addStandardChans
        (ctx.getChannelAlias Chan_ArbitraryStart name).1

/-- The origin of a registered alias: it carries the id and default IO name of
a table row that either matches its name or is the row it was built from by
`addStandardChannels`, or its name matches no row and its id is a dynamically
allocated one. -/
def AliasKind (Chan_ArbitraryStart : ChannelIdx) (a : ChannelAlias) : Prop :=
  (∃ c ∈ g_standard_channel_table,
      c.ordering_index ≠ Chan_Invalid ∧
      a.m_channel = c.ordering_index ∧ a.m_io_name = c.dflt_io_name ∧
      a.m_io_type = c.dflt_io_pixel_type ∧
      a.m_position = toUInt32 (getLayerPositionFromKind Chan_ArbitraryStart c.ordering_index) ∧
      (stdMatch a.m_name = some c ∨
        (a.m_name = c.channel_name ∧ a.m_layer = c.layer_name))) ∨
  (stdMatch a.m_name = none ∧ a.m_io_name = [] ∧ Chan_ArbitraryStart ≤ a.m_channel ∧
    a.m_io_type = .HALF ∧ a.m_position = 0)

/-- The registry invariant of reachable contexts: every index entry points to
an alias of the list that carries its key, every alias has a layer, a valid id
and a known origin, and the counter never falls below its start value. -/
structure Inv (Chan_ArbitraryStart : ChannelIdx) (ctx : ChannelContext) : Prop where
  name_idx : ∀ k i, StdMap.find ctx.m_channelalias_name_map k = some i →
    ∃ a, ctx.m_channelalias_list[i]? = some a ∧
      (k = a.fullName ∨ (k = a.m_io_name ∧ k ≠ []))
  chan_idx : ∀ k i, StdMap.find ctx.m_channelalias_channel_map k = some i →
    ∃ a, ctx.m_channelalias_list[i]? = some a ∧ a.m_channel = k
  layer_ne : ∀ a ∈ ctx.m_channelalias_list, a.m_layer ≠ []
  chan_pos : ∀ a ∈ ctx.m_channelalias_list, a.m_channel ≠ Chan_Invalid
  kind : ∀ a ∈ ctx.m_channelalias_list, AliasKind Chan_ArbitraryStart a
  counter : Chan_ArbitraryStart - 1 ≤ ctx.m_last_assigned

/-- The id invariant of reachable contexts: the counter bounds every id, and
an id of the arbitrary range is larger than every id registered before it. -/
structure IdsInv (Chan_ArbitraryStart : ChannelIdx) (ctx : ChannelContext) : Prop where
  bound : ∀ a ∈ ctx.m_channelalias_list,
    1 ≤ a.m_channel ∧ a.m_channel ≤ ctx.m_last_assigned
  order : ∀ (i j : Nat) (a b : ChannelAlias), i < j →
    ctx.m_channelalias_list[i]? = some a →
    ctx.m_channelalias_list[j]? = some b → Chan_ArbitraryStart ≤ b.m_channel →
    a.m_channel < b.m_channel

/-- The alias object that the pointer returned by a call points to, in the
context the call leaves; `none` for a null pointer. -/
def returnedAlias (r : ChannelContext × Option Nat) : Option ChannelAlias :=
  r.2.bind (fun p => r.1.m_channelalias_list[p]?)

/-- An alias with its layer position set to zero. -/
def erasePosition (a : ChannelAlias) : ChannelAlias := { a with m_position := 0 }

/-- Two contexts hold the same registry up to the layer positions of their
aliases: same aliases in the same places, same id index, same name index. -/
structure SameRegistry (c1 c2 : ChannelContext) : Prop where
  list : c1.m_channelalias_list.map erasePosition = c2.m_channelalias_list.map erasePosition
  chan : c1.m_channelalias_channel_map = c2.m_channelalias_channel_map
  name : c1.m_channelalias_name_map = c2.m_channelalias_name_map

/-- The layer invariant of reachable contexts: the layer-name index and the
layer list describe each other, so every stored position is a valid index
whose layer has the key as its name, and every layer is indexed under its
name. -/
structure LayerInv (ctx : ChannelContext) : Prop where
  map_to : ∀ k i, StdMap.find ctx.m_layer_name_map k = some i →
    ∃ l, ctx.m_layers[i]? = some l ∧ l.name = k
  to_map : ∀ (i : Nat) (l : Layer), ctx.m_layers[i]? = some l →
    StdMap.find ctx.m_layer_name_map l.name = some i

/-- The registry of `later` extends the registry of `earlier`: every alias
keeps its place, and every key that resolves keeps its alias. -/
structure Extends (earlier later : ChannelContext) : Prop where
  list : ∀ (i : Nat) (a : ChannelAlias), earlier.m_channelalias_list[i]? = some a →
    later.m_channelalias_list[i]? = some a
  name : ∀ k i, earlier.findChannelAlias k = some i → later.findChannelAlias k = some i
  chan : ∀ k i, StdMap.find earlier.m_channelalias_channel_map k = some i →
    StdMap.find later.m_channelalias_channel_map k = some i
  counter : earlier.m_last_assigned ≤ later.m_last_assigned

/-- The contexts reachable from a newly constructed `ChannelContext` by calls
of `addChannelAlias` (with any pointer argument; the six-argument overload
is the call with a pointer to a newly allocated alias) and of
`getChannelAlias`. -/
inductive ReachableAny (Chan_ArbitraryStart : ChannelIdx) (addStandardChans : Bool) :
    ChannelContext → Prop
  | init : ReachableAny Chan_ArbitraryStart addStandardChans
      (ChannelContext.new Chan_ArbitraryStart addStandardChans)
  | add {ctx : ChannelContext} (ptr : AliasPtr) :
      ReachableAny Chan_ArbitraryStart addStandardChans ctx →
      ReachableAny Chan_ArbitraryStart addStandardChans (ctx.addChannelAlias ptr).1
  | get {ctx : ChannelContext} (name : Option Str) :
      ReachableAny Chan_ArbitraryStart addStandardChans ctx →
      ReachableAny Chan_ArbitraryStart addStandardChans
        (ctx.getChannelAlias Chan_ArbitraryStart name).1

/-- The index invariant: every entry of the id index points to an alias of the
list that carries the key as its id, and every entry of the name index under
a non-empty key points to an alias of the list that has the key as its full
name or as its default IO name. -/
structure IndexInv (ctx : ChannelContext) : Prop where
  name_idx : ∀ k i, k ≠ [] → StdMap.find ctx.m_channelalias_name_map k = some i →
    ∃ a, ctx.m_channelalias_list[i]? = some a ∧ (k = a.fullName ∨ k = a.m_io_name)
  chan_idx : ∀ k i, StdMap.find ctx.m_channelalias_channel_map k = some i →
    ∃ a, ctx.m_channelalias_list[i]? = some a ∧ a.m_channel = k

/-- The full-name invariant: every registered alias is found, at its own place
in the list, by the exact-name lookup of its full name. -/
def FullNameInv (ctx : ChannelContext) : Prop :=
  ∀ (i : Nat) (a : ChannelAlias), ctx.m_channelalias_list[i]? = some a →
    ctx.findChannelAlias a.fullName = some i

/-! ## ChannelSet -/

/-- Modelled from the spec: the type `ChannelIdxSet` of the mask of a
`ChannelSet`, declared in `DcxChannelSet.h` (not among the sources), "a set of
`ChannelIdx` values, ascending-order semantics".  The set is given by the
sequence of ids its iteration yields. -/
abbrev ChannelIdxSet := List ChannelIdx

/-- Modelled from the spec: insertion of an id into a `ChannelIdxSet`.  The id
takes its place in ascending order; an id the set holds already is not
inserted a second time. -/
def ChannelIdxSet.insert : ChannelIdxSet → ChannelIdx → ChannelIdxSet
  | [], c => [c]
  | x :: xs, c =>
    if c < x then c :: x :: xs
    else if c = x then x :: xs
    else x :: ChannelIdxSet.insert xs c

/-- The data member of a `ChannelSet`. -/
structure ChannelSet where
  m_mask : ChannelIdxSet
  deriving DecidableEq, Repr, Inhabited

/-- Modelled from the spec: the `ChannelSet` that holds the given ids, built by
inserting them one after the other into the empty set. -/
def ChannelSet.ofList (ids : List ChannelIdx) : ChannelSet :=
  ⟨ids.foldl ChannelIdxSet.insert []⟩

/-- Modelled from the spec: the stream insertion `os << channel` of a
`ChannelIdx`, which renders the id as a decimal number ("renders as
`[id,id,...]`").  A stream is the text written to it so far. -/
def printChannelIdx (os : Str) (channel : ChannelIdx) : Str :=
  os ++ Nat.toDigits 10 channel

/-- Modelled from the spec: the method `ChannelContext::printChannelFullName`,
which `ChannelSet::print` calls for each id when a context is supplied and
whose body is declared in `DcxChannelSet.h`, not among the sources.  The spec
gives the display of a set with a context as `[name,name,...]`, "falling back
to the literal token `unknown` for an id with no registered alias and
`invalid` for id 0", and its scenario prints the four rgba ids as `[R,G,B,A]`:
the method writes the channel name of the id, `getChannelName(channel)`, to
the stream. -/
def ChannelContext.printChannelFullName (ctx : ChannelContext) (os : Str)
    (channel : ChannelIdx) : Str :=
  os ++ ctx.getChannelName channel

/-- The loop of `ChannelSet::print` over the mask, with the counter `i` and the
stream. -/
def ChannelSet.printLoop (ctx : Option ChannelContext) : List ChannelIdx → Nat → Str → Str
  | [], _, os => os
  | z :: zs, i, os =>
    let os := if i > 0 then os ++ [Char.ofNat 44] else os
    let os :=
      match ctx with
      | some c => c.printChannelFullName os z
      | none => printChannelIdx os z
    ChannelSet.printLoop ctx zs (i + 1) os

/-- The method `ChannelSet::print`: the stream after the call.  The argument
`pfx` is the parameter `prefix` of the source, `none` when it is null. -/
def ChannelSet.print (s : ChannelSet) (pfx : Option Str) (os : Str)
    (ctx : Option ChannelContext) : Str :=
  let os :=
    match pfx with
    | some p => if p ≠ [] then os ++ p else os
    | none => os
  let os := os ++ "[".toList
  let os :=
    if s.m_mask.length = 0 then os ++ "none".toList
    else if s.m_mask.length = 1 then
      match ctx with
      | some c => c.printChannelFullName os (s.m_mask.headD Chan_Invalid)
      | none => printChannelIdx os (s.m_mask.headD Chan_Invalid)
    else ChannelSet.printLoop ctx s.m_mask 0 os
  os ++ "]".toList

/-! ## Vocabulary of the last claims -/

/-- The bounds invariant: every position stored in the id index and in the
name index is a valid index into the alias list, and every position stored
in the layer-name index is a valid index into the layer list, at which the
layer has the key as its name. -/
structure BoundsInv (ctx : ChannelContext) : Prop where
  name_bound : ∀ p ∈ ctx.m_channelalias_name_map, p.2 < ctx.m_channelalias_list.length
  chan_bound : ∀ p ∈ ctx.m_channelalias_channel_map, p.2 < ctx.m_channelalias_list.length
  layer_bound : ∀ p ∈ ctx.m_layer_name_map,
    ∃ l, ctx.m_layers[p.2]? = some l ∧ l.name = p.1

/-- The passes of `strip`, one per delimiter, with the two buffers of the
source spelled out: `p0` is the buffer a pass reads and `p1` the buffer it
writes with `push_back`; after the pass the buffer read is cleared and the
two pointers are swapped.  The result is the buffer `p0` points to after the
last pass. -/
def stripPasses : Str → Str → Str → Str
  | [], p0, _ => p0
  | dp :: delimiters, p0, p1 =>
    let p1 := p0.foldl (fun buf i => if i ≠ dp then buf ++ [i] else buf) p1
    stripPasses delimiters p1 []

/-- The function `strip` with its two buffers: `s0` is a copy of `src`, `s1`
is empty, and `src` is assigned the buffer that `p0` points to at the end. -/
def stripTwoBuffers (src delimiters : Str) : Str :=
  stripPasses delimiters src []

/-- A plain name: free of whitespace and not beginning with a dot. -/
def plainName (n : Str) : Prop :=
  (∀ ch ∈ n, ch ∉ whitespace) ∧ n.head? ≠ some dot

instance (n : Str) : Decidable (plainName n) :=
  inferInstanceAs (Decidable ((∀ ch ∈ n, ch ∉ whitespace) ∧ n.head? ≠ some dot))

/-- The contexts reachable from a newly constructed `ChannelContext` with
standard channels by `getChannelAlias` calls whose names are plain. -/
inductive ReachablePlain (Chan_ArbitraryStart : ChannelIdx) : ChannelContext → Prop
  | init : ReachablePlain Chan_ArbitraryStart (ChannelContext.new Chan_ArbitraryStart true)
  | step {ctx : ChannelContext} (name : Option Str) :
      (∀ n, name = some n → plainName n) →
      ReachablePlain Chan_ArbitraryStart ctx →
      ReachablePlain Chan_ArbitraryStart (ctx.getChannelAlias Chan_ArbitraryStart name).1

/-- The invariant of the contexts reached with plain names: an alias appended
after the standard ones has a non-empty layer, no whitespace in layer and
name, no dot in its name, and the id of the row its name matches (an
arbitrary id when it matches none); and a key resolves either as in the
newly constructed context or to an appended alias of which it is the full
name. -/
structure PlainInv (Chan_ArbitraryStart : ChannelIdx) (ctx : ChannelContext) : Prop where
  created : ∀ (i : Nat) (a : ChannelAlias), ctx.m_channelalias_list[i]? = some a →
    (ChannelContext.new Chan_ArbitraryStart true).m_channelalias_list.length ≤ i →
    a.m_layer ≠ [] ∧ (∀ ch ∈ a.m_layer, ch ∉ whitespace) ∧
    (∀ ch ∈ a.m_name, ch ∉ whitespace) ∧ dot ∉ a.m_name ∧
    (∀ c, stdMatch a.m_name = some c → a.m_channel = c.ordering_index) ∧
    (stdMatch a.m_name = none → Chan_ArbitraryStart ≤ a.m_channel)
  keys : ∀ (k : Str) (i : Nat), ctx.findChannelAlias k = some i →
    (ChannelContext.new Chan_ArbitraryStart true).findChannelAlias k = some i ∨
    ((ChannelContext.new Chan_ArbitraryStart true).m_channelalias_list.length ≤ i ∧
      ∃ a, ctx.m_channelalias_list[i]? = some a ∧ k = a.fullName)

/-! ## Lemmas and theorems -/

open ChannelContext

theorem stdmap_find_assign {κ ν : Type} [DecidableEq κ] (m : StdMap κ ν) (k key : κ) (v : ν) :
    StdMap.find (StdMap.assign m k v) key = if key = k then some v else StdMap.find m key := by
  induction m with
  | nil => simp [StdMap.assign, StdMap.find]
  | cons p m ih =>
    obtain ⟨k0, v0⟩ := p
    by_cases h : k = k0
    · subst h
      by_cases h2 : key = k <;> simp [StdMap.assign, StdMap.find, h2]
    · by_cases h2 : key = k0
      · subst h2
        have : ¬ key = k := fun e => h e.symm
        simp [StdMap.assign, StdMap.find, h, this]
      · simp [StdMap.assign, StdMap.find, h, h2, ih]

theorem stdmap_find_mem {κ ν : Type} [DecidableEq κ] (m : StdMap κ ν) (k : κ) (v : ν)
    (h : StdMap.find m k = some v) : (k, v) ∈ m := by
  induction m with
  | nil => simp [StdMap.find] at h
  | cons p m ih =>
    obtain ⟨k0, v0⟩ := p
    by_cases h2 : k = k0
    · subst h2
      simp [StdMap.find] at h
      simp [h]
    · simp [StdMap.find, h2] at h
      exact List.mem_cons_of_mem _ (ih h)

theorem add_fresh_eq (ctx : ChannelContext) (obj : ChannelAlias) :
    ctx.addChannelAlias (.fresh obj) =
      (let al := storedAlias ctx obj
       let n := ctx.m_channelalias_list.length
       let cm := if (if al.m_channel > Chan_Invalid then
                      StdMap.find ctx.m_channelalias_channel_map al.m_channel else none) = none
                 then StdMap.assign ctx.m_channelalias_channel_map al.m_channel n
                 else ctx.m_channelalias_channel_map
       let nm1 := if (if al.fullName ≠ [] then
                        StdMap.find ctx.m_channelalias_name_map al.fullName else none) = none
                  then StdMap.assign ctx.m_channelalias_name_map al.fullName n
                  else ctx.m_channelalias_name_map
       let nm2 := if al.m_io_name ≠ [] ∧
                     (if al.m_io_name ≠ [] then StdMap.find nm1 al.m_io_name else none) = none
                  then StdMap.assign nm1 al.m_io_name n else nm1
       (⟨ctx.m_channelalias_list ++ [al], cm, nm2, ctx.m_layers, ctx.m_layer_name_map,
          if obj.m_channel = Chan_Invalid then ctx.m_last_assigned + 1 else ctx.m_last_assigned⟩,
        some n)) := by
  rfl

theorem matchStandardChannel_eq (n : Str) (out : MatchOut) :
    matchStandardChannel (some n) out =
      match stdMatch n with
      | some c => (true, ⟨c.layer_name, c.channel_name, c.ordering_index, c.dflt_io_name,
          c.dflt_io_pixel_type⟩)
      | none => (false, ⟨[], out.std_chan_name, Chan_Invalid, [], out.std_io_type⟩) := by
  unfold matchStandardChannel stdMatch
  by_cases h : n = []
  · simp [h]
  · simp only [h, if_false]
    cases StdMap.find g_standard_channel_matching_map (List.map toupper n) <;> rfl

set_option maxRecDepth 100000 in
theorem matching_map_rows : ∀ p ∈ g_standard_channel_matching_map,
    p.2 ∈ g_standard_channel_table ∧ p.2.layer_name ≠ [] ∧
    1 ≤ p.2.ordering_index ∧ p.2.ordering_index ≤ Chan_CutoutZ ∧
    dot ∉ p.2.layer_name := by
  decide

theorem stdMatch_row {n : Str} {c : StandardChannel} (h : stdMatch n = some c) :
    c ∈ g_standard_channel_table ∧ c.layer_name ≠ [] ∧
    1 ≤ c.ordering_index ∧ c.ordering_index ≤ Chan_CutoutZ ∧ dot ∉ c.layer_name := by
  unfold stdMatch at h
  split at h
  · cases h
  · exact matching_map_rows _ (stdmap_find_mem _ _ _ h)

theorem resolvedAlias_layer (arb : ChannelIdx) (n : Str) :
    (resolvedAlias arb n).m_layer ≠ [] := by
  unfold resolvedAlias
  simp only [matchStandardChannel_eq]
  cases h : stdMatch (splitName n).2 with
  | none =>
    by_cases hl : (splitName n).1 = []
    · simp [hl]
    · simp [hl]
  | some c =>
    by_cases hl : (splitName n).1 = []
    · simp only [hl, if_true]
      exact (stdMatch_row h).2.1
    · simp [hl]

theorem fullName_of_layer {a : ChannelAlias} (h : a.m_layer ≠ []) :
    a.fullName = a.m_layer ++ [dot] ++ a.m_name := by
  unfold ChannelAlias.fullName
  simp [h]

theorem getChannelAlias_some (arb : ChannelIdx) (ctx : ChannelContext) (n : Str) (hn : n ≠ []) :
    ctx.getChannelAlias arb (some n) =
      match ctx.findChannelAlias n with
      | some p => (ctx, some p)
      | none =>
        match ctx.findChannelAlias (resolvedAlias arb n).fullName with
        | some p => (ctx, some p)
        | none =>
          (addToLayer (ctx.addChannelAlias (.fresh (resolvedAlias arb n))).1
              (resolvedAlias arb n).m_layer
              ⟨(storedAlias ctx (resolvedAlias arb n)).m_channel,
               (storedAlias ctx (resolvedAlias arb n)).m_position⟩,
           some ctx.m_channelalias_list.length) := by
  have hl := resolvedAlias_layer arb n
  have hfn := fullName_of_layer hl
  unfold getChannelAlias
  simp only [hn, if_false, findChannelAliasCStr]
  cases h1 : ctx.findChannelAlias n with
  | some p => rfl
  | none =>
    simp only []
    change (match (if (resolvedAlias arb n).m_layer ≠ [] then
        ctx.findChannelAlias ((resolvedAlias arb n).m_layer ++ [dot] ++ (resolvedAlias arb n).m_name)
        else none) with
      | some chan => (ctx, some chan)
      | none => _) = _
    rw [if_pos hl, ← hfn]
    cases h2 : ctx.findChannelAlias (resolvedAlias arb n).fullName with
    | some p => rfl
    | none =>
      have hd : ∀ (l : List ChannelAlias) (al : ChannelAlias) cm nm ls lm la,
          (ChannelContext.mk (l ++ [al]) cm nm ls lm la).deref l.length = al := by
        intro l al cm nm ls lm la
        simp [deref, List.getD_eq_getElem?_getD]
      simp only [addChannelAliasNew, add_fresh_eq, hd]
      split
      · next heq =>
        have h3 : StdMap.find ctx.m_layer_name_map (resolvedAlias arb n).m_layer = none := heq
        simp only [addToLayer, add_fresh_eq, h3]
        rfl
      · next l heq =>
        have h3 : StdMap.find ctx.m_layer_name_map (resolvedAlias arb n).m_layer = some l := heq
        simp only [addToLayer, add_fresh_eq, h3]
        rfl

theorem storedAlias_name (ctx : ChannelContext) (obj : ChannelAlias) :
    (storedAlias ctx obj).m_name = obj.m_name := by
  unfold storedAlias; split <;> rfl

theorem storedAlias_layer (ctx : ChannelContext) (obj : ChannelAlias) :
    (storedAlias ctx obj).m_layer = obj.m_layer := by
  unfold storedAlias; split <;> rfl

theorem storedAlias_io (ctx : ChannelContext) (obj : ChannelAlias) :
    (storedAlias ctx obj).m_io_name = obj.m_io_name := by
  unfold storedAlias; split <;> rfl

theorem storedAlias_type (ctx : ChannelContext) (obj : ChannelAlias) :
    (storedAlias ctx obj).m_io_type = obj.m_io_type := by
  unfold storedAlias; split <;> rfl

theorem storedAlias_position (ctx : ChannelContext) (obj : ChannelAlias) :
    (storedAlias ctx obj).m_position = obj.m_position := by
  unfold storedAlias; split <;> rfl

theorem storedAlias_fullName (ctx : ChannelContext) (obj : ChannelAlias) :
    (storedAlias ctx obj).fullName = obj.fullName := by
  unfold storedAlias; split <;> rfl

theorem storedAlias_channel (ctx : ChannelContext) (obj : ChannelAlias) :
    (storedAlias ctx obj).m_channel =
      if obj.m_channel = Chan_Invalid then ctx.m_last_assigned + 1 else obj.m_channel := by
  unfold storedAlias; split <;> rfl

theorem storedAlias_channel_pos (ctx : ChannelContext) (obj : ChannelAlias) :
    (storedAlias ctx obj).m_channel > Chan_Invalid := by
  rw [storedAlias_channel]
  split
  · exact Nat.succ_pos _
  · exact Nat.pos_of_ne_zero (by assumption)

theorem add_fresh_list (ctx : ChannelContext) (obj : ChannelAlias) :
    (ctx.addChannelAlias (.fresh obj)).1.m_channelalias_list
      = ctx.m_channelalias_list ++ [storedAlias ctx obj] := rfl

theorem add_fresh_last (ctx : ChannelContext) (obj : ChannelAlias) :
    (ctx.addChannelAlias (.fresh obj)).1.m_last_assigned
      = if obj.m_channel = Chan_Invalid then ctx.m_last_assigned + 1
        else ctx.m_last_assigned := rfl

theorem add_fresh_layers (ctx : ChannelContext) (obj : ChannelAlias) :
    (ctx.addChannelAlias (.fresh obj)).1.m_layers = ctx.m_layers := rfl

theorem add_fresh_layer_map (ctx : ChannelContext) (obj : ChannelAlias) :
    (ctx.addChannelAlias (.fresh obj)).1.m_layer_name_map = ctx.m_layer_name_map := rfl

theorem add_fresh_chan_find (ctx : ChannelContext) (obj : ChannelAlias) (k : ChannelIdx) :
    StdMap.find (ctx.addChannelAlias (.fresh obj)).1.m_channelalias_channel_map k
      = match StdMap.find ctx.m_channelalias_channel_map k with
        | some i => some i
        | none =>
          if k = (storedAlias ctx obj).m_channel then some ctx.m_channelalias_list.length
          else none := by
  rw [add_fresh_eq]
  simp only [if_pos (storedAlias_channel_pos ctx obj)]
  by_cases h1 : StdMap.find ctx.m_channelalias_channel_map (storedAlias ctx obj).m_channel = none
  · simp only [h1, if_true, stdmap_find_assign]
    by_cases h2 : k = (storedAlias ctx obj).m_channel
    · simp only [h2, if_true, h1]
    · simp only [h2, if_false]
      cases StdMap.find ctx.m_channelalias_channel_map k <;> rfl
  · simp only [h1, if_false]
    by_cases h2 : k = (storedAlias ctx obj).m_channel
    · subst h2
      cases h3 : StdMap.find ctx.m_channelalias_channel_map (storedAlias ctx obj).m_channel with
      | none => exact absurd h3 h1
      | some i => rfl
    · simp only [h2, if_false]
      cases StdMap.find ctx.m_channelalias_channel_map k <;> rfl

theorem guarded_assign_find (nm : StdMap Str Nat) (K k : Str) (n : Nat) (hk : k ≠ [])
    (c : Prop) [Decidable c] (h1 : c → K ≠ [] → StdMap.find nm K = none)
    (h2 : ¬ c → K = [] ∨ StdMap.find nm K ≠ none) :
    StdMap.find (if c then StdMap.assign nm K n else nm) k
      = match StdMap.find nm k with
        | some i => some i
        | none => if k = K then some n else none := by
  by_cases hc : c
  · rw [if_pos hc, stdmap_find_assign]
    by_cases hkK : k = K
    · subst hkK
      rw [if_pos rfl, h1 hc hk]
      simp
    · rw [if_neg hkK]
      cases StdMap.find nm k <;> simp [hkK]
  · rw [if_neg hc]
    cases h3 : StdMap.find nm k with
    | some i => rfl
    | none =>
      by_cases hkK : k = K
      · subst hkK
        rcases h2 hc with h | h
        · exact absurd h hk
        · exact absurd h3 h
      · simp [hkK]

theorem add_fresh_name_find (ctx : ChannelContext) (obj : ChannelAlias) (k : Str) (hk : k ≠ []) :
    StdMap.find (ctx.addChannelAlias (.fresh obj)).1.m_channelalias_name_map k
      = match StdMap.find ctx.m_channelalias_name_map k with
        | some i => some i
        | none =>
          if k = obj.fullName ∨ k = obj.m_io_name then some ctx.m_channelalias_list.length
          else none := by
  rw [add_fresh_eq]
  simp only [storedAlias_fullName, storedAlias_io]
  rw [guarded_assign_find _ _ _ _ hk, guarded_assign_find _ _ _ _ hk]
  · cases StdMap.find ctx.m_channelalias_name_map k with
    | some i => rfl
    | none =>
      by_cases h1 : k = obj.fullName
      · simp [h1]
      · by_cases h2 : k = obj.m_io_name
        · subst h2
          simp [h1]
        · simp [h1, h2]
  · intro hc hne
    simpa [hne] using hc
  · intro hc
    by_cases hne : obj.fullName = []
    · exact Or.inl hne
    · right
      simpa [hne] using hc
  · intro hc hne
    simpa [hne] using hc.2
  · intro hc
    by_cases hne : obj.m_io_name = []
    · exact Or.inl hne
    · right
      simpa [hne] using hc

theorem add_fresh_find (ctx : ChannelContext) (obj : ChannelAlias) (k : Str) :
    (ctx.addChannelAlias (.fresh obj)).1.findChannelAlias k
      = match ctx.findChannelAlias k with
        | some i => some i
        | none =>
          if k ≠ [] ∧ (k = obj.fullName ∨ k = obj.m_io_name) then
            some ctx.m_channelalias_list.length
          else none := by
  unfold findChannelAlias
  by_cases hk : k = []
  · simp [hk]
  · simp only [ne_eq, hk, not_false_eq_true, if_true, true_and]
    exact add_fresh_name_find ctx obj k hk

theorem addToLayer_list (ctx : ChannelContext) (l : Str) (o : ChanOrder) :
    (addToLayer ctx l o).m_channelalias_list = ctx.m_channelalias_list := by
  unfold addToLayer; split <;> rfl

theorem addToLayer_name_map (ctx : ChannelContext) (l : Str) (o : ChanOrder) :
    (addToLayer ctx l o).m_channelalias_name_map = ctx.m_channelalias_name_map := by
  unfold addToLayer; split <;> rfl

theorem addToLayer_chan_map (ctx : ChannelContext) (l : Str) (o : ChanOrder) :
    (addToLayer ctx l o).m_channelalias_channel_map = ctx.m_channelalias_channel_map := by
  unfold addToLayer; split <;> rfl

theorem addToLayer_last (ctx : ChannelContext) (l : Str) (o : ChanOrder) :
    (addToLayer ctx l o).m_last_assigned = ctx.m_last_assigned := by
  unfold addToLayer; split <;> rfl

theorem addToLayer_find (ctx : ChannelContext) (l : Str) (o : ChanOrder) (k : Str) :
    (addToLayer ctx l o).findChannelAlias k = ctx.findChannelAlias k := by
  unfold findChannelAlias; rw [addToLayer_name_map]

/-- The context after `getChannelAlias` had to create an alias. -/
theorem getChannelAlias_cases (arb : ChannelIdx) (ctx : ChannelContext) (n : Str) (hn : n ≠ []) :
    (∃ p, (ctx.findChannelAlias n = some p ∨
            (ctx.findChannelAlias n = none ∧
              ctx.findChannelAlias (resolvedAlias arb n).fullName = some p)) ∧
          ctx.getChannelAlias arb (some n) = (ctx, some p)) ∨
    (ctx.findChannelAlias n = none ∧
      ctx.findChannelAlias (resolvedAlias arb n).fullName = none ∧
      ctx.getChannelAlias arb (some n) =
        (addToLayer (ctx.addChannelAlias (.fresh (resolvedAlias arb n))).1
            (resolvedAlias arb n).m_layer
            ⟨(storedAlias ctx (resolvedAlias arb n)).m_channel,
             (storedAlias ctx (resolvedAlias arb n)).m_position⟩,
          some ctx.m_channelalias_list.length)) := by
  rw [getChannelAlias_some arb ctx n hn]
  cases h1 : ctx.findChannelAlias n with
  | some p => exact Or.inl ⟨p, Or.inl rfl, rfl⟩
  | none =>
    cases h2 : ctx.findChannelAlias (resolvedAlias arb n).fullName with
    | some p => exact Or.inl ⟨p, Or.inr ⟨rfl, rfl⟩, rfl⟩
    | none => exact Or.inr ⟨rfl, rfl, rfl⟩

theorem getChannelAlias_null (arb : ChannelIdx) (ctx : ChannelContext) :
    ctx.getChannelAlias arb none = (ctx, none) := rfl

theorem getChannelAlias_empty (arb : ChannelIdx) (ctx : ChannelContext) :
    ctx.getChannelAlias arb (some []) = (ctx, none) := rfl

theorem fullName_ne_nil {a : ChannelAlias} (h : a.m_layer ≠ []) : a.fullName ≠ [] := by
  rw [fullName_of_layer h]
  simp

/-- Lookup of a name in the context produced when `getChannelAlias` creates an alias. -/
theorem created_find (arb : ChannelIdx) (ctx : ChannelContext) (n k : Str) :
    (addToLayer (ctx.addChannelAlias (.fresh (resolvedAlias arb n))).1
        (resolvedAlias arb n).m_layer
        ⟨(storedAlias ctx (resolvedAlias arb n)).m_channel,
         (storedAlias ctx (resolvedAlias arb n)).m_position⟩).findChannelAlias k
      = match ctx.findChannelAlias k with
        | some i => some i
        | none =>
          if k ≠ [] ∧ (k = (resolvedAlias arb n).fullName ∨ k = (resolvedAlias arb n).m_io_name) then
            some ctx.m_channelalias_list.length
          else none := by
  rw [addToLayer_find]
  exact add_fresh_find ctx _ k

/-- C1. Resolver idempotence: for every context and every non-empty name, a
second `getChannelAlias` call with the same name on the context left by the
first call returns the same alias pointer, which is not null, and leaves that
context unchanged, so it registers nothing new and the alias, its channel id
included, is the same. -/
theorem getChannelAlias_idempotent (arb : ChannelIdx) (ctx : ChannelContext) (n : Str)
    (hn : n ≠ []) :
    (∃ p, (ctx.getChannelAlias arb (some n)).2 = some p) ∧
    (ctx.getChannelAlias arb (some n)).1.getChannelAlias arb (some n)
      = ctx.getChannelAlias arb (some n) := by
  rcases getChannelAlias_cases arb ctx n hn with ⟨p, _, h⟩ | ⟨h1, h2, h⟩
  · rw [h]
    exact ⟨⟨p, rfl⟩, h⟩
  · rw [h]
    refine ⟨⟨_, rfl⟩, ?_⟩
    simp only []
    rw [getChannelAlias_some arb _ n hn, created_find, created_find, h1, h2]
    have hF := fullName_ne_nil (resolvedAlias_layer arb n)
    simp only []
    by_cases hk : n = (resolvedAlias arb n).fullName ∨ n = (resolvedAlias arb n).m_io_name
    · simp [hn, hk]
    · simp [hn, hk, hF]


theorem extends_refl (ctx : ChannelContext) : Extends ctx ctx :=
  ⟨fun _ _ h => h, fun _ _ h => h, fun _ _ h => h, Nat.le_refl _⟩

theorem extends_trans {a b c : ChannelContext} (h1 : Extends a b) (h2 : Extends b c) :
    Extends a c :=
  ⟨fun i x h => h2.list i x (h1.list i x h), fun k i h => h2.name k i (h1.name k i h),
   fun k i h => h2.chan k i (h1.chan k i h), Nat.le_trans h1.counter h2.counter⟩

theorem getElem?_append_of_some {α : Type} (l : List α) (x : α) (i : Nat) (a : α)
    (h : l[i]? = some a) : (l ++ [x])[i]? = some a := by
  have hi : i < l.length := by
    rcases Nat.lt_or_ge i l.length with hlt | hge
    · exact hlt
    · rw [List.getElem?_eq_none hge] at h
      cases h
  rw [List.getElem?_append_left hi]
  exact h

theorem extends_add_fresh (ctx : ChannelContext) (obj : ChannelAlias) :
    Extends ctx (ctx.addChannelAlias (.fresh obj)).1 := by
  refine ⟨?_, ?_, ?_, ?_⟩
  · intro i a h
    rw [add_fresh_list]
    exact getElem?_append_of_some _ _ _ _ h
  · intro k i h
    rw [add_fresh_find, h]
  · intro k i h
    rw [add_fresh_chan_find, h]
  · rw [add_fresh_last]
    split
    · exact Nat.le_succ _
    · exact Nat.le_refl _

theorem extends_add (ctx : ChannelContext) (ptr : AliasPtr) :
    Extends ctx (ctx.addChannelAlias ptr).1 := by
  cases ptr with
  | null => exact extends_refl ctx
  | registered i => exact extends_refl ctx
  | fresh obj => exact extends_add_fresh ctx obj

theorem extends_addToLayer (ctx : ChannelContext) (l : Str) (o : ChanOrder) :
    Extends ctx (addToLayer ctx l o) := by
  refine ⟨?_, ?_, ?_, ?_⟩
  · intro i a h
    rw [addToLayer_list]; exact h
  · intro k i h
    rw [addToLayer_find]; exact h
  · intro k i h
    rw [addToLayer_chan_map]; exact h
  · rw [addToLayer_last]

theorem extends_get (arb : ChannelIdx) (ctx : ChannelContext) (name : Option Str) :
    Extends ctx (ctx.getChannelAlias arb name).1 := by
  cases name with
  | none => exact extends_refl ctx
  | some n =>
    by_cases hn : n = []
    · subst hn
      exact extends_refl ctx
    · rcases getChannelAlias_cases arb ctx n hn with ⟨p, _, h⟩ | ⟨_, _, h⟩
      · rw [h]; exact extends_refl ctx
      · rw [h]
        exact extends_trans (extends_add_fresh ctx _) (extends_addToLayer _ _ _)

/-- The name index keeps every entry stored under a non-empty key. -/
theorem name_entries_add (ctx : ChannelContext) (ptr : AliasPtr) (k : Str) (i : Nat)
    (hk : k ≠ []) (h : StdMap.find ctx.m_channelalias_name_map k = some i) :
    StdMap.find (ctx.addChannelAlias ptr).1.m_channelalias_name_map k = some i := by
  have := (extends_add ctx ptr).name k i (by simpa [findChannelAlias, hk] using h)
  simpa [findChannelAlias, hk] using this

theorem name_entries_get (arb : ChannelIdx) (ctx : ChannelContext) (name : Option Str)
    (k : Str) (i : Nat) (hk : k ≠ [])
    (h : StdMap.find ctx.m_channelalias_name_map k = some i) :
    StdMap.find (ctx.getChannelAlias arb name).1.m_channelalias_name_map k = some i := by
  have := (extends_get arb ctx name).name k i (by simpa [findChannelAlias, hk] using h)
  simpa [findChannelAlias, hk] using this

theorem findIdx_of_extends {a b : ChannelContext} (h : Extends a b) (ch : ChannelIdx) (p : Nat)
    (hf : a.findChannelAliasIdx ch = some p) : b.findChannelAliasIdx ch = some p := by
  unfold findChannelAliasIdx at hf ⊢
  split at hf
  · next hpos => rw [if_pos hpos]; exact h.chan ch p hf
  · cases hf

theorem findCStr_of_extends {a b : ChannelContext} (h : Extends a b) (k : Option Str) (p : Nat)
    (hf : a.findChannelAliasCStr k = some p) : b.findChannelAliasCStr k = some p := by
  unfold findChannelAliasCStr at hf ⊢
  cases k with
  | none => cases hf
  | some n =>
    simp only [] at hf ⊢
    split at hf
    · cases hf
    · next hne => rw [if_neg hne]; exact h.name n p hf

/-- First-writer-wins registry, apart from the empty key: after any
`addChannelAlias` call (pointer or six-argument overload) and after any
`getChannelAlias` call, every key (name, C string or channel id) for which
`findChannelAlias` returned an alias still returns the same pointer, the alias
it points to is unchanged, no id-index entry is removed or rewritten, and no
name-index entry stored under a non-empty name is removed or rewritten. -/
theorem registry_first_writer_wins (arb : ChannelIdx) (ctx : ChannelContext) :
    (∀ ctx2 : ChannelContext,
      ((∃ ptr, ctx2 = (ctx.addChannelAlias ptr).1) ∨
       (∃ chan_name layer_name channel position io_name io_type,
          ctx2 = (ctx.addChannelAliasNew chan_name layer_name channel position
                    io_name io_type).1) ∨
       (∃ name, ctx2 = (ctx.getChannelAlias arb name).1)) →
      (∀ k p, ctx.findChannelAlias k = some p → ctx2.findChannelAlias k = some p) ∧
      (∀ k p, ctx.findChannelAliasCStr k = some p → ctx2.findChannelAliasCStr k = some p) ∧
      (∀ ch p, ctx.findChannelAliasIdx ch = some p → ctx2.findChannelAliasIdx ch = some p) ∧
      (∀ (p : Nat) (a : ChannelAlias), ctx.m_channelalias_list[p]? = some a →
          ctx2.m_channelalias_list[p]? = some a) ∧
      (∀ ch i, StdMap.find ctx.m_channelalias_channel_map ch = some i →
          StdMap.find ctx2.m_channelalias_channel_map ch = some i) ∧
      (∀ k i, k ≠ [] → StdMap.find ctx.m_channelalias_name_map k = some i →
          StdMap.find ctx2.m_channelalias_name_map k = some i)) := by
  intro ctx2 h
  have hE : Extends ctx ctx2 ∧ (∀ k i, k ≠ [] →
      StdMap.find ctx.m_channelalias_name_map k = some i →
      StdMap.find ctx2.m_channelalias_name_map k = some i) := by
    rcases h with ⟨ptr, rfl⟩ | ⟨c, l, ch, pos, io, ty, rfl⟩ | ⟨name, rfl⟩
    · exact ⟨extends_add ctx ptr, fun k i hk h => name_entries_add ctx ptr k i hk h⟩
    · exact ⟨extends_add ctx _, fun k i hk h => name_entries_add ctx _ k i hk h⟩
    · exact ⟨extends_get arb ctx name, fun k i hk h => name_entries_get arb ctx name k i hk h⟩
  exact ⟨hE.1.name, fun k p => findCStr_of_extends hE.1 k p,
    fun ch p => findIdx_of_extends hE.1 ch p, hE.1.list, hE.1.chan, hE.2⟩

theorem find_ite_assign_ne {κ ν : Type} [DecidableEq κ] (nm : StdMap κ ν) (K k : κ) (n : ν)
    (c : Prop) [Decidable c] (h : ¬ (c ∧ k = K)) :
    StdMap.find (if c then StdMap.assign nm K n else nm) k = StdMap.find nm k := by
  by_cases hc : c
  · rw [if_pos hc, stdmap_find_assign, if_neg (fun e => h ⟨hc, e⟩)]
  · rw [if_neg hc]

theorem add_fresh_name_find_nil (ctx : ChannelContext) (obj : ChannelAlias)
    (hF : obj.fullName ≠ []) :
    StdMap.find (ctx.addChannelAlias (.fresh obj)).1.m_channelalias_name_map []
      = StdMap.find ctx.m_channelalias_name_map [] := by
  rw [add_fresh_eq]
  simp only [storedAlias_fullName, storedAlias_io]
  rw [find_ite_assign_ne, find_ite_assign_ne]
  · exact fun h => hF h.2.symm
  · exact fun h => h.1.1 h.2.symm

theorem mem_concat_cases {α : Type} {l : List α} {x a : α} (h : a ∈ l ++ [x]) :
    a ∈ l ∨ a = x := by
  simpa using h

theorem getElem?_concat_cases {α : Type} {l : List α} {x a : α} {i : Nat}
    (h : (l ++ [x])[i]? = some a) : l[i]? = some a ∨ (i = l.length ∧ a = x) := by
  rcases Nat.lt_trichotomy i l.length with hlt | heq | hgt
  · rw [List.getElem?_append_left hlt] at h
    exact Or.inl h
  · subst heq
    rw [List.getElem?_concat_length] at h
    exact Or.inr ⟨rfl, (Option.some.inj h).symm⟩
  · rw [List.getElem?_eq_none (by simp; omega)] at h
    cases h

/-- Registration of an alias with a layer and a known origin keeps the registry invariant. -/
theorem inv_add_fresh (arb : ChannelIdx) (ctx : ChannelContext) (obj : ChannelAlias)
    (hI : Inv arb ctx) (hl : obj.m_layer ≠ [])
    (hk : AliasKind arb (storedAlias ctx obj)) :
    Inv arb (ctx.addChannelAlias (.fresh obj)).1 := by
  have hF : obj.fullName ≠ [] := fullName_ne_nil hl
  have hlast : (ctx.m_channelalias_list ++ [storedAlias ctx obj])[ctx.m_channelalias_list.length]?
      = some (storedAlias ctx obj) := List.getElem?_concat_length _ _
  refine ⟨?_, ?_, ?_, ?_, ?_, ?_⟩
  · intro k i h
    rw [add_fresh_list]
    have old : ∀ i0, StdMap.find ctx.m_channelalias_name_map k = some i0 →
        ∃ a, (ctx.m_channelalias_list ++ [storedAlias ctx obj])[i0]? = some a ∧
          (k = a.fullName ∨ (k = a.m_io_name ∧ k ≠ [])) := by
      intro i0 h0
      obtain ⟨a, ha, hka⟩ := hI.name_idx k i0 h0
      exact ⟨a, getElem?_append_of_some _ _ _ _ ha, hka⟩
    by_cases hk0 : k = []
    · subst hk0
      rw [add_fresh_name_find_nil ctx obj hF] at h
      exact old i h
    · rw [add_fresh_name_find ctx obj k hk0] at h
      cases h0 : StdMap.find ctx.m_channelalias_name_map k with
      | some i0 =>
        rw [h0] at h
        cases h
        exact old _ h0
      | none =>
        rw [h0] at h
        simp only [] at h
        split at h
        · next hkk =>
          cases h
          refine ⟨storedAlias ctx obj, hlast, ?_⟩
          rw [storedAlias_fullName, storedAlias_io]
          rcases hkk with h1 | h1
          · exact Or.inl h1
          · exact Or.inr ⟨h1, hk0⟩
        · cases h
  · intro k i h
    rw [add_fresh_list]
    rw [add_fresh_chan_find] at h
    cases h0 : StdMap.find ctx.m_channelalias_channel_map k with
    | some i0 =>
      rw [h0] at h
      cases h
      obtain ⟨a, ha, hka⟩ := hI.chan_idx k _ h0
      exact ⟨a, getElem?_append_of_some _ _ _ _ ha, hka⟩
    | none =>
      rw [h0] at h
      simp only [] at h
      split at h
      · next hkk =>
        cases h
        exact ⟨storedAlias ctx obj, hlast, hkk.symm⟩
      · cases h
  · intro a ha
    rw [add_fresh_list] at ha
    rcases mem_concat_cases ha with h | h
    · exact hI.layer_ne a h
    · rw [h, storedAlias_layer]; exact hl
  · intro a ha
    rw [add_fresh_list] at ha
    rcases mem_concat_cases ha with h | h
    · exact hI.chan_pos a h
    · rw [h]; exact Nat.pos_iff_ne_zero.mp (storedAlias_channel_pos ctx obj)
  · intro a ha
    rw [add_fresh_list] at ha
    rcases mem_concat_cases ha with h | h
    · exact hI.kind a h
    · rw [h]; exact hk
  · rw [add_fresh_last]
    have := hI.counter
    split
    · exact Nat.le_succ_of_le this
    · exact this

theorem inv_addToLayer (arb : ChannelIdx) (ctx : ChannelContext) (l : Str) (o : ChanOrder)
    (hI : Inv arb ctx) : Inv arb (addToLayer ctx l o) := by
  refine ⟨?_, ?_, ?_, ?_, ?_, ?_⟩
  · rw [addToLayer_name_map, addToLayer_list]; exact hI.name_idx
  · rw [addToLayer_chan_map, addToLayer_list]; exact hI.chan_idx
  · rw [addToLayer_list]; exact hI.layer_ne
  · rw [addToLayer_list]; exact hI.chan_pos
  · rw [addToLayer_list]; exact hI.kind
  · rw [addToLayer_last]; exact hI.counter


theorem resolved_of_match (arb : ChannelIdx) (n : Str) (c : StandardChannel)
    (h : stdMatch (splitName n).2 = some c) :
    resolvedAlias arb n =
      ⟨(splitName n).2, if (splitName n).1 = [] then c.layer_name else (splitName n).1,
       c.ordering_index, toUInt32 (getLayerPositionFromKind arb c.ordering_index),
       c.dflt_io_name, c.dflt_io_pixel_type⟩ := by
  unfold resolvedAlias
  simp only [matchStandardChannel_eq, h, if_true]

theorem resolved_of_nomatch (arb : ChannelIdx) (n : Str)
    (h : stdMatch (splitName n).2 = none) :
    resolvedAlias arb n =
      ⟨(splitName n).2, if (splitName n).1 = [] then "other".toList else (splitName n).1,
       Chan_Invalid, 0, [], .HALF⟩ := by
  unfold resolvedAlias
  simp only [matchStandardChannel_eq, h]
  rfl

theorem resolved_name (arb : ChannelIdx) (n : Str) :
    (resolvedAlias arb n).m_name = (splitName n).2 := rfl

theorem kind_resolved (arb : ChannelIdx) (ctx : ChannelContext) (n : Str)
    (hc : arb - 1 ≤ ctx.m_last_assigned) :
    AliasKind arb (storedAlias ctx (resolvedAlias arb n)) := by
  cases h : stdMatch (splitName n).2 with
  | some c =>
    have hrow := stdMatch_row h
    have hne : c.ordering_index ≠ Chan_Invalid := Nat.pos_iff_ne_zero.mp hrow.2.2.1
    rw [resolved_of_match arb n c h]
    left
    refine ⟨c, hrow.1, hne, ?_, ?_, ?_, ?_, ?_⟩
    · rw [storedAlias_channel]; simp only [hne, if_false]
    · rw [storedAlias_io]
    · rw [storedAlias_type]
    · rw [storedAlias_position]
    · left; rw [storedAlias_name]; exact h
  | none =>
    rw [resolved_of_nomatch arb n h]
    right
    refine ⟨?_, ?_, ?_, ?_, ?_⟩
    · rw [storedAlias_name]; exact h
    · rw [storedAlias_io]
    · rw [storedAlias_channel]
      simp only [if_true]
      exact Nat.le_succ_of_pred_le hc
    · rw [storedAlias_type]
    · rw [storedAlias_position]

set_option maxRecDepth 100000 in
theorem table_rows : ∀ c ∈ g_standard_channel_table, c.layer_name ≠ "invalid".toList →
    c.layer_name ≠ [] ∧ c.ordering_index ≠ Chan_Invalid ∧ c.ordering_index ≤ Chan_CutoutZ := by
  decide

theorem inv_add_std (arb : ChannelIdx) (ctx : ChannelContext) (c : StandardChannel)
    (hI : Inv arb ctx) (hc : c ∈ g_standard_channel_table)
    (hn : c.layer_name ≠ "invalid".toList) :
    Inv arb (ctx.addChannelAliasNew c.channel_name c.layer_name c.ordering_index
      (toUInt32 (getLayerPositionFromKind arb c.ordering_index))
      c.dflt_io_name c.dflt_io_pixel_type).1 := by
  have hrow := table_rows c hc hn
  unfold addChannelAliasNew
  apply inv_add_fresh arb ctx _ hI hrow.1
  left
  refine ⟨c, hc, hrow.2.1, ?_, ?_, ?_, ?_, ?_⟩
  · rw [storedAlias_channel]; simp only [hrow.2.1, if_false]
  · rw [storedAlias_io]
  · rw [storedAlias_type]
  · rw [storedAlias_position]
  · right; rw [storedAlias_name, storedAlias_layer]; exact ⟨rfl, rfl⟩

theorem inv_fold_std (arb : ChannelIdx) (rows : List StandardChannel)
    (hrows : ∀ c ∈ rows, c ∈ g_standard_channel_table) :
    ∀ ctx : ChannelContext, Inv arb ctx →
      Inv arb (rows.foldl
        (fun ctx c =>
          if c.layer_name = "invalid".toList then ctx
          else (ctx.addChannelAliasNew c.channel_name c.layer_name c.ordering_index
                  (toUInt32 (getLayerPositionFromKind arb c.ordering_index))
                  c.dflt_io_name c.dflt_io_pixel_type).1) ctx) := by
  induction rows with
  | nil => intro ctx h; exact h
  | cons c rows ih =>
    intro ctx h
    simp only [List.foldl_cons]
    apply ih (fun x hx => hrows x (List.mem_cons_of_mem _ hx))
    by_cases hn : c.layer_name = "invalid".toList
    · rw [if_pos hn]; exact h
    · rw [if_neg hn]
      exact inv_add_std arb ctx c h (hrows c (List.mem_cons_self _ _)) hn

theorem inv_new (arb : ChannelIdx) (b : Bool) : Inv arb (ChannelContext.new arb b) := by
  have h0 : Inv arb ⟨[], [], [], [], [], arb - 1⟩ := by
    refine ⟨?_, ?_, ?_, ?_, ?_, ?_⟩
    · intro k i h; simp [StdMap.find] at h
    · intro k i h; simp [StdMap.find] at h
    · intro a ha; simp at ha
    · intro a ha; simp at ha
    · intro a ha; simp at ha
    · exact Nat.le_refl _
  unfold ChannelContext.new
  cases b with
  | false => exact h0
  | true =>
    simp only [if_true]
    exact inv_fold_std arb _ (fun c h => h) _ h0

theorem inv_get (arb : ChannelIdx) (ctx : ChannelContext) (name : Option Str)
    (hI : Inv arb ctx) : Inv arb (ctx.getChannelAlias arb name).1 := by
  cases name with
  | none => exact hI
  | some n =>
    by_cases hn : n = []
    · subst hn; exact hI
    · rcases getChannelAlias_cases arb ctx n hn with ⟨p, _, h⟩ | ⟨_, _, h⟩
      · rw [h]; exact hI
      · rw [h]
        apply inv_addToLayer
        exact inv_add_fresh arb ctx _ hI (resolvedAlias_layer arb n)
          (kind_resolved arb ctx n hI.counter)

theorem inv_reachable (arb : ChannelIdx) (b : Bool) (ctx : ChannelContext)
    (h : Reachable arb b ctx) : Inv arb ctx := by
  induction h with
  | init => exact inv_new arb b
  | step name _ ih => exact inv_get arb _ name ih

theorem extends_reachable (arb : ChannelIdx) (b : Bool) (ctx : ChannelContext)
    (h : Reachable arb b ctx) : Extends (ChannelContext.new arb b) ctx := by
  induction h with
  | init => exact extends_refl _
  | step name _ ih => exact extends_trans ih (extends_get arb _ name)

theorem find_of_findChannelAlias {ctx : ChannelContext} {k : Str} {p : Nat}
    (h : ctx.findChannelAlias k = some p) :
    k ≠ [] ∧ StdMap.find ctx.m_channelalias_name_map k = some p := by
  unfold findChannelAlias at h
  split at h
  · next hk => exact ⟨hk, h⟩
  · cases h

theorem returnedAlias_mk (ctx : ChannelContext) (p : Nat) :
    returnedAlias (ctx, some p) = ctx.m_channelalias_list[p]? := rfl

theorem createdCtx_list (arb : ChannelIdx) (ctx : ChannelContext) (n : Str) :
    (createdCtx arb ctx n).m_channelalias_list
      = ctx.m_channelalias_list ++ [storedAlias ctx (resolvedAlias arb n)] := by
  unfold createdCtx
  rw [addToLayer_list, add_fresh_list]

theorem createdCtx_last (arb : ChannelIdx) (ctx : ChannelContext) (n : Str) :
    (createdCtx arb ctx n).m_last_assigned
      = if (resolvedAlias arb n).m_channel = Chan_Invalid then ctx.m_last_assigned + 1
        else ctx.m_last_assigned := by
  unfold createdCtx
  rw [addToLayer_last, add_fresh_last]

theorem createdCtx_returned (arb : ChannelIdx) (ctx : ChannelContext) (n : Str) :
    returnedAlias (createdCtx arb ctx n, some ctx.m_channelalias_list.length)
      = some (storedAlias ctx (resolvedAlias arb n)) := by
  rw [returnedAlias_mk, createdCtx_list]
  exact List.getElem?_concat_length _ _

/-- The three ways a `getChannelAlias` call on a non-empty name ends: the name
is registered, the completed full name is registered, or an alias is created. -/
theorem getChannelAlias_spec (arb : ChannelIdx) (ctx : ChannelContext) (n : Str)
    (hn : n ≠ []) (hI : Inv arb ctx) :
    (∃ p a, ctx.findChannelAlias n = some p ∧
        ctx.getChannelAlias arb (some n) = (ctx, some p) ∧
        ctx.m_channelalias_list[p]? = some a ∧ (n = a.fullName ∨ n = a.m_io_name)) ∨
    (∃ p a, ctx.findChannelAlias n = none ∧
        ctx.findChannelAlias (resolvedAlias arb n).fullName = some p ∧
        ctx.getChannelAlias arb (some n) = (ctx, some p) ∧
        ctx.m_channelalias_list[p]? = some a ∧
        ((resolvedAlias arb n).fullName = a.fullName ∨
          (resolvedAlias arb n).fullName = a.m_io_name)) ∨
    (ctx.findChannelAlias n = none ∧
        ctx.findChannelAlias (resolvedAlias arb n).fullName = none ∧
        ctx.getChannelAlias arb (some n)
          = (createdCtx arb ctx n, some ctx.m_channelalias_list.length)) := by
  rcases getChannelAlias_cases arb ctx n hn with ⟨p, hp | ⟨hp0, hp⟩, h⟩ | ⟨h1, h2, h⟩
  · left
    obtain ⟨a, ha, hka⟩ := hI.name_idx n p (find_of_findChannelAlias hp).2
    exact ⟨p, a, hp, h, ha, hka.imp id (fun x => x.1)⟩
  · right; left
    obtain ⟨a, ha, hka⟩ := hI.name_idx _ p (find_of_findChannelAlias hp).2
    exact ⟨p, a, hp0, hp, h, ha, hka.imp id (fun x => x.1)⟩
  · right; right
    exact ⟨h1, h2, h⟩

theorem getChannelAlias_fails_iff (arb : ChannelIdx) (ctx : ChannelContext)
    (name : Option Str) :
    (ctx.getChannelAlias arb name).2 = none ↔ (name = none ∨ name = some []) := by
  cases name with
  | none => simp [getChannelAlias_null]
  | some n =>
    by_cases hn : n = []
    · subst hn; simp [getChannelAlias_empty]
    · rcases getChannelAlias_cases arb ctx n hn with ⟨p, _, h⟩ | ⟨_, _, h⟩ <;>
        simp [h, hn]

/-- C2. `getChannelAlias` returns the null pointer exactly when the name is
null or empty, on every context; and on every context reachable from a newly
constructed one by `getChannelAlias` calls, a non-empty name yields a pointer
to a registered alias whose channel id is not `Chan_Invalid`. -/
theorem getChannelAlias_fails_only_on_empty (arb : ChannelIdx) :
    (∀ (ctx : ChannelContext) (name : Option Str),
      (ctx.getChannelAlias arb name).2 = none ↔ (name = none ∨ name = some [])) ∧
    (∀ (b : Bool) (ctx : ChannelContext), Reachable arb b ctx → ∀ n : Str, n ≠ [] →
      ∃ a, returnedAlias (ctx.getChannelAlias arb (some n)) = some a ∧
        a.m_channel ≠ Chan_Invalid) := by
  refine ⟨fun ctx name => getChannelAlias_fails_iff arb ctx name, ?_⟩
  intro b ctx hR n hn
  have hI := inv_reachable arb b ctx hR
  rcases getChannelAlias_spec arb ctx n hn hI with
    ⟨p, a, _, h, ha, _⟩ | ⟨p, a, _, _, h, ha, _⟩ | ⟨_, _, h⟩
  · rw [h, returnedAlias_mk]
    exact ⟨a, ha, hI.chan_pos a (List.getElem?_mem ha)⟩
  · rw [h, returnedAlias_mk]
    exact ⟨a, ha, hI.chan_pos a (List.getElem?_mem ha)⟩
  · rw [h, createdCtx_returned]
    exact ⟨_, rfl, Nat.pos_iff_ne_zero.mp (storedAlias_channel_pos ctx _)⟩

set_option maxRecDepth 100000 in
/-- The tokens of every row of the table, as the matching map is built from them. -/
theorem matchTokens_table :
    g_standard_channel_table.map (fun c => (c.ordering_index, (matchTokens c).map String.mk)) =
      [(0, []), (1, ["R", "RED"]), (2, ["G", "GREEN"]), (3, ["B", "BLUE"]), (4, ["A", "ALPHA"]),
       (5, ["AR", "RA"]), (6, ["AG", "GA"]), (7, ["AB", "BA"]),
       (8, ["Y"]), (9, ["RY"]), (10, ["BY"]),
       (11, ["Z"]), (12, ["ZF", "ZFRONT"]), (13, ["ZB", "ZBACK"]),
       (14, ["FLAGS", "3"]), (15, ["1"]), (16, ["2"]),
       (17, ["S"]), (18, ["T"]), (19, ["P"]), (20, ["Q"]),
       (21, ["ID", "ID0"]), (22, ["ID1"]), (23, ["ID2"]), (24, ["ID3"]),
       (25, []), (26, []), (27, []), (28, []), (29, [])] := by
  decide

set_option maxRecDepth 100000 in
theorem table_tokens : ∀ c ∈ g_standard_channel_table, ∀ t ∈ matchTokens c,
    t ≠ [] ∧ StdMap.find g_standard_channel_matching_map (t.map toupper) = some c ∧
    dot ∉ t.map toupper := by
  decide

theorem caseVariant_ne_nil {t' t : Str} (hv : caseVariant t' t) (ht : t ≠ []) : t' ≠ [] := by
  intro h
  subst h
  unfold caseVariant at hv
  cases t with
  | nil => exact ht rfl
  | cons x xs => simp at hv

theorem stdMatch_token {c : StandardChannel} (hc : c ∈ g_standard_channel_table) {t t' : Str}
    (ht : t ∈ matchTokens c) (hv : caseVariant t' t) : stdMatch t' = some c := by
  have h := table_tokens c hc t ht
  unfold stdMatch
  rw [if_neg (caseVariant_ne_nil hv h.1)]
  unfold caseVariant at hv
  rw [hv]
  exact h.2.1

/-- C3. For every row of the standard table with a non-empty synonym list,
every synonym token of the row and every ASCII case variant of that token,
`matchStandardChannel` succeeds and returns the layer name, channel name,
ordering id, default IO name and default IO pixel type of exactly that row. -/
theorem matchStandardChannel_synonym (c : StandardChannel)
    (hc : c ∈ g_standard_channel_table)
    (t : Str) (ht : t ∈ matchTokens c) (t' : Str) (hv : caseVariant t' t) (out : MatchOut) :
    matchStandardChannel (some t') out =
      (true, ⟨c.layer_name, c.channel_name, c.ordering_index, c.dflt_io_name,
        c.dflt_io_pixel_type⟩) := by
  rw [matchStandardChannel_eq, stdMatch_token hc ht hv]

theorem mem_strip {x : Char} (d s : Str) (h : x ∈ strip s d) : x ∈ s := by
  unfold strip at h
  induction d generalizing s with
  | nil => exact h
  | cons y ys ih =>
    simp only [List.foldl_cons] at h
    exact List.mem_of_mem_filter (ih _ h)

theorem find_last_of_none {s : Str} {c : Char} (h : c ∉ s) : find_last_of s c = none := by
  induction s with
  | nil => rfl
  | cons x xs ih =>
    have h1 : c ∉ xs := fun hm => h (List.mem_cons_of_mem _ hm)
    have h2 : ¬ x = c := fun e => h (e ▸ List.mem_cons_self _ _)
    simp [find_last_of, ih h1, h2]

theorem splitName_nodot {n : Str} (h : dot ∉ n) : splitName n = ([], n) := by
  unfold splitName
  have h1 : dot ∉ strip n whitespace := fun hm => h (mem_strip _ _ hm)
  simp only [find_last_of_none h1]

theorem append_dot_inj {d : Char} {l1 n1 l2 n2 : Str}
    (h : l1 ++ [d] ++ n1 = l2 ++ [d] ++ n2) (hl : d ∉ l2) (hn : d ∉ n2) :
    l1 = l2 ∧ n1 = n2 := by
  induction l1 generalizing l2 with
  | nil =>
    cases l2 with
    | nil => simpa using h
    | cons x xs =>
      simp only [List.nil_append, List.cons_append, List.singleton_append, List.cons.injEq] at h
      exact absurd (h.1 ▸ List.mem_cons_self _ _) hl
  | cons y ys ih =>
    cases l2 with
    | nil =>
      simp only [List.nil_append, List.cons_append, List.singleton_append, List.cons.injEq] at h
      have hmem : d ∈ n2 := by rw [← h.2]; simp
      exact absurd hmem hn
    | cons x xs =>
      simp only [List.cons_append, List.cons.injEq] at h
      have := ih h.2 (fun hm => hl (List.mem_cons_of_mem _ hm))
      exact ⟨by rw [h.1, this.1], this.2⟩

theorem toupper_dot : toupper dot = dot := by decide

theorem dot_not_mem_of_variant {t' t : Str} (hv : caseVariant t' t)
    (h : dot ∉ t.map toupper) : dot ∉ t' := by
  intro hm
  apply h
  unfold caseVariant at hv
  rw [← hv, ← toupper_dot]
  exact List.mem_map_of_mem _ hm

theorem dot_mem_fullName {a : ChannelAlias} (h : a.m_layer ≠ []) : dot ∈ a.fullName := by
  rw [fullName_of_layer h]
  simp

theorem resolved_token (arb : ChannelIdx) {c : StandardChannel}
    (hc : c ∈ g_standard_channel_table) {t t' : Str} (ht : t ∈ matchTokens c)
    (hv : caseVariant t' t) :
    resolvedAlias arb t' =
      ⟨t', c.layer_name, c.ordering_index,
       toUInt32 (getLayerPositionFromKind arb c.ordering_index),
       c.dflt_io_name, c.dflt_io_pixel_type⟩ := by
  have hd := dot_not_mem_of_variant hv (table_tokens c hc t ht).2.2
  have hs := splitName_nodot hd
  have hm : stdMatch (splitName t').2 = some c := by rw [hs]; exact stdMatch_token hc ht hv
  rw [resolved_of_match arb t' c hm, hs]
  simp

set_option maxRecDepth 100000 in
theorem table_io_bare : ∀ c' ∈ g_standard_channel_table, ∀ c ∈ g_standard_channel_table,
    ∀ t ∈ matchTokens c, c'.dflt_io_name.map toupper = t.map toupper →
      c'.ordering_index = c.ordering_index ∧ c'.layer_name = c.layer_name := by
  decide

set_option maxRecDepth 100000 in
theorem table_io_dotted : ∀ c' ∈ g_standard_channel_table, ∀ c ∈ g_standard_channel_table,
    ∀ t ∈ matchTokens c,
      c'.dflt_io_name.take (c.layer_name.length + 1) = c.layer_name ++ [dot] →
      (c'.dflt_io_name.drop (c.layer_name.length + 1)).map toupper = t.map toupper →
      c'.ordering_index = c.ordering_index ∧ c'.layer_name = c.layer_name := by
  decide

set_option maxRecDepth 100000 in
theorem table_name_layer : ∀ c' ∈ g_standard_channel_table, ∀ c ∈ g_standard_channel_table,
    ∀ t ∈ matchTokens c, c'.layer_name = c.layer_name →
      c'.channel_name.map toupper = t.map toupper →
      c'.ordering_index = c.ordering_index := by
  decide

theorem take_drop_of_append_dot {io l x : Str} (h : io = l ++ [dot] ++ x) :
    io.take (l.length + 1) = l ++ [dot] ∧ io.drop (l.length + 1) = x := by
  subst h
  have hlen : (l ++ [dot]).length = l.length + 1 := by simp
  constructor
  · rw [← hlen, List.take_left']
    rfl
  · rw [← hlen, List.drop_left']
    rfl

/-- Resolution of a synonym token on a context that satisfies the registry
invariant: the alias carries the id of the row, and it either carries the
layer of the row or was found under the default IO name of a row of the same
id and layer. -/
theorem synonym_cases (arb : ChannelIdx) (ctx : ChannelContext) (hI : Inv arb ctx)
    (c : StandardChannel) (hc : c ∈ g_standard_channel_table)
    (t : Str) (ht : t ∈ matchTokens c) (t' : Str) (hv : caseVariant t' t) :
    ∃ a, returnedAlias (ctx.getChannelAlias arb (some t')) = some a ∧
      a.m_channel = c.ordering_index ∧
      (a.m_layer = c.layer_name ∨
        ∃ p c', c' ∈ g_standard_channel_table ∧ c'.layer_name = c.layer_name ∧
          c'.dflt_io_name ≠ [] ∧ ctx.findChannelAlias c'.dflt_io_name = some p ∧
          ctx.m_channelalias_list[p]? = some a) := by
  have htok := table_tokens c hc t ht
  have hne : t' ≠ [] := caseVariant_ne_nil hv htok.1
  have hdot : dot ∉ t' := dot_not_mem_of_variant hv htok.2.2
  have hres := resolved_token arb hc ht hv
  have hm : stdMatch t' = some c := stdMatch_token hc ht hv
  have hrow := stdMatch_row hm
  have hcne : c.ordering_index ≠ Chan_Invalid := Nat.pos_iff_ne_zero.mp hrow.2.2.1
  have hF : (resolvedAlias arb t').fullName = c.layer_name ++ [dot] ++ t' := by
    rw [fullName_of_layer (resolvedAlias_layer arb t'), hres]
  have hup : t'.map toupper = t.map toupper := hv
  rcases getChannelAlias_spec arb ctx t' hne hI with
    ⟨p, a, hp, h, ha, hk⟩ | ⟨p, a, _, hp, h, ha, hk⟩ | ⟨_, _, h⟩
  · -- the token itself is registered
    have hmem := List.getElem?_mem ha
    rw [h, returnedAlias_mk]
    rcases hk with hk | hk
    · exact absurd (hk ▸ dot_mem_fullName (hI.layer_ne a hmem)) hdot
    · rcases hI.kind a hmem with ⟨c', hc', _, hch, hio, _, _, _⟩ | ⟨_, hio, _⟩
      · have hT := table_io_bare c' hc' c hc t ht (by rw [← hio, ← hk]; exact hup)
        refine ⟨a, ha, by rw [hch]; exact hT.1, Or.inr ⟨p, c', hc', hT.2, ?_, ?_, ha⟩⟩
        · rw [← hio, ← hk]; exact hne
        · rw [← hio, ← hk]; exact hp
      · exact absurd (hk.trans hio) hne
  · -- the completed full name is registered
    have hmem := List.getElem?_mem ha
    rw [h, returnedAlias_mk]
    rw [hF] at hk hp
    rcases hk with hk | hk
    · rw [fullName_of_layer (hI.layer_ne a hmem)] at hk
      have hinj := append_dot_inj hk.symm hrow.2.2.2.2 hdot
      refine ⟨a, ha, ?_, Or.inl hinj.1⟩
      rcases hI.kind a hmem with ⟨c', hc', _, hch, _, _, _, hor⟩ | ⟨hno, _⟩
      · rcases hor with hsm | ⟨hnm, hly⟩
        · rw [hinj.2, hm] at hsm
          rw [hch, ← Option.some.inj hsm]
        · rw [hch]
          exact table_name_layer c' hc' c hc t ht (by rw [← hly]; exact hinj.1)
            (by rw [← hnm, hinj.2]; exact hup)
      · rw [hinj.2, hm] at hno
        cases hno
    · rcases hI.kind a hmem with ⟨c', hc', _, hch, hio, _, _, _⟩ | ⟨_, hio, _⟩
      · have htd := take_drop_of_append_dot (hio.symm.trans hk.symm)
        have hT := table_io_dotted c' hc' c hc t ht htd.1 (by rw [htd.2]; exact hup)
        refine ⟨a, ha, by rw [hch]; exact hT.1, Or.inr ⟨p, c', hc', hT.2, ?_, ?_, ha⟩⟩
        · rw [← hio, ← hk]; simp
        · rw [← hio, ← hk]; exact hp
      · rw [hio] at hk
        simp at hk
  · -- a new alias is created
    rw [h, createdCtx_returned, hres]
    refine ⟨_, rfl, ?_, Or.inl ?_⟩
    · rw [storedAlias_channel]
      simp only [hcne, if_false]
    · rw [storedAlias_layer]

/-- C4. On every context reachable from a newly constructed `ChannelContext`
(with or without standard channels) by `getChannelAlias` calls, resolving a
synonym token of a standard-table row, in any ASCII case, returns an alias
whose channel id is the ordering id of that row. -/
theorem getChannelAlias_synonym_id (arb : ChannelIdx) (b : Bool) (ctx : ChannelContext)
    (hR : Reachable arb b ctx) (c : StandardChannel) (hc : c ∈ g_standard_channel_table)
    (t : Str) (ht : t ∈ matchTokens c) (t' : Str) (hv : caseVariant t' t) :
    ∃ a, returnedAlias (ctx.getChannelAlias arb (some t')) = some a ∧
      a.m_channel = c.ordering_index := by
  obtain ⟨a, ha, hch, _⟩ :=
    synonym_cases arb ctx (inv_reachable arb b ctx hR) c hc t ht t' hv
  exact ⟨a, ha, hch⟩

theorem erase_fields {a b : ChannelAlias} (h : erasePosition a = erasePosition b) :
    a.m_name = b.m_name ∧ a.m_layer = b.m_layer ∧ a.m_channel = b.m_channel ∧
    a.m_io_name = b.m_io_name ∧ a.m_io_type = b.m_io_type := by
  unfold erasePosition at h
  injection h with h1 h2 h3 _ h5 h6
  exact ⟨h1, h2, h3, h5, h6⟩

theorem erase_fullName {a b : ChannelAlias} (h : erasePosition a = erasePosition b) :
    a.fullName = b.fullName := by
  have hf := erase_fields h
  unfold ChannelAlias.fullName
  rw [hf.1, hf.2.1]

theorem storedAlias_of_valid (ctx : ChannelContext) (obj : ChannelAlias)
    (h : obj.m_channel ≠ Chan_Invalid) : storedAlias ctx obj = obj := by
  unfold storedAlias
  rw [if_neg h]

theorem same_add (c1 c2 : ChannelContext) (o1 o2 : ChannelAlias) (hS : SameRegistry c1 c2)
    (ho : erasePosition o1 = erasePosition o2) (hv : o1.m_channel ≠ Chan_Invalid) :
    SameRegistry (c1.addChannelAlias (.fresh o1)).1 (c2.addChannelAlias (.fresh o2)).1 := by
  have hf := erase_fields ho
  have hv2 : o2.m_channel ≠ Chan_Invalid := by rw [← hf.2.2.1]; exact hv
  have hlen : c1.m_channelalias_list.length = c2.m_channelalias_list.length := by
    have := congrArg List.length hS.list
    simpa using this
  rw [add_fresh_eq, add_fresh_eq]
  simp only [storedAlias_of_valid _ _ hv, storedAlias_of_valid _ _ hv2]
  refine ⟨?_, ?_, ?_⟩
  · simp only [List.map_append, List.map_cons, List.map_nil]
    rw [hS.list, ho]
  · simp only [hS.chan, hf.2.2.1, hlen]
  · simp only [hS.name, erase_fullName ho, hf.2.2.2.1, hlen]

theorem same_fold_std (arb1 arb2 : ChannelIdx) (rows : List StandardChannel)
    (hrows : ∀ c ∈ rows, c ∈ g_standard_channel_table) :
    ∀ c1 c2 : ChannelContext, SameRegistry c1 c2 →
      SameRegistry
        (rows.foldl
          (fun ctx c =>
            if c.layer_name = "invalid".toList then ctx
            else (ctx.addChannelAliasNew c.channel_name c.layer_name c.ordering_index
                    (toUInt32 (getLayerPositionFromKind arb1 c.ordering_index))
                    c.dflt_io_name c.dflt_io_pixel_type).1) c1)
        (rows.foldl
          (fun ctx c =>
            if c.layer_name = "invalid".toList then ctx
            else (ctx.addChannelAliasNew c.channel_name c.layer_name c.ordering_index
                    (toUInt32 (getLayerPositionFromKind arb2 c.ordering_index))
                    c.dflt_io_name c.dflt_io_pixel_type).1) c2) := by
  induction rows with
  | nil => intro c1 c2 h; exact h
  | cons c rows ih =>
    intro c1 c2 h
    simp only [List.foldl_cons]
    apply ih (fun x hx => hrows x (List.mem_cons_of_mem _ hx))
    by_cases hn : c.layer_name = "invalid".toList
    · simp only [hn, if_true]; exact h
    · simp only [hn, if_false]
      have hrow := table_rows c (hrows c (List.mem_cons_self _ _)) hn
      exact same_add c1 c2 _ _ h rfl hrow.2.1

/-- The standard registry does not depend on the threshold, apart from layer positions. -/
theorem same_new (arb1 arb2 : ChannelIdx) :
    SameRegistry (ChannelContext.new arb1 true) (ChannelContext.new arb2 true) := by
  unfold ChannelContext.new addStandardChannels
  simp only [if_true]
  exact same_fold_std arb1 arb2 _ (fun c h => h) _ _ ⟨rfl, rfl, rfl⟩

theorem last_fold_std (arb : ChannelIdx) (rows : List StandardChannel)
    (hrows : ∀ c ∈ rows, c ∈ g_standard_channel_table) :
    ∀ ctx : ChannelContext,
      (rows.foldl
        (fun ctx c =>
          if c.layer_name = "invalid".toList then ctx
          else (ctx.addChannelAliasNew c.channel_name c.layer_name c.ordering_index
                  (toUInt32 (getLayerPositionFromKind arb c.ordering_index))
                  c.dflt_io_name c.dflt_io_pixel_type).1) ctx).m_last_assigned
        = ctx.m_last_assigned := by
  induction rows with
  | nil => intro ctx; rfl
  | cons c rows ih =>
    intro ctx
    simp only [List.foldl_cons]
    rw [ih (fun x hx => hrows x (List.mem_cons_of_mem _ hx))]
    by_cases hn : c.layer_name = "invalid".toList
    · simp only [hn, if_true]
    · simp only [hn, if_false]
      have hrow := table_rows c (hrows c (List.mem_cons_self _ _)) hn
      unfold addChannelAliasNew
      rw [add_fresh_last]
      simp only [hrow.2.1, if_false]

theorem new_last (arb : ChannelIdx) (b : Bool) :
    (ChannelContext.new arb b).m_last_assigned = arb - 1 := by
  cases b with
  | false => rfl
  | true =>
    unfold ChannelContext.new addStandardChannels
    simp only [if_true]
    exact last_fold_std arb _ (fun c h => h) _

set_option maxRecDepth 1000000 in
theorem std_base_io : ∀ c ∈ g_standard_channel_table, c.dflt_io_name ≠ [] →
    (((ChannelContext.new 30 true).findChannelAlias c.dflt_io_name).bind
        (fun p => (ChannelContext.new 30 true).m_channelalias_list[p]?)).map
      (fun a => (a.m_layer, a.m_channel)) = some (c.layer_name, c.ordering_index) := by
  decide

set_option maxRecDepth 1000000 in
theorem std_base_full : ∀ c ∈ g_standard_channel_table, c.layer_name ≠ "invalid".toList →
    (((ChannelContext.new 30 true).findChannelAlias (c.layer_name ++ [dot] ++ c.channel_name)).bind
        (fun p => (ChannelContext.new 30 true).m_channelalias_list[p]?)).map
      (fun a => (a.m_layer, a.m_channel)) = some (c.layer_name, c.ordering_index) := by
  decide

theorem bind_map_eq_some {ctx : ChannelContext} {k : Str} {lay : Str} {id : ChannelIdx}
    (h : ((ctx.findChannelAlias k).bind (fun p => ctx.m_channelalias_list[p]?)).map
      (fun a => (a.m_layer, a.m_channel)) = some (lay, id)) :
    ∃ p a, ctx.findChannelAlias k = some p ∧ ctx.m_channelalias_list[p]? = some a ∧
      a.m_layer = lay ∧ a.m_channel = id := by
  cases hp : ctx.findChannelAlias k with
  | none => rw [hp] at h; cases h
  | some p =>
    rw [hp] at h
    simp only [Option.some_bind] at h
    cases ha : ctx.m_channelalias_list[p]? with
    | none => rw [ha] at h; cases h
    | some a =>
      rw [ha] at h
      simp only [Option.map_some', Option.some.injEq, Prod.mk.injEq] at h
      exact ⟨p, a, rfl, ha, h.1, h.2⟩

set_option maxRecDepth 1000000 in
/-- A key that the freshly constructed standard context resolves keeps its
alias on every context reachable from it, whatever the threshold. -/
theorem std_key_resolves (arb : ChannelIdx) (ctx : ChannelContext)
    (hR : Reachable arb true ctx) (k : Str) (lay : Str) (id : ChannelIdx)
    (hbase : (((ChannelContext.new 30 true).findChannelAlias k).bind
        (fun p => (ChannelContext.new 30 true).m_channelalias_list[p]?)).map
      (fun a => (a.m_layer, a.m_channel)) = some (lay, id)) :
    ∃ p a, ctx.findChannelAlias k = some p ∧ ctx.m_channelalias_list[p]? = some a ∧
      a.m_layer = lay ∧ a.m_channel = id := by
  obtain ⟨p, a, hp, ha, hl, hc⟩ := bind_map_eq_some hbase
  have hE := extends_reachable arb true ctx hR
  have hS := same_new arb 30
  have hp2 : (ChannelContext.new arb true).findChannelAlias k = some p := by
    unfold findChannelAlias at hp ⊢
    rw [hS.name]
    exact hp
  have ha2 : ∃ a2, (ChannelContext.new arb true).m_channelalias_list[p]? = some a2 ∧
      erasePosition a2 = erasePosition a := by
    have h1 := congrArg (fun l => l[p]?) hS.list
    simp only [List.getElem?_map, ha, Option.map_some'] at h1
    cases h2 : (ChannelContext.new arb true).m_channelalias_list[p]? with
    | none => rw [h2] at h1; cases h1
    | some a2 =>
      rw [h2] at h1
      exact ⟨a2, rfl, Option.some.inj h1⟩
  obtain ⟨a2, ha2, he⟩ := ha2
  have hf := erase_fields he
  exact ⟨p, a2, hE.name k p hp2, hE.list p a2 ha2, hf.2.1.trans hl, hf.2.2.1.trans hc⟩

theorem getChannelAlias_of_find (arb : ChannelIdx) (ctx : ChannelContext) (k : Str) (p : Nat)
    (h : ctx.findChannelAlias k = some p) :
    ctx.getChannelAlias arb (some k) = (ctx, some p) := by
  rw [getChannelAlias_some arb ctx k (find_of_findChannelAlias h).1, h]

/-- C10. On every context reachable by `getChannelAlias` calls from a
`ChannelContext` constructed with standard channels, and for every row of the
standard table other than the invalid row, `getChannelAlias` of the canonical
full name `layer.channel` returns an alias whose channel id is the ordering
id of the row, and so does `getChannelAlias` of the default IO name of the row
when that name is not empty. -/
theorem getChannelAlias_standard_names (arb : ChannelIdx)
    (ctx : ChannelContext) (hR : Reachable arb true ctx)
    (c : StandardChannel) (hc : c ∈ g_standard_channel_table)
    (hn : c.layer_name ≠ "invalid".toList) :
    (∃ a, returnedAlias (ctx.getChannelAlias arb
        (some (c.layer_name ++ [dot] ++ c.channel_name))) = some a ∧
      a.m_channel = c.ordering_index) ∧
    (c.dflt_io_name ≠ [] →
      ∃ a, returnedAlias (ctx.getChannelAlias arb (some c.dflt_io_name)) = some a ∧
        a.m_channel = c.ordering_index) := by
  constructor
  · obtain ⟨p, a, hp, ha, _, hch⟩ :=
      std_key_resolves arb ctx hR _ _ _ (std_base_full c hc hn)
    rw [getChannelAlias_of_find arb ctx _ p hp, returnedAlias_mk]
    exact ⟨a, ha, hch⟩
  · intro hio
    obtain ⟨p, a, hp, ha, _, hch⟩ :=
      std_key_resolves arb ctx hR _ _ _ (std_base_io c hc hio)
    rw [getChannelAlias_of_find arb ctx _ p hp, returnedAlias_mk]
    exact ⟨a, ha, hch⟩

/-- Registration keeps the id invariant when a requested id lies in the standard range. -/
theorem ids_add_fresh (arb : ChannelIdx) (h29 : Chan_CutoutZ < arb) (ctx : ChannelContext)
    (obj : ChannelAlias) (hc : arb - 1 ≤ ctx.m_last_assigned) (hI : IdsInv arb ctx)
    (hb : obj.m_channel ≠ Chan_Invalid → obj.m_channel ≤ Chan_CutoutZ) :
    IdsInv arb (ctx.addChannelAlias (.fresh obj)).1 := by
  have hnew : 1 ≤ (storedAlias ctx obj).m_channel ∧
      (storedAlias ctx obj).m_channel ≤ (ctx.addChannelAlias (.fresh obj)).1.m_last_assigned := by
    rw [add_fresh_last, storedAlias_channel]
    by_cases h0 : obj.m_channel = Chan_Invalid
    · simp only [h0, if_true]
      exact ⟨Nat.succ_pos _, Nat.le_refl _⟩
    · simp only [h0, if_false]
      have := hb h0
      simp only [ChannelIdx, Chan_CutoutZ, Chan_Invalid] at *
      omega
  have hmono : ctx.m_last_assigned ≤ (ctx.addChannelAlias (.fresh obj)).1.m_last_assigned :=
    (extends_add_fresh ctx obj).counter
  refine ⟨?_, ?_⟩
  · intro a ha
    rw [add_fresh_list] at ha
    rcases mem_concat_cases ha with h | h
    · exact ⟨(hI.bound a h).1, Nat.le_trans (hI.bound a h).2 hmono⟩
    · rw [h]; exact hnew
  · intro i j a b hij ha hb' hge
    rw [add_fresh_list] at ha hb'
    rcases getElem?_concat_cases hb' with hj | ⟨hj, hbe⟩
    · have hjl : j < ctx.m_channelalias_list.length := by
        rcases Nat.lt_or_ge j ctx.m_channelalias_list.length with h | h
        · exact h
        · rw [List.getElem?_eq_none h] at hj; cases hj
      rw [List.getElem?_append_left (Nat.lt_trans hij hjl)] at ha
      exact hI.order i j a b hij ha hj hge
    · subst hj
      rw [List.getElem?_append_left hij] at ha
      have hab := (hI.bound a (List.getElem?_mem ha)).2
      rw [hbe, storedAlias_channel] at hge ⊢
      by_cases h0 : obj.m_channel = Chan_Invalid
      · simp only [h0, if_true]
        exact Nat.lt_succ_of_le hab
      · simp only [h0, if_false] at hge
        have := hb h0
        simp only [ChannelIdx, Chan_CutoutZ, Chan_Invalid] at *
        omega

theorem ids_addToLayer (arb : ChannelIdx) (ctx : ChannelContext) (l : Str) (o : ChanOrder)
    (hI : IdsInv arb ctx) : IdsInv arb (addToLayer ctx l o) := by
  refine ⟨?_, ?_⟩
  · rw [addToLayer_list, addToLayer_last]; exact hI.bound
  · rw [addToLayer_list]; exact hI.order

theorem resolved_channel_le (arb : ChannelIdx) (n : Str) :
    (resolvedAlias arb n).m_channel ≠ Chan_Invalid →
      (resolvedAlias arb n).m_channel ≤ Chan_CutoutZ := by
  intro h
  cases hm : stdMatch (splitName n).2 with
  | some c =>
    rw [resolved_of_match arb n c hm]
    exact (stdMatch_row hm).2.2.2.1
  | none =>
    rw [resolved_of_nomatch arb n hm] at h
    exact absurd rfl h

theorem ids_get (arb : ChannelIdx) (h29 : Chan_CutoutZ < arb) (ctx : ChannelContext)
    (name : Option Str) (hc : arb - 1 ≤ ctx.m_last_assigned) (hI : IdsInv arb ctx) :
    IdsInv arb (ctx.getChannelAlias arb name).1 := by
  cases name with
  | none => exact hI
  | some n =>
    by_cases hn : n = []
    · subst hn; exact hI
    · rcases getChannelAlias_cases arb ctx n hn with ⟨p, _, h⟩ | ⟨_, _, h⟩
      · rw [h]; exact hI
      · rw [h]
        apply ids_addToLayer
        exact ids_add_fresh arb h29 ctx _ hc hI (resolved_channel_le arb n)

theorem ids_fold_std (arb : ChannelIdx) (h29 : Chan_CutoutZ < arb)
    (rows : List StandardChannel) (hrows : ∀ c ∈ rows, c ∈ g_standard_channel_table) :
    ∀ ctx : ChannelContext, Inv arb ctx → IdsInv arb ctx →
      IdsInv arb (rows.foldl
        (fun ctx c =>
          if c.layer_name = "invalid".toList then ctx
          else (ctx.addChannelAliasNew c.channel_name c.layer_name c.ordering_index
                  (toUInt32 (getLayerPositionFromKind arb c.ordering_index))
                  c.dflt_io_name c.dflt_io_pixel_type).1) ctx) := by
  induction rows with
  | nil => intro ctx _ h; exact h
  | cons c rows ih =>
    intro ctx hI h
    simp only [List.foldl_cons]
    have hmem := hrows c (List.mem_cons_self _ _)
    by_cases hn : c.layer_name = "invalid".toList
    · rw [if_pos hn]
      exact ih (fun x hx => hrows x (List.mem_cons_of_mem _ hx)) ctx hI h
    · rw [if_neg hn]
      apply ih (fun x hx => hrows x (List.mem_cons_of_mem _ hx))
      · exact inv_add_std arb ctx c hI hmem hn
      · exact ids_add_fresh arb h29 ctx _ hI.counter h
          (fun _ => (table_rows c hmem hn).2.2)

theorem ids_new (arb : ChannelIdx) (h29 : Chan_CutoutZ < arb) (b : Bool) :
    IdsInv arb (ChannelContext.new arb b) := by
  have h0 : IdsInv arb ⟨[], [], [], [], [], arb - 1⟩ := by
    refine ⟨?_, ?_⟩
    · intro a ha; simp at ha
    · intro i j a b _ ha; simp at ha
  have hI0 : Inv arb ⟨[], [], [], [], [], arb - 1⟩ := inv_new arb false
  unfold ChannelContext.new
  cases b with
  | false => exact h0
  | true =>
    simp only [if_true]
    exact ids_fold_std arb h29 _ (fun c h => h) _ hI0 h0

theorem ids_reachable (arb : ChannelIdx) (h29 : Chan_CutoutZ < arb) (b : Bool)
    (ctx : ChannelContext) (h : Reachable arb b ctx) : IdsInv arb ctx := by
  induction h with
  | init => exact ids_new arb h29 b
  | step name hR ih =>
    exact ids_get arb h29 _ name (inv_reachable arb b _ hR).counter ih

set_option maxRecDepth 100000 in
theorem matching_map_keys : ∀ p ∈ g_standard_channel_matching_map,
    p.2 ∈ g_standard_channel_table ∧ p.1 ∈ matchTokens p.2 := by
  decide

theorem stdMatch_none_of_not_token {n : Str}
    (h : ∀ c ∈ g_standard_channel_table, n.map toupper ∉ matchTokens c) :
    stdMatch n = none := by
  unfold stdMatch
  split
  · rfl
  · cases hf : StdMap.find g_standard_channel_matching_map (n.map toupper) with
    | none => rfl
    | some c =>
      have := matching_map_keys _ (stdmap_find_mem _ _ _ hf)
      exact absurd this.2 (h c this.1)

/-- C8 (amended). For every context reachable from construction by
`getChannelAlias` calls and every non-empty name that contains no dot, whose
upper-cased form is not a synonym token of any table row, and for which
neither the name nor `other.` followed by the name is registered,
`getChannelAlias` appends one new alias to the list and returns it: its layer
is `other`, its name is the given name, and its channel id is at least
`Chan_ArbitraryStart` and differs from the id of every alias registered
before the call. -/
theorem getChannelAlias_unrecognized (arb : ChannelIdx) (h29 : Chan_CutoutZ < arb)
    (b : Bool) (ctx : ChannelContext) (hR : Reachable arb b ctx)
    (n : Str) (hn : n ≠ []) (hdot : dot ∉ n)
    (hsyn : ∀ c ∈ g_standard_channel_table, n.map toupper ∉ matchTokens c)
    (h1 : ctx.findChannelAlias n = none)
    (h2 : ctx.findChannelAlias ("other".toList ++ [dot] ++ n) = none) :
    ∃ a, returnedAlias (ctx.getChannelAlias arb (some n)) = some a ∧
      (ctx.getChannelAlias arb (some n)).1.m_channelalias_list
        = ctx.m_channelalias_list ++ [a] ∧
      a.m_layer = "other".toList ∧ a.m_name = n ∧ arb ≤ a.m_channel ∧
      ∀ x ∈ ctx.m_channelalias_list, x.m_channel ≠ a.m_channel := by
  have hI := inv_reachable arb b ctx hR
  have hIds := ids_reachable arb h29 b ctx hR
  have hs := splitName_nodot hdot
  have hm : stdMatch (splitName n).2 = none := by
    rw [hs]; exact stdMatch_none_of_not_token hsyn
  have hres : resolvedAlias arb n = ⟨n, "other".toList, Chan_Invalid, 0, [], .HALF⟩ := by
    rw [resolved_of_nomatch arb n hm, hs]
    simp
  have hF : (resolvedAlias arb n).fullName = "other".toList ++ [dot] ++ n := by
    rw [fullName_of_layer (resolvedAlias_layer arb n), hres]
  rcases getChannelAlias_spec arb ctx n hn hI with
    ⟨p, a, hp, _⟩ | ⟨p, a, _, hp, _⟩ | ⟨_, _, h⟩
  · rw [h1] at hp; cases hp
  · rw [hF, h2] at hp; cases hp
  · rw [h, createdCtx_returned]
    refine ⟨_, rfl, createdCtx_list arb ctx n, ?_, ?_, ?_, ?_⟩
    · rw [storedAlias_layer, hres]
    · rw [storedAlias_name, hres]
    · rw [storedAlias_channel, hres]
      simp only [if_true]
      exact Nat.le_succ_of_pred_le hI.counter
    · intro x hx
      rw [storedAlias_channel, hres]
      simp only [if_true]
      exact Nat.ne_of_lt (Nat.lt_succ_of_le (hIds.bound x hx).2)

/-- Witness of C1 on a fresh context without standard channels. -/
theorem getChannelAlias_idempotent_witness :
    "foo".toList ≠ [] ∧
    ((∃ p, ((ChannelContext.new 30 false).getChannelAlias 30 (some "foo".toList)).2 = some p) ∧
     ((ChannelContext.new 30 false).getChannelAlias 30 (some "foo".toList)).1.getChannelAlias 30
        (some "foo".toList)
      = (ChannelContext.new 30 false).getChannelAlias 30 (some "foo".toList)) :=
  ⟨by decide, getChannelAlias_idempotent 30 (ChannelContext.new 30 false) "foo".toList (by decide)⟩

/-- Witness of C2: the name `foo` on a fresh context. -/
theorem getChannelAlias_fails_only_on_empty_witness :
    Reachable 30 false (ChannelContext.new 30 false) ∧ "foo".toList ≠ [] ∧
    ∃ a, returnedAlias ((ChannelContext.new 30 false).getChannelAlias 30 (some "foo".toList))
        = some a ∧ a.m_channel ≠ Chan_Invalid :=
  ⟨Reachable.init, by decide,
    (getChannelAlias_fails_only_on_empty 30).2 false _ Reachable.init "foo".toList (by decide)⟩

/-- Witness of C3: the spelling `Red` of the token `RED` of the row of `Chan_R`. -/
theorem matchStandardChannel_synonym_witness :
    stdRow "rgba" "R" "R,RED" "R" .HALF Chan_R ∈ g_standard_channel_table ∧
    "RED".toList ∈ matchTokens (stdRow "rgba" "R" "R,RED" "R" .HALF Chan_R) ∧
    caseVariant "Red".toList "RED".toList ∧
    matchStandardChannel (some "Red".toList) ⟨[], [], Chan_Invalid, [], .HALF⟩
      = (true, ⟨"rgba".toList, "R".toList, Chan_R, "R".toList, .HALF⟩) :=
  ⟨by decide, by decide, by decide,
    matchStandardChannel_synonym (stdRow "rgba" "R" "R,RED" "R" .HALF Chan_R) (by decide)
      "RED".toList (by decide) "Red".toList (by decide) _⟩

/-- Witness of C4: `red` after `foo.R` on a context without standard channels. -/
theorem getChannelAlias_synonym_id_witness :
    Reachable 30 false
      ((ChannelContext.new 30 false).getChannelAlias 30 (some "foo.R".toList)).1 ∧
    stdRow "rgba" "R" "R,RED" "R" .HALF Chan_R ∈ g_standard_channel_table ∧
    "RED".toList ∈ matchTokens (stdRow "rgba" "R" "R,RED" "R" .HALF Chan_R) ∧
    caseVariant "red".toList "RED".toList ∧
    ∃ a, returnedAlias
        (((ChannelContext.new 30 false).getChannelAlias 30 (some "foo.R".toList)).1.getChannelAlias
          30 (some "red".toList)) = some a ∧
      a.m_channel = Chan_R :=
  ⟨Reachable.step _ Reachable.init, by decide, by decide, by decide,
    getChannelAlias_synonym_id 30 false _ (Reachable.step _ Reachable.init)
      (stdRow "rgba" "R" "R,RED" "R" .HALF Chan_R) (by decide) "RED".toList (by decide)
      "red".toList (by decide)⟩

set_option maxRecDepth 1000000 in
/-- Evaluation for C6 (first-writer-wins registry: no existing name-index entry
is ever rewritten). On a context built without standard channels, the
six-argument `addChannelAlias` with empty channel and layer names registers an
alias whose full name is empty: the name index gets the entry 0 under the
empty key, `findChannelAlias` on the empty key still returns no alias, and so
the second such registration passes the test written under the comment
"Don't overwrite existing assignments" and rewrites that entry from 0 to 1. -/
theorem name_index_rewritten_at_empty_key :
    StdMap.find ((ChannelContext.new 30 false).addChannelAliasNew [] [] Chan_R 0 []
        .HALF).1.m_channelalias_name_map [] = some 0 ∧
    ((ChannelContext.new 30 false).addChannelAliasNew [] [] Chan_R 0 []
        .HALF).1.findChannelAlias [] = none ∧
    StdMap.find (((ChannelContext.new 30 false).addChannelAliasNew [] [] Chan_R 0 []
        .HALF).1.addChannelAliasNew [] [] Chan_G 0 [] .HALF).1.m_channelalias_name_map []
      = some 1 := by
  decide

set_option maxRecDepth 1000000 in
/-- Example of the first-writer-wins registry: `getChannelAlias` of `foo` on a
standard context keeps the alias of `rgba.R`. -/
theorem registry_first_writer_wins_example :
    (ChannelContext.new 30 true).findChannelAlias "rgba.R".toList = some 0 ∧
    ((ChannelContext.new 30 true).getChannelAlias 30 (some "foo".toList)).1.findChannelAlias
      "rgba.R".toList = some 0 :=
  ⟨by decide,
    (registry_first_writer_wins 30 (ChannelContext.new 30 true) _
      (Or.inr (Or.inr ⟨some "foo".toList, rfl⟩))).1 "rgba.R".toList 0 (by decide)⟩

theorem resolved_foo (arb : ChannelIdx) :
    resolvedAlias arb "foo".toList = ⟨"foo".toList, "other".toList, Chan_Invalid, 0, [], .HALF⟩ := by
  rfl

theorem fresh_foo (arb : ChannelIdx) :
    (ChannelContext.new arb false).getChannelAlias arb (some "foo".toList)
      = (createdCtx arb (ChannelContext.new arb false) "foo".toList, some 0) := by
  rcases getChannelAlias_cases arb (ChannelContext.new arb false) "foo".toList (by decide) with
    ⟨p, hp | ⟨_, hp⟩, _⟩ | ⟨_, _, h⟩
  · cases hp
  · rw [resolved_foo] at hp; cases hp
  · exact h

/-- Evaluation for C7, for every threshold above zero: after `foo` has been
resolved on a fresh context, the id index maps the newly allocated id, which
equals the counter, to the new alias named `foo`, yet `getChannelName` and
`getChannelFullName` of that id answer `unknown`, because the id is not below
the counter. -/
theorem getChannelName_unknown_for_registered (arb : ChannelIdx) (h : 0 < arb) :
    ((ChannelContext.new arb false).getChannelAlias arb (some "foo".toList)).1.findChannelAliasIdx arb
      = some 0 ∧
    (((ChannelContext.new arb false).getChannelAlias arb
        (some "foo".toList)).1.m_channelalias_list[0]?).map
      (fun a => (a.m_name, a.fullName, a.m_channel))
      = some ("foo".toList, "other.foo".toList, arb) ∧
    ((ChannelContext.new arb false).getChannelAlias arb (some "foo".toList)).1.m_last_assigned
      = arb ∧
    ((ChannelContext.new arb false).getChannelAlias arb (some "foo".toList)).1.getChannelName arb
      = "unknown".toList ∧
    ((ChannelContext.new arb false).getChannelAlias arb (some "foo".toList)).1.getChannelFullName arb
      = "unknown".toList := by
  have e : arb - 1 + 1 = arb := Nat.sub_add_cancel h
  have hne : ¬ arb = Chan_Invalid := Nat.pos_iff_ne_zero.mp h
  have hlast : (createdCtx arb (ChannelContext.new arb false) "foo".toList).m_last_assigned
      = arb := by
    rw [createdCtx_last, resolved_foo]
    exact e
  have hst : storedAlias (ChannelContext.new arb false) (resolvedAlias arb "foo".toList)
      = ⟨"foo".toList, "other".toList, arb, 0, [], .HALF⟩ := by
    rw [resolved_foo]
    unfold storedAlias
    simp only [if_true]
    show (⟨_, _, arb - 1 + 1, _, _, _⟩ : ChannelAlias) = _
    rw [e]
  have hlist : (createdCtx arb (ChannelContext.new arb false) "foo".toList).m_channelalias_list
      = [⟨"foo".toList, "other".toList, arb, 0, [], .HALF⟩] := by
    rw [createdCtx_list, hst]
    rfl
  have hcm : StdMap.find
      (createdCtx arb (ChannelContext.new arb false) "foo".toList).m_channelalias_channel_map arb
      = some 0 := by
    unfold createdCtx
    rw [addToLayer_chan_map, add_fresh_chan_find, hst]
    simp [ChannelContext.new, StdMap.find]
  have hlt : ¬ arb < (createdCtx arb (ChannelContext.new arb false) "foo".toList).m_last_assigned := by
    rw [hlast]; exact Nat.lt_irrefl _
  rw [fresh_foo]
  refine ⟨?_, ?_, hlast, ?_, ?_⟩
  · unfold findChannelAliasIdx
    rw [if_pos h]
    exact hcm
  · simp only [hlist]
    rfl
  · unfold getChannelName
    simp only [hne, hlt, if_false]
  · unfold getChannelFullName
    simp only [hne, hlt, if_false]

/-- Witness of the evaluation for C7 at the threshold 30. -/
theorem getChannelName_unknown_for_registered_witness :
    0 < 30 ∧
    ((ChannelContext.new 30 false).getChannelAlias 30 (some "foo".toList)).1.findChannelAliasIdx 30
      = some 0 ∧
    (((ChannelContext.new 30 false).getChannelAlias 30
        (some "foo".toList)).1.m_channelalias_list[0]?).map
      (fun a => (a.m_name, a.fullName, a.m_channel))
      = some ("foo".toList, "other.foo".toList, 30) ∧
    ((ChannelContext.new 30 false).getChannelAlias 30 (some "foo".toList)).1.m_last_assigned = 30 ∧
    ((ChannelContext.new 30 false).getChannelAlias 30 (some "foo".toList)).1.getChannelName 30
      = "unknown".toList ∧
    ((ChannelContext.new 30 false).getChannelAlias 30 (some "foo".toList)).1.getChannelFullName 30
      = "unknown".toList :=
  ⟨by decide, getChannelName_unknown_for_registered 30 (by decide)⟩

/-- Counterexample to C8: the empty name contains no dot, is no synonym token
and is not registered, yet `getChannelAlias` returns the null pointer and
leaves the context as it was. -/
theorem unrecognized_empty_name_counterexample :
    Reachable 30 false (ChannelContext.new 30 false) ∧
    dot ∉ ([] : Str) ∧
    (∀ c ∈ g_standard_channel_table, ([] : Str).map toupper ∉ matchTokens c) ∧
    (ChannelContext.new 30 false).findChannelAlias [] = none ∧
    (ChannelContext.new 30 false).findChannelAlias ("other".toList ++ [dot] ++ []) = none ∧
    (ChannelContext.new 30 false).getChannelAlias 30 (some [])
      = (ChannelContext.new 30 false, none) ∧
    returnedAlias ((ChannelContext.new 30 false).getChannelAlias 30 (some [])) = none :=
  ⟨Reachable.init, by decide, by decide, by decide, by decide, by decide, by decide⟩

set_option maxRecDepth 1000000 in
/-- Witness of C8 (amended): `myCustomChan` on a fresh standard context. -/
theorem getChannelAlias_unrecognized_witness :
    Chan_CutoutZ < 30 ∧ Reachable 30 true (ChannelContext.new 30 true) ∧
    "myCustomChan".toList ≠ [] ∧ dot ∉ "myCustomChan".toList ∧
    ∃ a, returnedAlias ((ChannelContext.new 30 true).getChannelAlias 30
          (some "myCustomChan".toList)) = some a ∧
      ((ChannelContext.new 30 true).getChannelAlias 30
          (some "myCustomChan".toList)).1.m_channelalias_list
        = (ChannelContext.new 30 true).m_channelalias_list ++ [a] ∧
      a.m_layer = "other".toList ∧ a.m_name = "myCustomChan".toList ∧ 30 ≤ a.m_channel ∧
      ∀ x ∈ (ChannelContext.new 30 true).m_channelalias_list, x.m_channel ≠ a.m_channel :=
  ⟨by decide, Reachable.init, by decide, by decide,
    getChannelAlias_unrecognized 30 (by decide) true _ Reachable.init "myCustomChan".toList
      (by decide) (by decide) (by decide) (by decide) (by decide)⟩

set_option maxRecDepth 1000000 in
/-- Witness of C10: the row of `Chan_AR` on a fresh standard context. -/
theorem getChannelAlias_standard_names_witness :
    Reachable 30 true (ChannelContext.new 30 true) ∧
    stdRow "opacity" "R" "AR,RA" "AR" .HALF Chan_AR ∈ g_standard_channel_table ∧
    (∃ a, returnedAlias ((ChannelContext.new 30 true).getChannelAlias 30
          (some "opacity.R".toList)) = some a ∧ a.m_channel = Chan_AR) ∧
    (∃ a, returnedAlias ((ChannelContext.new 30 true).getChannelAlias 30
          (some "AR".toList)) = some a ∧ a.m_channel = Chan_AR) :=
  ⟨Reachable.init, by decide,
    (getChannelAlias_standard_names 30 _ Reachable.init
      (stdRow "opacity" "R" "AR,RA" "AR" .HALF Chan_AR) (by decide) (by decide)).1,
    (getChannelAlias_standard_names 30 _ Reachable.init
      (stdRow "opacity" "R" "AR,RA" "AR" .HALF Chan_AR) (by decide) (by decide)).2 (by decide)⟩

/-- Below the threshold the function does not depend on the threshold. -/
theorem glp_below (arb k : ChannelIdx) (h : k < arb) (h30 : k < 30) :
    getLayerPositionFromKind arb k = getLayerPositionFromKind 30 k := by
  unfold getLayerPositionFromKind
  have h1 : ¬ k ≥ arb := Nat.not_le.mpr h
  have h2 : ¬ k ≥ 30 := Nat.not_le.mpr h30
  simp only [h1, h2, or_false]

theorem glp_at_or_above (arb k : ChannelIdx) (h : arb ≤ k) :
    getLayerPositionFromKind arb k = 0 := by
  unfold getLayerPositionFromKind
  rw [if_pos (Or.inr h)]

theorem glp_std (arb k : ChannelIdx) (h29 : Chan_CutoutZ < arb) (hk : k ≤ Chan_CutoutZ) :
    getLayerPositionFromKind arb k = getLayerPositionFromKind 30 k :=
  glp_below arb k (Nat.lt_of_le_of_lt hk h29) (Nat.lt_succ_of_le hk)

/-- C12. With the threshold above the standard range, `getLayerPositionFromKind`
returns the id minus the first id of its group for the rgba group (0, 1, 2, 3
for `Chan_R` to `Chan_A`), the opacity group (0, 1, 2 for `Chan_AR` to
`Chan_AB`), the spmask group (0, 1, 2 for `Chan_DeepFlags`, `Chan_SpBits1`,
`Chan_SpBits2`) and the tex group (0, 1, 2, 3 for `Chan_UvS` to `Chan_UvQ`),
and it returns 0 for `Chan_Z` and `Chan_ZFront` and 1 for `Chan_ZBack`. -/
theorem getLayerPositionFromKind_groups (arb : ChannelIdx) (h29 : Chan_CutoutZ < arb) :
    (∀ k : ChannelIdx, Chan_R ≤ k → k ≤ Chan_A →
      getLayerPositionFromKind arb k = (k : Int) - Chan_R) ∧
    (∀ k : ChannelIdx, Chan_AR ≤ k → k ≤ Chan_AB →
      getLayerPositionFromKind arb k = (k : Int) - Chan_AR) ∧
    (∀ k : ChannelIdx, Chan_DeepFlags ≤ k → k ≤ Chan_SpBits2 →
      getLayerPositionFromKind arb k = (k : Int) - Chan_DeepFlags) ∧
    (∀ k : ChannelIdx, Chan_UvS ≤ k → k ≤ Chan_UvQ →
      getLayerPositionFromKind arb k = (k : Int) - Chan_UvS) ∧
    (getLayerPositionFromKind arb Chan_R = 0 ∧ getLayerPositionFromKind arb Chan_G = 1 ∧
      getLayerPositionFromKind arb Chan_B = 2 ∧ getLayerPositionFromKind arb Chan_A = 3) ∧
    (getLayerPositionFromKind arb Chan_AR = 0 ∧ getLayerPositionFromKind arb Chan_AG = 1 ∧
      getLayerPositionFromKind arb Chan_AB = 2) ∧
    (getLayerPositionFromKind arb Chan_DeepFlags = 0 ∧
      getLayerPositionFromKind arb Chan_SpBits1 = 1 ∧
      getLayerPositionFromKind arb Chan_SpBits2 = 2) ∧
    (getLayerPositionFromKind arb Chan_UvS = 0 ∧ getLayerPositionFromKind arb Chan_UvT = 1 ∧
      getLayerPositionFromKind arb Chan_UvP = 2 ∧ getLayerPositionFromKind arb Chan_UvQ = 3) ∧
    (getLayerPositionFromKind arb Chan_Z = 0 ∧ getLayerPositionFromKind arb Chan_ZFront = 0 ∧
      getLayerPositionFromKind arb Chan_ZBack = 1) := by
  have hgrp : ∀ (lo hi : ChannelIdx), hi ≤ Chan_CutoutZ →
      (∀ k : ChannelIdx, lo ≤ k → k ≤ hi → getLayerPositionFromKind 30 k = (k : Int) - lo) →
      ∀ k : ChannelIdx, lo ≤ k → k ≤ hi → getLayerPositionFromKind arb k = (k : Int) - lo := by
    intro lo hi hhi hbase k h1 h2
    rw [glp_std arb k h29 (Nat.le_trans h2 hhi)]
    exact hbase k h1 h2
  have hval : ∀ k : ChannelIdx, k ≤ Chan_CutoutZ → ∀ v : Int,
      getLayerPositionFromKind 30 k = v → getLayerPositionFromKind arb k = v := by
    intro k hk v hv
    rw [glp_std arb k h29 hk]; exact hv
  refine ⟨hgrp Chan_R Chan_A (by decide) ?_, hgrp Chan_AR Chan_AB (by decide) ?_,
    hgrp Chan_DeepFlags Chan_SpBits2 (by decide) ?_, hgrp Chan_UvS Chan_UvQ (by decide) ?_,
    ⟨hval _ (by decide) _ (by decide), hval _ (by decide) _ (by decide),
      hval _ (by decide) _ (by decide), hval _ (by decide) _ (by decide)⟩,
    ⟨hval _ (by decide) _ (by decide), hval _ (by decide) _ (by decide),
      hval _ (by decide) _ (by decide)⟩,
    ⟨hval _ (by decide) _ (by decide), hval _ (by decide) _ (by decide),
      hval _ (by decide) _ (by decide)⟩,
    ⟨hval _ (by decide) _ (by decide), hval _ (by decide) _ (by decide),
      hval _ (by decide) _ (by decide), hval _ (by decide) _ (by decide)⟩,
    ⟨hval _ (by decide) _ (by decide), hval _ (by decide) _ (by decide),
      hval _ (by decide) _ (by decide)⟩⟩
  all_goals
    intro k h1 h2
    simp only [ChannelIdx, Chan_R, Chan_A, Chan_AR, Chan_AB, Chan_DeepFlags, Chan_SpBits2,
      Chan_UvS, Chan_UvQ] at h1 h2
    interval_cases k <;> decide

/-- Evaluation for C13, for every threshold above the standard range: in the
yuv group `getLayerPositionFromKind` subtracts `Chan_RY`, the second id of the
group, so it returns `-1` for `Chan_Y`, `0` for `Chan_RY` and `1` for
`Chan_BY`, where the positions within the group are 0, 1 and 2. -/
theorem getLayerPositionFromKind_yuv (arb : ChannelIdx) (h29 : Chan_CutoutZ < arb) :
    getLayerPositionFromKind arb Chan_Y = -1 ∧
    getLayerPositionFromKind arb Chan_RY = 0 ∧
    getLayerPositionFromKind arb Chan_BY = 1 ∧
    getLayerPositionFromKind arb Chan_Y < 0 ∧
    getLayerPositionFromKind arb Chan_Y ≠ (Chan_Y : Int) - Chan_Y := by
  have hval : ∀ k : ChannelIdx, k ≤ Chan_CutoutZ → ∀ v : Int,
      getLayerPositionFromKind 30 k = v → getLayerPositionFromKind arb k = v := by
    intro k hk v hv
    rw [glp_std arb k h29 hk]; exact hv
  have hY := hval Chan_Y (by decide) (-1) (by decide)
  refine ⟨hY, hval _ (by decide) _ (by decide), hval _ (by decide) _ (by decide), ?_, ?_⟩
  · rw [hY]; decide
  · rw [hY]; decide

/-- C14. For every value of the threshold, `getLayerPositionFromKind` returns 0
for `Chan_Invalid`, for every id of the id group (`Chan_ID0` to `Chan_ID3`),
for every id of the cutout group (`Chan_CutoutA` to `Chan_CutoutZ`), and for
every id at or above `Chan_ArbitraryStart`. -/
theorem getLayerPositionFromKind_zero (arb : ChannelIdx) :
    getLayerPositionFromKind arb Chan_Invalid = 0 ∧
    (∀ k : ChannelIdx, Chan_ID0 ≤ k → k ≤ Chan_ID3 → getLayerPositionFromKind arb k = 0) ∧
    (∀ k : ChannelIdx, Chan_CutoutA ≤ k → k ≤ Chan_CutoutZ →
      getLayerPositionFromKind arb k = 0) ∧
    (∀ k : ChannelIdx, arb ≤ k → getLayerPositionFromKind arb k = 0) := by
  have hhigh : ∀ k : ChannelIdx, Chan_ID0 ≤ k → k ≤ Chan_CutoutZ →
      getLayerPositionFromKind arb k = 0 := by
    intro k h1 h2
    by_cases ha : arb ≤ k
    · exact glp_at_or_above arb k ha
    · rw [glp_below arb k (Nat.lt_of_not_le ha) (Nat.lt_succ_of_le h2)]
      simp only [ChannelIdx, Chan_ID0, Chan_CutoutZ] at h1 h2
      interval_cases k <;> decide
  refine ⟨?_, ?_, ?_, glp_at_or_above arb⟩
  · unfold getLayerPositionFromKind
    rw [if_pos (Or.inl (Nat.le_refl _))]
  · intro k h1 h2
    exact hhigh k h1 (Nat.le_trans h2 (by decide))
  · intro k h1 h2
    exact hhigh k (Nat.le_trans (by decide) h1) h2

theorem strip_of_free (d s : Str) (h : ∀ ch ∈ s, ch ∉ d) : strip s d = s := by
  unfold strip
  induction d generalizing s with
  | nil => rfl
  | cons y ys ih =>
    simp only [List.foldl_cons]
    have hf : s.filter (fun i => decide (i ≠ y)) = s := by
      apply List.filter_eq_self.mpr
      intro a ha
      have : a ≠ y := fun e => h a ha (e ▸ List.mem_cons_self _ _)
      simpa using this
    rw [hf]
    exact ih s (fun ch hch hm => h ch hch (List.mem_cons_of_mem _ hm))

theorem find_last_of_cons_some {x : Char} {xs : Str} {d : Char} {i : Nat}
    (h : find_last_of xs d = some i) : find_last_of (x :: xs) d = some (i + 1) := by
  simp only [find_last_of, h]

theorem find_last_of_append {l c : Str} {d : Char} (hc : d ∉ c) :
    find_last_of (l ++ [d] ++ c) d = some l.length := by
  induction l with
  | nil =>
    show find_last_of (d :: c) d = some 0
    simp only [find_last_of, find_last_of_none hc, if_true]
  | cons x xs ih =>
    show find_last_of (x :: (xs ++ [d] ++ c)) d = some (xs.length + 1)
    exact find_last_of_cons_some ih

theorem take_drop_append_dot (l c : Str) :
    (l ++ [dot] ++ c).take l.length = l ∧ (l ++ [dot] ++ c).drop (l.length + 1) = c := by
  constructor
  · rw [List.append_assoc, List.take_left']
    rfl
  · have hlen : (l ++ [dot]).length = l.length + 1 := by simp
    rw [← hlen, List.drop_left']
    rfl

/-- C15 (amended). For every whitespace-free name whose last dot is not its
first character, `splitName` yields as layer the text before the last dot and
as channel the text after it; for every name whose last dot is its first
character, and for every name without a dot, the layer is empty and the
channel is the whole name. -/
theorem splitName_last_dot :
    (∀ l c : Str, (∀ ch ∈ l ++ [dot] ++ c, ch ∉ whitespace) → dot ∉ c → l ≠ [] →
      splitName (l ++ [dot] ++ c) = (l, c)) ∧
    (∀ c : Str, (∀ ch ∈ [dot] ++ c, ch ∉ whitespace) → dot ∉ c →
      splitName ([dot] ++ c) = ([], [dot] ++ c)) ∧
    (∀ n : Str, dot ∉ n → splitName n = ([], n)) := by
  refine ⟨?_, ?_, fun n h => splitName_nodot h⟩
  · intro l c hw hc hl
    unfold splitName
    rw [strip_of_free _ _ hw]
    simp only [find_last_of_append hc]
    have hpos : l.length > 0 := List.length_pos.mpr hl
    rw [if_pos hpos, (take_drop_append_dot l c).1, (take_drop_append_dot l c).2]
  · intro c hw hc
    unfold splitName
    rw [strip_of_free _ _ hw]
    have h := find_last_of_append (l := []) (d := dot) hc
    simp only [List.nil_append, List.length_nil] at h
    simp only [h]
    rfl

theorem toUInt32_zero : toUInt32 0 = 0 := by decide

theorem toUInt32_of_nonneg (i : Int) (h0 : 0 ≤ i) (h1 : i < 4294967296) :
    ((toUInt32 i : Nat) : Int) = i := by
  unfold toUInt32
  rw [Int.emod_eq_of_lt h0 h1, Int.toNat_of_nonneg h0]

/-- The stored position of every alias of known origin is the `uint32_t` value
of `getLayerPositionFromKind` at its id. -/
theorem kind_position (arb : ChannelIdx) (a : ChannelAlias) (h : AliasKind arb a) :
    a.m_position = toUInt32 (getLayerPositionFromKind arb a.m_channel) := by
  rcases h with ⟨c, _, _, hch, _, _, hpos, _⟩ | ⟨_, _, hge, _, hpos⟩
  · rw [hpos, hch]
  · rw [hpos, glp_at_or_above arb _ hge, toUInt32_zero]

theorem glp_range (arb k : ChannelIdx) (hk : k ≤ Chan_CutoutZ) (hY : k ≠ Chan_Y) :
    0 ≤ getLayerPositionFromKind arb k ∧ getLayerPositionFromKind arb k < 4294967296 := by
  by_cases ha : arb ≤ k
  · rw [glp_at_or_above arb k ha]; decide
  · rw [glp_below arb k (Nat.lt_of_not_le ha) (Nat.lt_succ_of_le hk)]
    simp only [ChannelIdx, Chan_CutoutZ, Chan_Y] at hk hY
    interval_cases k <;> first | decide | exact absurd rfl hY

set_option maxRecDepth 1000000 in
theorem std_base_ids : ∀ c ∈ g_standard_channel_table, c.layer_name ≠ "invalid".toList →
    (((ChannelContext.new 30 true).findChannelAliasIdx c.ordering_index).bind
        (fun p => (ChannelContext.new 30 true).m_channelalias_list[p]?)).map erasePosition
      = some ⟨c.channel_name, c.layer_name, c.ordering_index, 0, c.dflt_io_name,
          c.dflt_io_pixel_type⟩ := by
  decide

set_option maxRecDepth 1000000 in
theorem std_base_length : (ChannelContext.new 30 true).m_channelalias_list.length = 29 := by
  decide

set_option maxRecDepth 100000 in
theorem table_valid_rows :
    (g_standard_channel_table.filter (fun c => c.layer_name ≠ "invalid".toList)).length = 29 := by
  decide

set_option maxRecDepth 1000000 in
theorem new_true_length (arb : ChannelIdx) :
    (ChannelContext.new arb true).m_channelalias_list.length = 29 := by
  have h := congrArg List.length (same_new arb 30).list
  simp only [List.length_map] at h
  rw [h]
  exact std_base_length

set_option maxRecDepth 1000000 in
/-- The alias that the id index of a fresh standard context holds for a row. -/
theorem new_true_row (arb : ChannelIdx) (c : StandardChannel)
    (hc : c ∈ g_standard_channel_table) (hn : c.layer_name ≠ "invalid".toList) :
    ∃ p a, (ChannelContext.new arb true).findChannelAliasIdx c.ordering_index = some p ∧
      (ChannelContext.new arb true).m_channelalias_list[p]? = some a ∧
      a.m_name = c.channel_name ∧ a.m_layer = c.layer_name ∧
      a.m_channel = c.ordering_index ∧ a.m_io_name = c.dflt_io_name ∧
      a.m_io_type = c.dflt_io_pixel_type ∧
      a.m_position = toUInt32 (getLayerPositionFromKind arb c.ordering_index) := by
  have hb := std_base_ids c hc hn
  have hS := same_new arb 30
  cases hp : (ChannelContext.new 30 true).findChannelAliasIdx c.ordering_index with
  | none => rw [hp] at hb; cases hb
  | some p =>
    rw [hp] at hb
    simp only [Option.some_bind] at hb
    cases ha : (ChannelContext.new 30 true).m_channelalias_list[p]? with
    | none => rw [ha] at hb; cases hb
    | some a0 =>
      rw [ha] at hb
      simp only [Option.map_some', Option.some.injEq] at hb
      have hp2 : (ChannelContext.new arb true).findChannelAliasIdx c.ordering_index = some p := by
        unfold findChannelAliasIdx at hp ⊢
        rw [hS.chan]
        exact hp
      have h1 := congrArg (fun l => l[p]?) hS.list
      simp only [List.getElem?_map, ha, Option.map_some'] at h1
      cases h2 : (ChannelContext.new arb true).m_channelalias_list[p]? with
      | none => rw [h2] at h1; cases h1
      | some a =>
        rw [h2] at h1
        have he : erasePosition a
            = ⟨c.channel_name, c.layer_name, c.ordering_index, 0, c.dflt_io_name,
                c.dflt_io_pixel_type⟩ := (Option.some.inj h1).trans hb
        have hf : a.m_name = c.channel_name ∧ a.m_layer = c.layer_name ∧
            a.m_channel = c.ordering_index ∧ a.m_io_name = c.dflt_io_name ∧
            a.m_io_type = c.dflt_io_pixel_type := by
          unfold erasePosition at he
          injection he with e1 e2 e3 _ e5 e6
          exact ⟨e1, e2, e3, e5, e6⟩
        have hk := kind_position arb a ((inv_new arb true).kind a (List.getElem?_mem h2))
        rw [hf.2.2.1] at hk
        exact ⟨p, a, hp2, h2, hf.1, hf.2.1, hf.2.2.1, hf.2.2.2.1, hf.2.2.2.2, hk⟩

/-- C11. Construction, for every value of the threshold: after
`ChannelContext(true)`, for each of the 29 rows of the standard table other
than the invalid row, `findChannelAlias(row id)` returns an alias that carries
the channel name, layer name, id, default IO name and IO pixel type of the row
and, as its position, the `uint32_t` value of `getLayerPositionFromKind(row
id)` (the value itself for every row but that of `Chan_Y`); the alias list
has exactly 29 entries and the counter equals `Chan_ArbitraryStart - 1`.
After `ChannelContext(false)` no name and no id resolves to an alias, and the
list is empty. -/
theorem construction (arb : ChannelIdx) :
    (∀ c ∈ g_standard_channel_table, c.layer_name ≠ "invalid".toList →
      ∃ p a, (ChannelContext.new arb true).findChannelAliasIdx c.ordering_index = some p ∧
        (ChannelContext.new arb true).m_channelalias_list[p]? = some a ∧
        a.m_name = c.channel_name ∧ a.m_layer = c.layer_name ∧
        a.m_channel = c.ordering_index ∧ a.m_io_name = c.dflt_io_name ∧
        a.m_io_type = c.dflt_io_pixel_type ∧
        a.m_position = toUInt32 (getLayerPositionFromKind arb c.ordering_index) ∧
        (c.ordering_index ≠ Chan_Y →
          (a.m_position : Int) = getLayerPositionFromKind arb c.ordering_index)) ∧
    (g_standard_channel_table.filter (fun c => c.layer_name ≠ "invalid".toList)).length = 29 ∧
    (ChannelContext.new arb true).m_channelalias_list.length = 29 ∧
    (ChannelContext.new arb true).m_last_assigned = arb - 1 ∧
    (ChannelContext.new arb false).m_channelalias_list = [] ∧
    (ChannelContext.new arb false).m_last_assigned = arb - 1 ∧
    (∀ k : Str, (ChannelContext.new arb false).findChannelAlias k = none) ∧
    (∀ k : Option Str, (ChannelContext.new arb false).findChannelAliasCStr k = none) ∧
    (∀ id : ChannelIdx, (ChannelContext.new arb false).findChannelAliasIdx id = none) := by
  have hfind : ∀ k : Str, (ChannelContext.new arb false).findChannelAlias k = none := by
    intro k
    unfold findChannelAlias
    split <;> rfl
  refine ⟨?_, table_valid_rows, new_true_length arb, new_last arb true, rfl, rfl, hfind, ?_, ?_⟩
  · intro c hc hn
    obtain ⟨p, a, hp, ha, h1, h2, h3, h4, h5, h6⟩ := new_true_row arb c hc hn
    refine ⟨p, a, hp, ha, h1, h2, h3, h4, h5, h6, ?_⟩
    intro hY
    have hr := glp_range arb c.ordering_index (table_rows c hc hn).2.2 hY
    rw [h6]
    exact toUInt32_of_nonneg _ hr.1 hr.2
  · intro k
    unfold findChannelAliasCStr
    cases k with
    | none => rfl
    | some n =>
      simp only []
      split
      · rfl
      · exact hfind n
  · intro id
    unfold findChannelAliasIdx
    split <;> rfl

/-- When the alias list changes, `getChannelAlias` has created the alias of the name. -/
theorem created_of_list_ne (arb : ChannelIdx) (ctx : ChannelContext) (name : Option Str)
    (hnew : (ctx.getChannelAlias arb name).1.m_channelalias_list ≠ ctx.m_channelalias_list) :
    ∃ n, name = some n ∧ n ≠ [] ∧ ctx.findChannelAlias n = none ∧
      ctx.findChannelAlias (resolvedAlias arb n).fullName = none ∧
      ctx.getChannelAlias arb name = (createdCtx arb ctx n, some ctx.m_channelalias_list.length) := by
  cases name with
  | none => exact absurd rfl hnew
  | some n =>
    by_cases hn : n = []
    · subst hn; exact absurd rfl hnew
    · rcases getChannelAlias_cases arb ctx n hn with ⟨p, _, h⟩ | ⟨h1, h2, h⟩
      · rw [h] at hnew; exact absurd rfl hnew
      · exact ⟨n, rfl, hn, h1, h2, h⟩

/-- C16. Whenever `getChannelAlias` creates a new alias for a name whose channel
part matches a synonym token of a standard row in some ASCII case, the new
alias is appended to the list and returned; its name is the channel part as
the caller spelled it, its channel id is the ordering id of the row, its
position is the `uint32_t` value of `getLayerPositionFromKind(row id)` (the
value itself for every row but that of `Chan_Y`), and its default IO name and
pixel type are those of the row.  In particular `red` on a context constructed
without standard channels yields name `red`, layer `rgba`, id `Chan_R`,
position 0, IO name `R` and type half. -/
theorem getChannelAlias_created_standard (arb : ChannelIdx) :
    (∀ (ctx : ChannelContext) (n : Str),
      (ctx.getChannelAlias arb (some n)).1.m_channelalias_list ≠ ctx.m_channelalias_list →
      ∀ c ∈ g_standard_channel_table, ∀ t ∈ matchTokens c, caseVariant (splitName n).2 t →
      ∃ a, returnedAlias (ctx.getChannelAlias arb (some n)) = some a ∧
        (ctx.getChannelAlias arb (some n)).1.m_channelalias_list
          = ctx.m_channelalias_list ++ [a] ∧
        a.m_name = (splitName n).2 ∧ a.m_channel = c.ordering_index ∧
        a.m_position = toUInt32 (getLayerPositionFromKind arb c.ordering_index) ∧
        (c.ordering_index ≠ Chan_Y →
          (a.m_position : Int) = getLayerPositionFromKind arb c.ordering_index) ∧
        a.m_io_name = c.dflt_io_name ∧ a.m_io_type = c.dflt_io_pixel_type) ∧
    returnedAlias ((ChannelContext.new arb false).getChannelAlias arb (some "red".toList))
      = some ⟨"red".toList, "rgba".toList, Chan_R, 0, "R".toList, .HALF⟩ := by
  have gen : ∀ (ctx : ChannelContext) (n : Str),
      (ctx.getChannelAlias arb (some n)).1.m_channelalias_list ≠ ctx.m_channelalias_list →
      ∀ c ∈ g_standard_channel_table, ∀ t ∈ matchTokens c, caseVariant (splitName n).2 t →
      returnedAlias (ctx.getChannelAlias arb (some n))
        = some ⟨(splitName n).2, if (splitName n).1 = [] then c.layer_name else (splitName n).1,
            c.ordering_index, toUInt32 (getLayerPositionFromKind arb c.ordering_index),
            c.dflt_io_name, c.dflt_io_pixel_type⟩ ∧
      (ctx.getChannelAlias arb (some n)).1.m_channelalias_list
        = ctx.m_channelalias_list ++
          [⟨(splitName n).2, if (splitName n).1 = [] then c.layer_name else (splitName n).1,
            c.ordering_index, toUInt32 (getLayerPositionFromKind arb c.ordering_index),
            c.dflt_io_name, c.dflt_io_pixel_type⟩] := by
    intro ctx n hnew c hc t ht hv
    obtain ⟨n', hn', _, _, _, h⟩ := created_of_list_ne arb ctx (some n) hnew
    cases hn'
    have hm : stdMatch (splitName n).2 = some c := stdMatch_token hc ht hv
    have hne : c.ordering_index ≠ Chan_Invalid :=
      Nat.pos_iff_ne_zero.mp (stdMatch_row hm).2.2.1
    have hst : storedAlias ctx (resolvedAlias arb n)
        = ⟨(splitName n).2, if (splitName n).1 = [] then c.layer_name else (splitName n).1,
            c.ordering_index, toUInt32 (getLayerPositionFromKind arb c.ordering_index),
            c.dflt_io_name, c.dflt_io_pixel_type⟩ := by
      rw [resolved_of_match arb n c hm]
      exact storedAlias_of_valid ctx _ hne
    rw [h, createdCtx_returned, createdCtx_list, hst]
    exact ⟨rfl, rfl⟩
  refine ⟨?_, ?_⟩
  · intro ctx n hnew c hc t ht hv
    obtain ⟨h1, h2⟩ := gen ctx n hnew c hc t ht hv
    refine ⟨_, h1, h2, rfl, rfl, rfl, ?_, rfl, rfl⟩
    intro hY
    have hm : stdMatch (splitName n).2 = some c := stdMatch_token hc ht hv
    have hr := glp_range arb c.ordering_index (stdMatch_row hm).2.2.2.1 hY
    exact toUInt32_of_nonneg _ hr.1 hr.2
  · have hcr : ((ChannelContext.new arb false).getChannelAlias arb
        (some "red".toList)).1.m_channelalias_list
        ≠ (ChannelContext.new arb false).m_channelalias_list := by
      rcases getChannelAlias_cases arb (ChannelContext.new arb false) "red".toList (by decide)
        with ⟨p, hp | ⟨_, hp⟩, _⟩ | ⟨_, _, h⟩
      · cases hp
      · have : (ChannelContext.new arb false).findChannelAlias
            (resolvedAlias arb "red".toList).fullName = none := by
          unfold findChannelAlias; split <;> rfl
        rw [this] at hp; cases hp
      · have h' : (ChannelContext.new arb false).getChannelAlias arb (some "red".toList)
            = (createdCtx arb (ChannelContext.new arb false) "red".toList,
                some (ChannelContext.new arb false).m_channelalias_list.length) := h
        rw [h', createdCtx_list]
        show [] ++ [_] ≠ []
        simp
    have h := (gen _ _ hcr (stdRow "rgba" "R" "R,RED" "R" .HALF Chan_R) (by decide)
      "RED".toList (by decide) (by decide)).1
    rw [h]
    have hz : toUInt32 (getLayerPositionFromKind arb Chan_R) = 0 := by
      by_cases ha : arb ≤ Chan_R
      · rw [glp_at_or_above arb _ ha]; rfl
      · rw [glp_below arb _ (Nat.lt_of_not_le ha) (by decide)]; decide
    show some (ChannelAlias.mk _ _ _ (toUInt32 (getLayerPositionFromKind arb Chan_R)) _ _) = _
    rw [hz]
    rfl

/-- Resolution of a name `L.x` whose channel part matches a row, on a context
that satisfies the registry invariant: the alias carries the id of the row,
and it has layer `L` and name `x` unless the name is the default IO name of a
table row. -/
theorem dotted_cases (arb : ChannelIdx) (ctx : ChannelContext) (hI : Inv arb ctx)
    (n L x : Str) (c : StandardChannel) (hn : n = L ++ [dot] ++ x)
    (hsplit : splitName n = (L, x)) (hL : L ≠ []) (hdL : dot ∉ L) (hdx : dot ∉ x)
    (hm : stdMatch x = some c)
    (hT1 : ∀ c' ∈ g_standard_channel_table, c'.channel_name = x → c'.layer_name = L →
      c'.ordering_index = c.ordering_index)
    (hT2 : ∀ c' ∈ g_standard_channel_table, c'.dflt_io_name = n →
      c'.ordering_index = c.ordering_index) :
    ∃ a, returnedAlias (ctx.getChannelAlias arb (some n)) = some a ∧
      a.m_channel = c.ordering_index ∧
      ((a.m_layer = L ∧ a.m_name = x) ∨
        ∃ c' ∈ g_standard_channel_table, c'.dflt_io_name = n) := by
  have hne : n ≠ [] := by rw [hn]; simp
  have hm' : stdMatch (splitName n).2 = some c := by rw [hsplit]; exact hm
  have hcne : c.ordering_index ≠ Chan_Invalid :=
    Nat.pos_iff_ne_zero.mp (stdMatch_row hm).2.2.1
  have hres : resolvedAlias arb n
      = ⟨x, L, c.ordering_index, toUInt32 (getLayerPositionFromKind arb c.ordering_index),
          c.dflt_io_name, c.dflt_io_pixel_type⟩ := by
    rw [resolved_of_match arb n c hm', hsplit]
    simp only [hL, if_false]
  have hF : (resolvedAlias arb n).fullName = n := by
    rw [fullName_of_layer (resolvedAlias_layer arb n), hres, hn]
  rcases getChannelAlias_spec arb ctx n hne hI with
    ⟨p, a, hp, h, ha, hk⟩ | ⟨p, a, hp0, hp, _⟩ | ⟨_, _, h⟩
  · have hmem := List.getElem?_mem ha
    rw [h, returnedAlias_mk]
    rcases hk with hk | hk
    · rw [fullName_of_layer (hI.layer_ne a hmem), hn] at hk
      have hinj := append_dot_inj hk.symm hdL hdx
      refine ⟨a, ha, ?_, Or.inl hinj⟩
      rcases hI.kind a hmem with ⟨c', hc', _, hch, _, _, _, hor⟩ | ⟨hno, _⟩
      · rcases hor with hsm | ⟨hnm, hly⟩
        · rw [hinj.2, hm] at hsm
          rw [hch, ← Option.some.inj hsm]
        · rw [hch]
          exact hT1 c' hc' (hnm.symm.trans hinj.2) (hly.symm.trans hinj.1)
      · rw [hinj.2, hm] at hno
        cases hno
    · rcases hI.kind a hmem with ⟨c', hc', _, hch, hio, _, _, _⟩ | ⟨_, hio, _⟩
      · have hcn : c'.dflt_io_name = n := hio.symm.trans hk.symm
        exact ⟨a, ha, by rw [hch]; exact hT2 c' hc' hcn, Or.inr ⟨c', hc', hcn⟩⟩
      · exact absurd (hk.trans hio) hne
  · rw [hF, hp0] at hp
    cases hp
  · rw [h, createdCtx_returned, hres]
    refine ⟨_, rfl, ?_, Or.inl ⟨?_, ?_⟩⟩
    · rw [storedAlias_channel]; simp only [hcne, if_false]
    · rw [storedAlias_layer]
    · rw [storedAlias_name]

set_option maxRecDepth 100000 in
theorem foo_R_facts :
    splitName "foo.R".toList = ("foo".toList, "R".toList) ∧
    stdMatch "R".toList = some (stdRow "rgba" "R" "R,RED" "R" .HALF Chan_R) ∧
    (∀ c' ∈ g_standard_channel_table, c'.layer_name ≠ "foo".toList) ∧
    (∀ c' ∈ g_standard_channel_table, c'.dflt_io_name ≠ "foo.R".toList) := by
  decide

set_option maxRecDepth 100000 in
theorem bar_R_facts :
    splitName "bar.R".toList = ("bar".toList, "R".toList) ∧
    (∀ c' ∈ g_standard_channel_table, c'.layer_name ≠ "bar".toList) ∧
    (∀ c' ∈ g_standard_channel_table, c'.dflt_io_name ≠ "bar.R".toList) := by
  decide

theorem resolve_foo_R (arb : ChannelIdx) (ctx : ChannelContext) (hI : Inv arb ctx) :
    ∃ a, returnedAlias (ctx.getChannelAlias arb (some "foo.R".toList)) = some a ∧
      a.m_channel = Chan_R ∧ a.m_layer = "foo".toList ∧ a.m_name = "R".toList := by
  obtain ⟨a, ha, hch, hor⟩ := dotted_cases arb ctx hI "foo.R".toList "foo".toList "R".toList
    (stdRow "rgba" "R" "R,RED" "R" .HALF Chan_R) rfl foo_R_facts.1 (by decide) (by decide)
    (by decide) foo_R_facts.2.1
    (fun c' hc' _ hl => absurd hl (foo_R_facts.2.2.1 c' hc'))
    (fun c' hc' hio => absurd hio (foo_R_facts.2.2.2 c' hc'))
  rcases hor with ⟨hl, hnm⟩ | ⟨c', hc', hio⟩
  · exact ⟨a, ha, hch, hl, hnm⟩
  · exact absurd hio (foo_R_facts.2.2.2 c' hc')

theorem resolve_bar_R (arb : ChannelIdx) (ctx : ChannelContext) (hI : Inv arb ctx) :
    ∃ a, returnedAlias (ctx.getChannelAlias arb (some "bar.R".toList)) = some a ∧
      a.m_channel = Chan_R ∧ a.m_layer = "bar".toList ∧ a.m_name = "R".toList := by
  obtain ⟨a, ha, hch, hor⟩ := dotted_cases arb ctx hI "bar.R".toList "bar".toList "R".toList
    (stdRow "rgba" "R" "R,RED" "R" .HALF Chan_R) rfl bar_R_facts.1 (by decide) (by decide)
    (by decide) foo_R_facts.2.1
    (fun c' hc' _ hl => absurd hl (bar_R_facts.2.1 c' hc'))
    (fun c' hc' hio => absurd hio (bar_R_facts.2.2 c' hc'))
  rcases hor with ⟨hl, hnm⟩ | ⟨c', hc', hio⟩
  · exact ⟨a, ha, hch, hl, hnm⟩
  · exact absurd hio (bar_R_facts.2.2 c' hc')

theorem returnedAlias_some {r : ChannelContext × Option Nat} {a : ChannelAlias}
    (h : returnedAlias r = some a) :
    ∃ p, r.2 = some p ∧ r.1.m_channelalias_list[p]? = some a := by
  unfold returnedAlias at h
  cases hp : r.2 with
  | none => rw [hp] at h; cases h
  | some p =>
    rw [hp] at h
    exact ⟨p, rfl, h⟩

/-- C17. Whenever `getChannelAlias` creates a new alias for a name with a
non-empty layer prefix whose channel part matches a synonym token of a
standard row in some ASCII case, the new alias keeps the layer of the caller
and takes the ordering id of the row.  Hence on every context reachable from
construction (without standard channels, and with them as well) `foo.R`
followed by `bar.R` resolve to two different aliases, of layers `foo` and
`bar`, that both have the id `Chan_R`. -/
theorem getChannelAlias_keeps_caller_layer (arb : ChannelIdx) :
    (∀ (ctx : ChannelContext) (n : Str),
      (ctx.getChannelAlias arb (some n)).1.m_channelalias_list ≠ ctx.m_channelalias_list →
      (splitName n).1 ≠ [] →
      ∀ c ∈ g_standard_channel_table, ∀ t ∈ matchTokens c, caseVariant (splitName n).2 t →
      ∃ a, returnedAlias (ctx.getChannelAlias arb (some n)) = some a ∧
        (ctx.getChannelAlias arb (some n)).1.m_channelalias_list
          = ctx.m_channelalias_list ++ [a] ∧
        a.m_layer = (splitName n).1 ∧ a.m_channel = c.ordering_index) ∧
    (∀ (b : Bool) (ctx : ChannelContext), Reachable arb b ctx →
      ∃ p1 p2 a1 a2,
        (ctx.getChannelAlias arb (some "foo.R".toList)).2 = some p1 ∧
        ((ctx.getChannelAlias arb (some "foo.R".toList)).1.getChannelAlias arb
          (some "bar.R".toList)).2 = some p2 ∧
        p1 ≠ p2 ∧
        ((ctx.getChannelAlias arb (some "foo.R".toList)).1.getChannelAlias arb
          (some "bar.R".toList)).1.m_channelalias_list[p1]? = some a1 ∧
        ((ctx.getChannelAlias arb (some "foo.R".toList)).1.getChannelAlias arb
          (some "bar.R".toList)).1.m_channelalias_list[p2]? = some a2 ∧
        a1.m_layer = "foo".toList ∧ a2.m_layer = "bar".toList ∧
        a1.m_channel = Chan_R ∧ a2.m_channel = Chan_R) := by
  refine ⟨?_, ?_⟩
  · intro ctx n hnew hL c hc t ht hv
    obtain ⟨n', hn', _, _, _, h⟩ := created_of_list_ne arb ctx (some n) hnew
    cases hn'
    have hm : stdMatch (splitName n).2 = some c := stdMatch_token hc ht hv
    have hne : c.ordering_index ≠ Chan_Invalid :=
      Nat.pos_iff_ne_zero.mp (stdMatch_row hm).2.2.1
    rw [h, createdCtx_returned, createdCtx_list]
    refine ⟨_, rfl, rfl, ?_, ?_⟩
    · rw [storedAlias_layer, resolved_of_match arb n c hm]
      simp only [hL, if_false]
    · rw [storedAlias_channel, resolved_of_match arb n c hm]
      simp only [hne, if_false]
  · intro b ctx hR
    have hI := inv_reachable arb b ctx hR
    have hI1 := inv_get arb ctx (some "foo.R".toList) hI
    obtain ⟨a1, hr1, hc1, hl1, _⟩ := resolve_foo_R arb ctx hI
    obtain ⟨a2, hr2, hc2, hl2, _⟩ := resolve_bar_R arb _ hI1
    obtain ⟨p1, hp1, hg1⟩ := returnedAlias_some hr1
    obtain ⟨p2, hp2, hg2⟩ := returnedAlias_some hr2
    have hg1' := (extends_get arb _ (some "bar.R".toList)).list p1 a1 hg1
    refine ⟨p1, p2, a1, a2, hp1, hp2, ?_, hg1', hg2, hl1, hl2, hc1, hc2⟩
    intro he
    rw [he, hg2] at hg1'
    have := Option.some.inj hg1'
    rw [← this, hl2] at hl1
    exact absurd hl1 (by decide)

set_option maxRecDepth 100000 in
theorem spmask_facts :
    splitName "spmask.3".toList = ("spmask".toList, "3".toList) ∧
    splitName "spmask.flags".toList = ("spmask".toList, "flags".toList) ∧
    stdMatch "3".toList
      = some (stdRow "spmask" "flags" "FLAGS,3" "spmask.flags" .HALF Chan_DeepFlags) ∧
    stdMatch "flags".toList
      = some (stdRow "spmask" "flags" "FLAGS,3" "spmask.flags" .HALF Chan_DeepFlags) ∧
    (∀ c' ∈ g_standard_channel_table, c'.channel_name = "3".toList →
      c'.layer_name = "spmask".toList → c'.ordering_index = Chan_DeepFlags) ∧
    (∀ c' ∈ g_standard_channel_table, c'.dflt_io_name = "spmask.3".toList →
      c'.ordering_index = Chan_DeepFlags) ∧
    (∀ c' ∈ g_standard_channel_table, c'.channel_name = "flags".toList →
      c'.layer_name = "spmask".toList → c'.ordering_index = Chan_DeepFlags) ∧
    (∀ c' ∈ g_standard_channel_table, c'.dflt_io_name = "spmask.flags".toList →
      c'.ordering_index = Chan_DeepFlags) := by
  decide

/-- C18. On every context reachable from a newly constructed `ChannelContext`
(with or without standard channels) by `getChannelAlias` calls,
`getChannelAlias` of `spmask.3` and `getChannelAlias` of `spmask.flags` both
return an alias whose channel id is `Chan_DeepFlags`; this also holds when
the second call is made on the context left by the first. -/
theorem getChannelAlias_spmask_legacy (arb : ChannelIdx) (b : Bool) (ctx : ChannelContext)
    (hR : Reachable arb b ctx) :
    (∃ a, returnedAlias (ctx.getChannelAlias arb (some "spmask.3".toList)) = some a ∧
      a.m_channel = Chan_DeepFlags) ∧
    (∃ a, returnedAlias (ctx.getChannelAlias arb (some "spmask.flags".toList)) = some a ∧
      a.m_channel = Chan_DeepFlags) ∧
    (∃ a, returnedAlias ((ctx.getChannelAlias arb (some "spmask.3".toList)).1.getChannelAlias
        arb (some "spmask.flags".toList)) = some a ∧ a.m_channel = Chan_DeepFlags) ∧
    (∃ a, returnedAlias ((ctx.getChannelAlias arb (some "spmask.flags".toList)).1.getChannelAlias
        arb (some "spmask.3".toList)) = some a ∧ a.m_channel = Chan_DeepFlags) := by
  have h3 : ∀ ctx : ChannelContext, Inv arb ctx →
      ∃ a, returnedAlias (ctx.getChannelAlias arb (some "spmask.3".toList)) = some a ∧
        a.m_channel = Chan_DeepFlags := by
    intro ctx hI
    obtain ⟨a, ha, hch, _⟩ := dotted_cases arb ctx hI "spmask.3".toList "spmask".toList
      "3".toList _ rfl spmask_facts.1 (by decide) (by decide) (by decide)
      spmask_facts.2.2.1 spmask_facts.2.2.2.2.1 spmask_facts.2.2.2.2.2.1
    exact ⟨a, ha, hch⟩
  have hf : ∀ ctx : ChannelContext, Inv arb ctx →
      ∃ a, returnedAlias (ctx.getChannelAlias arb (some "spmask.flags".toList)) = some a ∧
        a.m_channel = Chan_DeepFlags := by
    intro ctx hI
    obtain ⟨a, ha, hch, _⟩ := dotted_cases arb ctx hI "spmask.flags".toList "spmask".toList
      "flags".toList _ rfl spmask_facts.2.1 (by decide) (by decide) (by decide)
      spmask_facts.2.2.2.1 spmask_facts.2.2.2.2.2.2.1 spmask_facts.2.2.2.2.2.2.2
    exact ⟨a, ha, hch⟩
  have hI := inv_reachable arb b ctx hR
  exact ⟨h3 ctx hI, hf ctx hI, hf _ (inv_get arb ctx _ hI), h3 _ (inv_get arb ctx _ hI)⟩

set_option maxRecDepth 100000 in
theorem table_id_type : ∀ c1 ∈ g_standard_channel_table, ∀ c2 ∈ g_standard_channel_table,
    c1.ordering_index = c2.ordering_index →
      c1.dflt_io_pixel_type = c2.dflt_io_pixel_type := by
  decide

set_option maxRecDepth 100000 in
theorem table_id_le : ∀ c ∈ g_standard_channel_table, c.ordering_index ≤ Chan_CutoutZ := by
  decide

/-- C19. In every context reachable from a newly constructed `ChannelContext`
(with or without standard channels) by `getChannelAlias` calls, any two
registered aliases that have the same channel id have the same layer position
and, the threshold lying above the last standard id, the same default IO
pixel type. -/
theorem same_id_same_position_type (arb : ChannelIdx) (b : Bool) (ctx : ChannelContext)
    (hR : Reachable arb b ctx) (a1 a2 : ChannelAlias)
    (h1 : a1 ∈ ctx.m_channelalias_list) (h2 : a2 ∈ ctx.m_channelalias_list)
    (heq : a1.m_channel = a2.m_channel) :
    a1.m_position = a2.m_position ∧
    (Chan_CutoutZ < arb → a1.m_io_type = a2.m_io_type) := by
  have hI := inv_reachable arb b ctx hR
  have k1 := hI.kind a1 h1
  have k2 := hI.kind a2 h2
  refine ⟨?_, ?_⟩
  · rw [kind_position arb a1 k1, kind_position arb a2 k2, heq]
  · intro h29
    rcases k1 with ⟨c1, hc1, _, hch1, _, ht1, _, _⟩ | ⟨_, _, hge1, ht1, _⟩ <;>
      rcases k2 with ⟨c2, hc2, _, hch2, _, ht2, _, _⟩ | ⟨_, _, hge2, ht2, _⟩
    · rw [ht1, ht2]
      exact table_id_type c1 hc1 c2 hc2 (hch1.symm.trans (heq.trans hch2))
    · have hle := table_id_le c1 hc1
      rw [← hch1, heq] at hle
      exact absurd (Nat.lt_of_lt_of_le h29 hge2) (Nat.not_lt.mpr hle)
    · have hle := table_id_le c2 hc2
      rw [← hch2, ← heq] at hle
      exact absurd (Nat.lt_of_lt_of_le h29 hge1) (Nat.not_lt.mpr hle)
    · rw [ht1, ht2]

theorem addToLayer_none (ctx : ChannelContext) (name : Str) (o : ChanOrder)
    (h : StdMap.find ctx.m_layer_name_map name = none) :
    (addToLayer ctx name o).m_layers = ctx.m_layers ++ [⟨name, [o]⟩] ∧
    (addToLayer ctx name o).m_layer_name_map
      = StdMap.assign ctx.m_layer_name_map name ctx.m_layers.length := by
  unfold addToLayer
  rw [h]
  exact ⟨rfl, rfl⟩

theorem addToLayer_some (ctx : ChannelContext) (name : Str) (o : ChanOrder) (i : Nat)
    (h : StdMap.find ctx.m_layer_name_map name = some i) :
    (addToLayer ctx name o).m_layers
      = ctx.m_layers.modify (fun layer => { layer with channels := layer.channels ++ [o] }) i ∧
    (addToLayer ctx name o).m_layer_name_map = ctx.m_layer_name_map := by
  unfold addToLayer
  rw [h]
  exact ⟨rfl, rfl⟩

/-- The effect of the layer bookkeeping on a context that satisfies the layer
invariant. -/
theorem addToLayer_effect (ctx : ChannelContext) (name : Str) (o : ChanOrder)
    (hL : LayerInv ctx) :
    (∀ (i : Nat) (l : Layer), ctx.m_layers[i]? = some l → l.name = name →
      (addToLayer ctx name o).m_layers.length = ctx.m_layers.length ∧
      (addToLayer ctx name o).m_layers[i]? = some ⟨l.name, l.channels ++ [o]⟩ ∧
      ∀ j : Nat, j ≠ i → (addToLayer ctx name o).m_layers[j]? = ctx.m_layers[j]?) ∧
    ((∀ l ∈ ctx.m_layers, l.name ≠ name) →
      (addToLayer ctx name o).m_layers = ctx.m_layers ++ [⟨name, [o]⟩]) := by
  refine ⟨?_, ?_⟩
  · intro i l hl hname
    have hf := hL.to_map i l hl
    rw [hname] at hf
    rw [(addToLayer_some ctx name o i hf).1]
    refine ⟨List.length_modify _ _ _, ?_, ?_⟩
    · rw [List.getElem?_modify_eq, hl]
      rfl
    · intro j hj
      exact List.getElem?_modify_ne _ _ (fun e => hj e.symm)
  · intro hno
    cases hf : StdMap.find ctx.m_layer_name_map name with
    | none => exact (addToLayer_none ctx name o hf).1
    | some i =>
      obtain ⟨l, hl, hn⟩ := hL.map_to name i hf
      exact absurd hn (hno l (List.getElem?_mem hl))

theorem layerInv_addToLayer (ctx : ChannelContext) (name : Str) (o : ChanOrder)
    (hL : LayerInv ctx) : LayerInv (addToLayer ctx name o) := by
  cases hf : StdMap.find ctx.m_layer_name_map name with
  | none =>
    obtain ⟨e1, e2⟩ := addToLayer_none ctx name o hf
    refine ⟨?_, ?_⟩
    · intro k i h
      rw [e2, stdmap_find_assign] at h
      rw [e1]
      by_cases hk : k = name
      · rw [if_pos hk] at h
        cases h
        exact ⟨⟨name, [o]⟩, List.getElem?_concat_length _ _, hk.symm⟩
      · rw [if_neg hk] at h
        obtain ⟨l, hl, hn⟩ := hL.map_to k i h
        exact ⟨l, getElem?_append_of_some _ _ _ _ hl, hn⟩
    · intro i l hl
      rw [e1] at hl
      rw [e2, stdmap_find_assign]
      rcases getElem?_concat_cases hl with hold | ⟨hi, hnew⟩
      · have hm := hL.to_map i l hold
        by_cases hk : l.name = name
        · rw [hk, hf] at hm; cases hm
        · rw [if_neg hk]; exact hm
      · rw [hnew, hi]
        simp
  | some i0 =>
    obtain ⟨e1, e2⟩ := addToLayer_some ctx name o i0 hf
    refine ⟨?_, ?_⟩
    · intro k i h
      rw [e2] at h
      rw [e1]
      obtain ⟨l, hl, hn⟩ := hL.map_to k i h
      by_cases hi : i0 = i
      · subst hi
        rw [List.getElem?_modify_eq, hl]
        exact ⟨_, rfl, hn⟩
      · rw [List.getElem?_modify_ne _ _ hi]
        exact ⟨l, hl, hn⟩
    · intro i l hl
      rw [e1] at hl
      rw [e2]
      by_cases hi : i0 = i
      · subst hi
        rw [List.getElem?_modify_eq] at hl
        cases h0 : ctx.m_layers[i0]? with
        | none => rw [h0] at hl; cases hl
        | some l0 =>
          rw [h0] at hl
          have hm := hL.to_map i0 l0 h0
          have : l.name = l0.name := by
            have := Option.some.inj hl
            rw [← this]
          rw [this]; exact hm
      · rw [List.getElem?_modify_ne _ _ hi] at hl
        exact hL.to_map i l hl

theorem layerInv_add_fresh (ctx : ChannelContext) (obj : ChannelAlias) (hL : LayerInv ctx) :
    LayerInv (ctx.addChannelAlias (.fresh obj)).1 :=
  ⟨hL.map_to, hL.to_map⟩

theorem layerInv_fold_std (arb : ChannelIdx) (rows : List StandardChannel) :
    ∀ ctx : ChannelContext, LayerInv ctx →
      LayerInv (rows.foldl
        (fun ctx c =>
          if c.layer_name = "invalid".toList then ctx
          else (ctx.addChannelAliasNew c.channel_name c.layer_name c.ordering_index
                  (toUInt32 (getLayerPositionFromKind arb c.ordering_index))
                  c.dflt_io_name c.dflt_io_pixel_type).1) ctx) := by
  induction rows with
  | nil => intro ctx h; exact h
  | cons c rows ih =>
    intro ctx h
    simp only [List.foldl_cons]
    apply ih
    by_cases hn : c.layer_name = "invalid".toList
    · rw [if_pos hn]; exact h
    · rw [if_neg hn]; exact layerInv_add_fresh ctx _ h

theorem layerInv_new (arb : ChannelIdx) (b : Bool) : LayerInv (ChannelContext.new arb b) := by
  have h0 : LayerInv ⟨[], [], [], [], [], arb - 1⟩ := by
    refine ⟨?_, ?_⟩
    · intro k i h; simp [StdMap.find] at h
    · intro i l h; simp at h
  unfold ChannelContext.new
  cases b with
  | false => exact h0
  | true =>
    simp only [if_true]
    exact layerInv_fold_std arb _ _ h0

theorem layerInv_get (arb : ChannelIdx) (ctx : ChannelContext) (name : Option Str)
    (hL : LayerInv ctx) : LayerInv (ctx.getChannelAlias arb name).1 := by
  cases name with
  | none => exact hL
  | some n =>
    by_cases hn : n = []
    · subst hn; exact hL
    · rcases getChannelAlias_cases arb ctx n hn with ⟨p, _, h⟩ | ⟨_, _, h⟩
      · rw [h]; exact hL
      · rw [h]
        exact layerInv_addToLayer _ _ _ (layerInv_add_fresh ctx _ hL)

theorem layerInv_reachable (arb : ChannelIdx) (b : Bool) (ctx : ChannelContext)
    (h : Reachable arb b ctx) : LayerInv ctx := by
  induction h with
  | init => exact layerInv_new arb b
  | step name _ ih => exact layerInv_get arb _ name ih

theorem layer_names_distinct (ctx : ChannelContext) (hL : LayerInv ctx) (i j : Nat)
    (l1 l2 : Layer) (h1 : ctx.m_layers[i]? = some l1) (h2 : ctx.m_layers[j]? = some l2)
    (hn : l1.name = l2.name) : i = j := by
  have e1 := hL.to_map i l1 h1
  have e2 := hL.to_map j l2 h2
  rw [hn, e2] at e1
  exact (Option.some.inj e1).symm

/-- C20. On every context reachable from construction by `getChannelAlias`
calls, whenever `getChannelAlias` creates a new alias: if a layer named by
the layer of the alias exists, the layer list keeps its length, that layer
gets exactly the pair (alias id, alias position) appended at the end of its
channel list, and every other layer is unchanged; if no layer of that name
exists, one new layer with that name and that single pair is appended at the
end of the layer list; in both cases every layer that existed keeps its
place, its name and its entries as a prefix, and the layer names of the
list stay pairwise distinct. -/
theorem getChannelAlias_layer_bookkeeping (arb : ChannelIdx) (b : Bool)
    (ctx : ChannelContext) (hR : Reachable arb b ctx) (n : Str)
    (hnew : (ctx.getChannelAlias arb (some n)).1.m_channelalias_list
      ≠ ctx.m_channelalias_list) :
    ∃ a, returnedAlias (ctx.getChannelAlias arb (some n)) = some a ∧
      (ctx.getChannelAlias arb (some n)).1.m_channelalias_list
        = ctx.m_channelalias_list ++ [a] ∧
      (∀ (i : Nat) (l : Layer), ctx.m_layers[i]? = some l → l.name = a.m_layer →
        (ctx.getChannelAlias arb (some n)).1.m_layers.length = ctx.m_layers.length ∧
        (ctx.getChannelAlias arb (some n)).1.m_layers[i]?
          = some ⟨l.name, l.channels ++ [⟨a.m_channel, a.m_position⟩]⟩ ∧
        ∀ j : Nat, j ≠ i →
          (ctx.getChannelAlias arb (some n)).1.m_layers[j]? = ctx.m_layers[j]?) ∧
      ((∀ l ∈ ctx.m_layers, l.name ≠ a.m_layer) →
        (ctx.getChannelAlias arb (some n)).1.m_layers
          = ctx.m_layers ++ [⟨a.m_layer, [⟨a.m_channel, a.m_position⟩]⟩]) ∧
      (∀ (i : Nat) (l : Layer), ctx.m_layers[i]? = some l →
        ∃ l', (ctx.getChannelAlias arb (some n)).1.m_layers[i]? = some l' ∧
          l'.name = l.name ∧ l.channels <+: l'.channels) ∧
      (∀ (i j : Nat) (l1 l2 : Layer),
        (ctx.getChannelAlias arb (some n)).1.m_layers[i]? = some l1 →
        (ctx.getChannelAlias arb (some n)).1.m_layers[j]? = some l2 →
        l1.name = l2.name → i = j) := by
  have hL := layerInv_reachable arb b ctx hR
  have hL' := layerInv_get arb ctx (some n) hL
  obtain ⟨n', hn', _, _, _, h⟩ := created_of_list_ne arb ctx (some n) hnew
  cases hn'
  have hLa : LayerInv (ctx.addChannelAlias (.fresh (resolvedAlias arb n))).1 :=
    layerInv_add_fresh ctx _ hL
  have heff := addToLayer_effect (ctx.addChannelAlias (.fresh (resolvedAlias arb n))).1
    (resolvedAlias arb n).m_layer
    ⟨(storedAlias ctx (resolvedAlias arb n)).m_channel,
     (storedAlias ctx (resolvedAlias arb n)).m_position⟩ hLa
  have hlay : (storedAlias ctx (resolvedAlias arb n)).m_layer = (resolvedAlias arb n).m_layer :=
    storedAlias_layer ctx _
  have hA : ∀ (i : Nat) (l : Layer), ctx.m_layers[i]? = some l →
      l.name = (storedAlias ctx (resolvedAlias arb n)).m_layer →
      (createdCtx arb ctx n).m_layers.length = ctx.m_layers.length ∧
      (createdCtx arb ctx n).m_layers[i]?
        = some ⟨l.name, l.channels ++ [⟨(storedAlias ctx (resolvedAlias arb n)).m_channel,
            (storedAlias ctx (resolvedAlias arb n)).m_position⟩]⟩ ∧
      ∀ j : Nat, j ≠ i → (createdCtx arb ctx n).m_layers[j]? = ctx.m_layers[j]? := by
    intro i l hl hname
    exact heff.1 i l hl (hname.trans hlay)
  have hB : (∀ l ∈ ctx.m_layers, l.name ≠ (storedAlias ctx (resolvedAlias arb n)).m_layer) →
      (createdCtx arb ctx n).m_layers
        = ctx.m_layers ++ [⟨(storedAlias ctx (resolvedAlias arb n)).m_layer,
            [⟨(storedAlias ctx (resolvedAlias arb n)).m_channel,
              (storedAlias ctx (resolvedAlias arb n)).m_position⟩]⟩] := by
    intro hno
    rw [hlay]
    exact heff.2 (fun l hl => by rw [← hlay]; exact hno l hl)
  rw [h] at hL' ⊢
  rw [createdCtx_returned]
  refine ⟨_, rfl, createdCtx_list arb ctx n, hA, hB, ?_, ?_⟩
  · intro i l hl
    by_cases hex : ∃ (i0 : Nat) (l0 : Layer), ctx.m_layers[i0]? = some l0 ∧
        l0.name = (storedAlias ctx (resolvedAlias arb n)).m_layer
    · obtain ⟨i0, l0, hl0, hn0⟩ := hex
      obtain ⟨_, hat, hother⟩ := hA i0 l0 hl0 hn0
      by_cases hi : i = i0
      · subst hi
        rw [hl] at hl0
        cases hl0
        exact ⟨_, hat, rfl, List.prefix_append _ _⟩
      · exact ⟨l, (hother i hi).trans hl, rfl, List.prefix_refl _⟩
    · have hno : ∀ l ∈ ctx.m_layers,
          l.name ≠ (storedAlias ctx (resolvedAlias arb n)).m_layer := by
        intro l0 hl0 hn0
        obtain ⟨i0, hi0⟩ := List.getElem?_of_mem hl0
        exact hex ⟨i0, l0, hi0, hn0⟩
      have e : (createdCtx arb ctx n, some ctx.m_channelalias_list.length).1.m_layers
          = ctx.m_layers ++ [⟨(storedAlias ctx (resolvedAlias arb n)).m_layer,
            [⟨(storedAlias ctx (resolvedAlias arb n)).m_channel,
              (storedAlias ctx (resolvedAlias arb n)).m_position⟩]⟩] := hB hno
      rw [e]
      exact ⟨l, getElem?_append_of_some _ _ _ _ hl, rfl, List.prefix_refl _⟩
  · intro i j l1 l2 h1 h2 hn
    exact layer_names_distinct _ hL' i j l1 l2 h1 h2 hn

set_option maxRecDepth 1000000 in
/-- Witness of C11: the row of `Chan_ZBack` on a fresh standard context. -/
theorem construction_witness :
    stdRow "depth" "ZBack" "ZB,ZBACK" "ZBack" .FLOAT Chan_ZBack ∈ g_standard_channel_table ∧
    ∃ p a, (ChannelContext.new 30 true).findChannelAliasIdx Chan_ZBack = some p ∧
      (ChannelContext.new 30 true).m_channelalias_list[p]? = some a ∧
      a.m_name = "ZBack".toList ∧ a.m_layer = "depth".toList ∧ a.m_channel = Chan_ZBack ∧
      a.m_io_name = "ZBack".toList ∧ a.m_io_type = .FLOAT ∧
      a.m_position = toUInt32 (getLayerPositionFromKind 30 Chan_ZBack) ∧
      (Chan_ZBack ≠ Chan_Y → (a.m_position : Int) = getLayerPositionFromKind 30 Chan_ZBack) :=
  ⟨by decide,
    (construction 30).1 (stdRow "depth" "ZBack" "ZB,ZBACK" "ZBack" .FLOAT Chan_ZBack)
      (by decide) (by decide)⟩

/-- Witness of C12 at the threshold 30. -/
theorem getLayerPositionFromKind_groups_witness :
    Chan_CutoutZ < 30 ∧
    getLayerPositionFromKind 30 Chan_A = 3 ∧ getLayerPositionFromKind 30 Chan_AB = 2 ∧
    getLayerPositionFromKind 30 Chan_SpBits2 = 2 ∧ getLayerPositionFromKind 30 Chan_UvQ = 3 ∧
    getLayerPositionFromKind 30 Chan_ZBack = 1 :=
  ⟨by decide, (getLayerPositionFromKind_groups 30 (by decide)).2.2.2.2.1.2.2.2,
    (getLayerPositionFromKind_groups 30 (by decide)).2.2.2.2.2.1.2.2,
    (getLayerPositionFromKind_groups 30 (by decide)).2.2.2.2.2.2.1.2.2,
    (getLayerPositionFromKind_groups 30 (by decide)).2.2.2.2.2.2.2.1.2.2.2,
    (getLayerPositionFromKind_groups 30 (by decide)).2.2.2.2.2.2.2.2.2.2⟩

/-- Witness of the evaluation for C13 at the threshold 30. -/
theorem getLayerPositionFromKind_yuv_witness :
    Chan_CutoutZ < 30 ∧
    getLayerPositionFromKind 30 Chan_Y = -1 ∧
    getLayerPositionFromKind 30 Chan_RY = 0 ∧
    getLayerPositionFromKind 30 Chan_BY = 1 ∧
    getLayerPositionFromKind 30 Chan_Y < 0 ∧
    getLayerPositionFromKind 30 Chan_Y ≠ (Chan_Y : Int) - Chan_Y :=
  ⟨by decide, getLayerPositionFromKind_yuv 30 (by decide)⟩

/-- Witness of C14 at the threshold 30: the ids 23, 27 and 31. -/
theorem getLayerPositionFromKind_zero_witness :
    getLayerPositionFromKind 30 Chan_Invalid = 0 ∧ getLayerPositionFromKind 30 Chan_ID2 = 0 ∧
    getLayerPositionFromKind 30 Chan_CutoutAG = 0 ∧ getLayerPositionFromKind 30 31 = 0 :=
  ⟨(getLayerPositionFromKind_zero 30).1,
    (getLayerPositionFromKind_zero 30).2.1 Chan_ID2 (by decide) (by decide),
    (getLayerPositionFromKind_zero 30).2.2.1 Chan_CutoutAG (by decide) (by decide),
    (getLayerPositionFromKind_zero 30).2.2.2 31 (by decide)⟩

/-- Counterexample to C15: the whitespace-free name `.foo` contains a dot, its
last dot is its first character, and `splitName` yields the empty layer and
the whole name `.foo` as channel, not the text `foo` after the dot. -/
theorem splitName_leading_dot_counterexample :
    (∀ ch ∈ ".foo".toList, ch ∉ whitespace) ∧ dot ∈ ".foo".toList ∧
    ".foo".toList = [] ++ [dot] ++ "foo".toList ∧ dot ∉ "foo".toList ∧
    splitName ".foo".toList = ([], ".foo".toList) ∧
    (splitName ".foo".toList).2 ≠ "foo".toList := by
  decide

/-- Witness of C15 (amended): the names `a.b.c`, `.foo` and `foo`. -/
theorem splitName_last_dot_witness :
    splitName ("a.b".toList ++ [dot] ++ "c".toList) = ("a.b".toList, "c".toList) ∧
    splitName ([dot] ++ "foo".toList) = ([], [dot] ++ "foo".toList) ∧
    splitName "foo".toList = ([], "foo".toList) :=
  ⟨splitName_last_dot.1 "a.b".toList "c".toList (by decide) (by decide) (by decide),
    splitName_last_dot.2.1 "foo".toList (by decide) (by decide),
    splitName_last_dot.2.2 "foo".toList (by decide)⟩

set_option maxRecDepth 1000000 in
/-- Witness of C16: `foo.Green` on a fresh standard context. -/
theorem getChannelAlias_created_standard_witness :
    ((ChannelContext.new 30 true).getChannelAlias 30
        (some "foo.Green".toList)).1.m_channelalias_list
      ≠ (ChannelContext.new 30 true).m_channelalias_list ∧
    stdRow "rgba" "G" "G,GREEN" "G" .HALF Chan_G ∈ g_standard_channel_table ∧
    "GREEN".toList ∈ matchTokens (stdRow "rgba" "G" "G,GREEN" "G" .HALF Chan_G) ∧
    caseVariant (splitName "foo.Green".toList).2 "GREEN".toList ∧
    ∃ a, returnedAlias ((ChannelContext.new 30 true).getChannelAlias 30
          (some "foo.Green".toList)) = some a ∧
      ((ChannelContext.new 30 true).getChannelAlias 30
          (some "foo.Green".toList)).1.m_channelalias_list
        = (ChannelContext.new 30 true).m_channelalias_list ++ [a] ∧
      a.m_name = (splitName "foo.Green".toList).2 ∧ a.m_channel = Chan_G ∧
      a.m_position = toUInt32 (getLayerPositionFromKind 30 Chan_G) ∧
      (Chan_G ≠ Chan_Y → (a.m_position : Int) = getLayerPositionFromKind 30 Chan_G) ∧
      a.m_io_name = "G".toList ∧ a.m_io_type = .HALF :=
  ⟨by decide, by decide, by decide, by decide,
    (getChannelAlias_created_standard 30).1 (ChannelContext.new 30 true) "foo.Green".toList
      (by decide) (stdRow "rgba" "G" "G,GREEN" "G" .HALF Chan_G) (by decide)
      "GREEN".toList (by decide) (by decide)⟩

/-- Witness of C17: `foo.R` followed by `bar.R` on a fresh context without
standard channels. -/
theorem getChannelAlias_keeps_caller_layer_witness :
    Reachable 30 false (ChannelContext.new 30 false) ∧
    ∃ p1 p2 a1 a2,
      ((ChannelContext.new 30 false).getChannelAlias 30 (some "foo.R".toList)).2 = some p1 ∧
      (((ChannelContext.new 30 false).getChannelAlias 30 (some "foo.R".toList)).1.getChannelAlias
        30 (some "bar.R".toList)).2 = some p2 ∧
      p1 ≠ p2 ∧
      (((ChannelContext.new 30 false).getChannelAlias 30 (some "foo.R".toList)).1.getChannelAlias
        30 (some "bar.R".toList)).1.m_channelalias_list[p1]? = some a1 ∧
      (((ChannelContext.new 30 false).getChannelAlias 30 (some "foo.R".toList)).1.getChannelAlias
        30 (some "bar.R".toList)).1.m_channelalias_list[p2]? = some a2 ∧
      a1.m_layer = "foo".toList ∧ a2.m_layer = "bar".toList ∧
      a1.m_channel = Chan_R ∧ a2.m_channel = Chan_R :=
  ⟨Reachable.init,
    (getChannelAlias_keeps_caller_layer 30).2 false _ Reachable.init⟩

/-- Witness of C18 on a fresh context without standard channels. -/
theorem getChannelAlias_spmask_legacy_witness :
    Reachable 30 false (ChannelContext.new 30 false) ∧
    (∃ a, returnedAlias ((ChannelContext.new 30 false).getChannelAlias 30
        (some "spmask.3".toList)) = some a ∧ a.m_channel = Chan_DeepFlags) ∧
    (∃ a, returnedAlias ((ChannelContext.new 30 false).getChannelAlias 30
        (some "spmask.flags".toList)) = some a ∧ a.m_channel = Chan_DeepFlags) :=
  ⟨Reachable.init,
    (getChannelAlias_spmask_legacy 30 false _ Reachable.init).1,
    (getChannelAlias_spmask_legacy 30 false _ Reachable.init).2.1⟩

/-- Witness of C19: the aliases of `foo.G` and `bar.G` share the id `Chan_G`. -/
theorem same_id_same_position_type_witness :
    Reachable 30 false
      (((ChannelContext.new 30 false).getChannelAlias 30 (some "foo.G".toList)).1.getChannelAlias
        30 (some "bar.G".toList)).1 ∧
    (⟨"G".toList, "foo".toList, Chan_G, 1, "G".toList, .HALF⟩ : ChannelAlias) ∈
      (((ChannelContext.new 30 false).getChannelAlias 30 (some "foo.G".toList)).1.getChannelAlias
        30 (some "bar.G".toList)).1.m_channelalias_list ∧
    (⟨"G".toList, "bar".toList, Chan_G, 1, "G".toList, .HALF⟩ : ChannelAlias) ∈
      (((ChannelContext.new 30 false).getChannelAlias 30 (some "foo.G".toList)).1.getChannelAlias
        30 (some "bar.G".toList)).1.m_channelalias_list ∧
    (⟨"G".toList, "foo".toList, Chan_G, 1, "G".toList, .HALF⟩ : ChannelAlias).m_position
      = (⟨"G".toList, "bar".toList, Chan_G, 1, "G".toList, .HALF⟩ : ChannelAlias).m_position ∧
    (Chan_CutoutZ < 30 →
      (⟨"G".toList, "foo".toList, Chan_G, 1, "G".toList, .HALF⟩ : ChannelAlias).m_io_type
        = (⟨"G".toList, "bar".toList, Chan_G, 1, "G".toList, .HALF⟩ : ChannelAlias).m_io_type) :=
  ⟨Reachable.step (some "bar.G".toList) (Reachable.step (some "foo.G".toList) Reachable.init),
    by decide, by decide,
    same_id_same_position_type 30 false
      (((ChannelContext.new 30 false).getChannelAlias 30 (some "foo.G".toList)).1.getChannelAlias
        30 (some "bar.G".toList)).1
      (Reachable.step (some "bar.G".toList) (Reachable.step (some "foo.G".toList) Reachable.init))
      ⟨"G".toList, "foo".toList, Chan_G, 1, "G".toList, .HALF⟩
      ⟨"G".toList, "bar".toList, Chan_G, 1, "G".toList, .HALF⟩ (by decide) (by decide) rfl⟩

/-- Witness of C20: `bar` after `foo` extends the layer `other`. -/
theorem getChannelAlias_layer_bookkeeping_witness :
    Reachable 30 false
      ((ChannelContext.new 30 false).getChannelAlias 30 (some "foo".toList)).1 ∧
    (((ChannelContext.new 30 false).getChannelAlias 30 (some "foo".toList)).1.getChannelAlias 30
        (some "bar".toList)).1.m_channelalias_list
      ≠ ((ChannelContext.new 30 false).getChannelAlias 30
          (some "foo".toList)).1.m_channelalias_list ∧
    (((ChannelContext.new 30 false).getChannelAlias 30 (some "foo".toList)).1.getChannelAlias 30
        (some "bar".toList)).1.m_layers
      = [⟨"other".toList, [⟨30, 0⟩, ⟨31, 0⟩]⟩] ∧
    ∀ (i j : Nat) (l1 l2 : Layer),
      (((ChannelContext.new 30 false).getChannelAlias 30 (some "foo".toList)).1.getChannelAlias 30
        (some "bar".toList)).1.m_layers[i]? = some l1 →
      (((ChannelContext.new 30 false).getChannelAlias 30 (some "foo".toList)).1.getChannelAlias 30
        (some "bar".toList)).1.m_layers[j]? = some l2 →
      l1.name = l2.name → i = j :=
  ⟨Reachable.step (some "foo".toList) Reachable.init, by decide, by decide,
    (getChannelAlias_layer_bookkeeping 30 false
      ((ChannelContext.new 30 false).getChannelAlias 30 (some "foo".toList)).1
      (Reachable.step (some "foo".toList) Reachable.init)
      "bar".toList (by decide)).choose_spec.2.2.2.2.2⟩

set_option maxRecDepth 100000 in
theorem table_tokens_upper : ∀ c ∈ g_standard_channel_table, ∀ t ∈ matchTokens c,
    t.map toupper = t := by
  decide

theorem stdMatch_of_upper_token {n : Str} {c : StandardChannel}
    (hc : c ∈ g_standard_channel_table) (ht : n.map toupper ∈ matchTokens c) :
    stdMatch n = some c := by
  have h := table_tokens c hc _ ht
  have hn : n ≠ [] := by
    intro e
    subst e
    exact h.1 rfl
  unfold stdMatch
  rw [if_neg hn, ← table_tokens_upper c hc _ ht]
  exact h.2.1

theorem matchStandardChannel_none (out : MatchOut) :
    matchStandardChannel none out
      = (false, ⟨[], out.std_chan_name, Chan_Invalid, [], out.std_io_type⟩) := rfl

theorem add_fresh_with_last (ctx : ChannelContext) (obj : ChannelAlias) (L : ChannelIdx)
    (h : obj.m_channel ≠ Chan_Invalid) :
    ({ ctx with m_last_assigned := L }.addChannelAlias (.fresh obj)).1
      = { (ctx.addChannelAlias (.fresh obj)).1 with m_last_assigned := L } := by
  rw [add_fresh_eq, add_fresh_eq]
  simp only [storedAlias, if_neg h]

theorem fold_std_with_last (arb : ChannelIdx) (rows : List StandardChannel)
    (hrows : ∀ c ∈ rows, c ∈ g_standard_channel_table) (L : ChannelIdx) :
    ∀ ctx : ChannelContext,
      rows.foldl
        (fun ctx c =>
          if c.layer_name = "invalid".toList then ctx
          else (ctx.addChannelAliasNew c.channel_name c.layer_name c.ordering_index
                  (toUInt32 (getLayerPositionFromKind arb c.ordering_index))
                  c.dflt_io_name c.dflt_io_pixel_type).1) { ctx with m_last_assigned := L }
      = { rows.foldl
        (fun ctx c =>
          if c.layer_name = "invalid".toList then ctx
          else (ctx.addChannelAliasNew c.channel_name c.layer_name c.ordering_index
                  (toUInt32 (getLayerPositionFromKind arb c.ordering_index))
                  c.dflt_io_name c.dflt_io_pixel_type).1) ctx with m_last_assigned := L } := by
  induction rows with
  | nil => intro ctx; rfl
  | cons c rows ih =>
    intro ctx
    have hc := hrows c (List.mem_cons_self _ _)
    simp only [List.foldl_cons]
    by_cases hn : c.layer_name = "invalid".toList
    · rw [if_pos hn, if_pos hn]
      exact ih (fun c h => hrows c (List.mem_cons_of_mem _ h)) ctx
    · rw [if_neg hn, if_neg hn]
      have hv : c.ordering_index ≠ Chan_Invalid := (table_rows c hc hn).2.1
      unfold addChannelAliasNew
      rw [add_fresh_with_last _ _ _ hv]
      exact ih (fun c h => hrows c (List.mem_cons_of_mem _ h)) _

theorem fold_std_threshold (arb : ChannelIdx) (h29 : Chan_CutoutZ < arb)
    (rows : List StandardChannel) (hrows : ∀ c ∈ rows, c ∈ g_standard_channel_table) :
    ∀ ctx : ChannelContext,
      rows.foldl
        (fun ctx c =>
          if c.layer_name = "invalid".toList then ctx
          else (ctx.addChannelAliasNew c.channel_name c.layer_name c.ordering_index
                  (toUInt32 (getLayerPositionFromKind arb c.ordering_index))
                  c.dflt_io_name c.dflt_io_pixel_type).1) ctx
      = rows.foldl
        (fun ctx c =>
          if c.layer_name = "invalid".toList then ctx
          else (ctx.addChannelAliasNew c.channel_name c.layer_name c.ordering_index
                  (toUInt32 (getLayerPositionFromKind 30 c.ordering_index))
                  c.dflt_io_name c.dflt_io_pixel_type).1) ctx := by
  induction rows with
  | nil => intro ctx; rfl
  | cons c rows ih =>
    intro ctx
    have hc := hrows c (List.mem_cons_self _ _)
    simp only [List.foldl_cons]
    rw [glp_std arb c.ordering_index h29 (table_id_le c hc)]
    exact ih (fun c h => hrows c (List.mem_cons_of_mem _ h)) _

/-- The fresh standard context for a threshold above the standard range is the
one for the threshold 30, up to the start value of the counter. -/
theorem new_true_threshold (arb : ChannelIdx) (h29 : Chan_CutoutZ < arb) :
    ChannelContext.new arb true
      = { ChannelContext.new 30 true with m_last_assigned := arb - 1 } := by
  unfold ChannelContext.new addStandardChannels
  simp only [if_true]
  rw [fold_std_threshold arb h29 _ (fun c h => h)]
  exact fold_std_with_last 30 _ (fun c h => h) (arb - 1) ⟨[], [], [], [], [], 30 - 1⟩

theorem new_true_find (arb : ChannelIdx) (k : Str) :
    (ChannelContext.new arb true).findChannelAlias k
      = (ChannelContext.new 30 true).findChannelAlias k := by
  unfold findChannelAlias
  rw [(same_new arb 30).name]

theorem new_true_list (arb : ChannelIdx) (h29 : Chan_CutoutZ < arb) :
    (ChannelContext.new arb true).m_channelalias_list
      = (ChannelContext.new 30 true).m_channelalias_list := by
  rw [new_true_threshold arb h29]

set_option maxRecDepth 1000000 in
theorem new_layers (arb : ChannelIdx) (h29 : Chan_CutoutZ < arb) (b : Bool) :
    (ChannelContext.new arb b).m_layers = [] ∧
    (ChannelContext.new arb b).m_layer_name_map = [] := by
  cases b with
  | false => exact ⟨rfl, rfl⟩
  | true =>
    rw [new_true_threshold arb h29]
    have h : (ChannelContext.new 30 true).m_layers = [] ∧
        (ChannelContext.new 30 true).m_layer_name_map = [] := by decide
    exact h

/-- A key that the fresh standard context of threshold 30 resolves is resolved
the same way, by a lookup that changes nothing, for every threshold above the
standard range. -/
theorem std_lookup (arb : ChannelIdx) (h29 : Chan_CutoutZ < arb) (k : Str) (p : Nat)
    (a : ChannelAlias)
    (hf : (ChannelContext.new 30 true).findChannelAlias k = some p)
    (ha : (ChannelContext.new 30 true).m_channelalias_list[p]? = some a) :
    (ChannelContext.new arb true).getChannelAlias arb (some k)
      = (ChannelContext.new arb true, some p) ∧
    returnedAlias ((ChannelContext.new arb true).getChannelAlias arb (some k)) = some a := by
  have h : (ChannelContext.new arb true).getChannelAlias arb (some k)
      = (ChannelContext.new arb true, some p) :=
    getChannelAlias_of_find arb _ k p (by rw [new_true_find]; exact hf)
  refine ⟨h, ?_⟩
  rw [h, returnedAlias_mk, new_true_list arb h29]
  exact ha

theorem created_result (arb : ChannelIdx) (ctx : ChannelContext) (n : Str) (hn : n ≠ [])
    (h1 : ctx.findChannelAlias n = none)
    (h2 : ctx.findChannelAlias (resolvedAlias arb n).fullName = none) :
    ctx.getChannelAlias arb (some n)
      = (createdCtx arb ctx n, some ctx.m_channelalias_list.length) := by
  rcases getChannelAlias_cases arb ctx n hn with ⟨p, hp | ⟨_, hp⟩, _⟩ | ⟨_, _, h⟩
  · rw [h1] at hp; cases hp
  · rw [h2] at hp; cases hp
  · exact h

theorem createdCtx_layers_new (arb : ChannelIdx) (ctx : ChannelContext) (n : Str)
    (h : StdMap.find ctx.m_layer_name_map (resolvedAlias arb n).m_layer = none) :
    (createdCtx arb ctx n).m_layers
      = ctx.m_layers ++ [⟨(resolvedAlias arb n).m_layer,
          [⟨(storedAlias ctx (resolvedAlias arb n)).m_channel,
            (storedAlias ctx (resolvedAlias arb n)).m_position⟩]⟩] := by
  unfold createdCtx
  rw [(addToLayer_none _ _ _ (by rw [add_fresh_layer_map]; exact h)).1, add_fresh_layers]

set_option maxRecDepth 1000000 in
/-- C22. On a freshly constructed context with standard channels, for every
threshold above the standard range, `getChannelAlias` of `R`, `G`, `B` and
`A` returns the aliases of the four rgba rows: ids `Chan_R`, `Chan_G`,
`Chan_B`, `Chan_A`, layer `rgba`, layer positions 0, 1, 2, 3 and IO pixel type
half; each call is a lookup that leaves the context as it was, so the four
calls give these results in any sequence. -/
theorem getChannelAlias_rgba (arb : ChannelIdx) (h29 : Chan_CutoutZ < arb) :
    (returnedAlias ((ChannelContext.new arb true).getChannelAlias arb (some "R".toList))
        = some ⟨"R".toList, "rgba".toList, Chan_R, 0, "R".toList, .HALF⟩ ∧
      ((ChannelContext.new arb true).getChannelAlias arb (some "R".toList)).1
        = ChannelContext.new arb true) ∧
    (returnedAlias ((ChannelContext.new arb true).getChannelAlias arb (some "G".toList))
        = some ⟨"G".toList, "rgba".toList, Chan_G, 1, "G".toList, .HALF⟩ ∧
      ((ChannelContext.new arb true).getChannelAlias arb (some "G".toList)).1
        = ChannelContext.new arb true) ∧
    (returnedAlias ((ChannelContext.new arb true).getChannelAlias arb (some "B".toList))
        = some ⟨"B".toList, "rgba".toList, Chan_B, 2, "B".toList, .HALF⟩ ∧
      ((ChannelContext.new arb true).getChannelAlias arb (some "B".toList)).1
        = ChannelContext.new arb true) ∧
    (returnedAlias ((ChannelContext.new arb true).getChannelAlias arb (some "A".toList))
        = some ⟨"A".toList, "rgba".toList, Chan_A, 3, "A".toList, .HALF⟩ ∧
      ((ChannelContext.new arb true).getChannelAlias arb (some "A".toList)).1
        = ChannelContext.new arb true) := by
  have key : ∀ (k : Str) (p : Nat) (a : ChannelAlias),
      (ChannelContext.new 30 true).findChannelAlias k = some p →
      (ChannelContext.new 30 true).m_channelalias_list[p]? = some a →
      returnedAlias ((ChannelContext.new arb true).getChannelAlias arb (some k)) = some a ∧
      ((ChannelContext.new arb true).getChannelAlias arb (some k)).1
        = ChannelContext.new arb true := by
    intro k p a hf ha
    have h := std_lookup arb h29 k p a hf ha
    exact ⟨h.2, by rw [h.1]⟩
  exact ⟨key _ 0 _ (by decide) (by decide), key _ 1 _ (by decide) (by decide),
    key _ 2 _ (by decide) (by decide), key _ 3 _ (by decide) (by decide)⟩

theorem resolved_myCustomChan (arb : ChannelIdx) :
    resolvedAlias arb "myCustomChan".toList
      = ⟨"myCustomChan".toList, "other".toList, Chan_Invalid, 0, [], .HALF⟩ := by
  rfl

set_option maxRecDepth 1000000 in
theorem new_find_custom (arb : ChannelIdx) (b : Bool) :
    (ChannelContext.new arb b).findChannelAlias "myCustomChan".toList = none ∧
    (ChannelContext.new arb b).findChannelAlias "other.myCustomChan".toList = none := by
  cases b with
  | false => exact ⟨rfl, rfl⟩
  | true =>
    rw [new_true_find arb "myCustomChan".toList, new_true_find arb "other.myCustomChan".toList]
    decide

/-- C23. On a freshly constructed context, with or without standard channels
and for every threshold above the standard range, `getChannelAlias` of
`myCustomChan` creates the layer `other` (the layer list, empty before,
holds that one layer with the new channel) and returns a new alias with
layer `other`, full name `other.myCustomChan`, channel id exactly
`Chan_ArbitraryStart`, an empty default IO name, and a file IO name equal to
its full name. -/
theorem getChannelAlias_custom (arb : ChannelIdx) (h29 : Chan_CutoutZ < arb) (b : Bool) :
    returnedAlias ((ChannelContext.new arb b).getChannelAlias arb (some "myCustomChan".toList))
      = some ⟨"myCustomChan".toList, "other".toList, arb, 0, [], .HALF⟩ ∧
    (ChannelAlias.mk "myCustomChan".toList "other".toList arb 0 [] .HALF).fullName
      = "other.myCustomChan".toList ∧
    (ChannelAlias.mk "myCustomChan".toList "other".toList arb 0 [] .HALF).fileIOName
      = (ChannelAlias.mk "myCustomChan".toList "other".toList arb 0 [] .HALF).fullName ∧
    (ChannelContext.new arb b).m_layers = [] ∧
    ((ChannelContext.new arb b).getChannelAlias arb (some "myCustomChan".toList)).1.m_layers
      = [⟨"other".toList, [⟨arb, 0⟩]⟩] ∧
    ((ChannelContext.new arb b).getChannelAlias arb
        (some "myCustomChan".toList)).1.m_channelalias_list
      = (ChannelContext.new arb b).m_channelalias_list
        ++ [⟨"myCustomChan".toList, "other".toList, arb, 0, [], .HALF⟩] := by
  have hf := new_find_custom arb b
  have hr := created_result arb (ChannelContext.new arb b) "myCustomChan".toList (by decide)
    hf.1 (by rw [resolved_myCustomChan]; exact hf.2)
  have harb : arb - 1 + 1 = arb := by
    simp only [ChannelIdx, Chan_CutoutZ] at *
    omega
  have hst : storedAlias (ChannelContext.new arb b) (resolvedAlias arb "myCustomChan".toList)
      = ⟨"myCustomChan".toList, "other".toList, arb, 0, [], .HALF⟩ := by
    rw [resolved_myCustomChan]
    unfold storedAlias
    rw [if_pos rfl, new_last, harb]
  have hl := new_layers arb h29 b
  refine ⟨?_, rfl, rfl, hl.1, ?_, ?_⟩
  · rw [hr, createdCtx_returned, hst]
  · rw [hr, createdCtx_layers_new arb _ _ (by rw [hl.2]; rfl), hst, hl.1,
      resolved_myCustomChan]
    rfl
  · rw [hr, createdCtx_list, hst]

theorem new_false_find (arb : ChannelIdx) (k : Str) :
    (ChannelContext.new arb false).findChannelAlias k = none := by
  unfold findChannelAlias
  split <;> rfl

theorem createdCtx_find (arb : ChannelIdx) (ctx : ChannelContext) (n k : Str) :
    (createdCtx arb ctx n).findChannelAlias k
      = match ctx.findChannelAlias k with
        | some i => some i
        | none =>
          if k ≠ [] ∧ (k = (resolvedAlias arb n).fullName ∨ k = (resolvedAlias arb n).m_io_name) then
            some ctx.m_channelalias_list.length
          else none :=
  created_find arb ctx n k

theorem resolved_Z (arb : ChannelIdx) (h29 : Chan_CutoutZ < arb) :
    resolvedAlias arb "Z".toList
      = ⟨"Z".toList, "depth".toList, Chan_Z, 0, "Z".toList, .FLOAT⟩ := by
  have hm : stdMatch (splitName "Z".toList).2
      = some (stdRow "depth" "Z" "Z" "Z" .FLOAT Chan_Z) := by decide
  rw [resolved_of_match arb _ _ hm]
  have hp : toUInt32 (getLayerPositionFromKind arb Chan_Z) = 0 := by
    rw [glp_std arb Chan_Z h29 (by decide)]; decide
  have hs : splitName "Z".toList = ([], "Z".toList) := by decide
  simp only [hs, stdRow, hp, if_true]

theorem resolved_ZBack (arb : ChannelIdx) (h29 : Chan_CutoutZ < arb) :
    resolvedAlias arb "ZBack".toList
      = ⟨"ZBack".toList, "depth".toList, Chan_ZBack, 1, "ZBack".toList, .FLOAT⟩ := by
  have hm : stdMatch (splitName "ZBack".toList).2
      = some (stdRow "depth" "ZBack" "ZB,ZBACK" "ZBack" .FLOAT Chan_ZBack) := by decide
  rw [resolved_of_match arb _ _ hm]
  have hp : toUInt32 (getLayerPositionFromKind arb Chan_ZBack) = 1 := by
    rw [glp_std arb Chan_ZBack h29 (by decide)]; decide
  have hs : splitName "ZBack".toList = ([], "ZBack".toList) := by decide
  simp only [hs, stdRow, hp, if_true]

set_option maxRecDepth 1000000 in
/-- C24. On a freshly constructed context, with or without standard channels
and for every threshold above the standard range, `getChannelAlias` of `Z`
followed by `getChannelAlias` of `ZBack` returns two aliases with the distinct
ids `Chan_Z` and `Chan_ZBack`, both of layer `depth`, at the layer positions
0 and 1. -/
theorem getChannelAlias_depth (arb : ChannelIdx) (h29 : Chan_CutoutZ < arb) (b : Bool) :
    returnedAlias ((ChannelContext.new arb b).getChannelAlias arb (some "Z".toList))
      = some ⟨"Z".toList, "depth".toList, Chan_Z, 0, "Z".toList, .FLOAT⟩ ∧
    returnedAlias
        (((ChannelContext.new arb b).getChannelAlias arb (some "Z".toList)).1.getChannelAlias arb
          (some "ZBack".toList))
      = some ⟨"ZBack".toList, "depth".toList, Chan_ZBack, 1, "ZBack".toList, .FLOAT⟩ ∧
    Chan_Z ≠ Chan_ZBack ∧
    ((ChannelContext.new arb b).getChannelAlias arb (some "Z".toList)).2
      ≠ (((ChannelContext.new arb b).getChannelAlias arb (some "Z".toList)).1.getChannelAlias arb
          (some "ZBack".toList)).2 := by
  cases b with
  | true =>
    have h1 := std_lookup arb h29 "Z".toList 10
      ⟨"Z".toList, "depth".toList, Chan_Z, 0, "Z".toList, .FLOAT⟩ (by decide) (by decide)
    have h2 := std_lookup arb h29 "ZBack".toList 12
      ⟨"ZBack".toList, "depth".toList, Chan_ZBack, 1, "ZBack".toList, .FLOAT⟩
      (by decide) (by decide)
    refine ⟨h1.2, ?_, by decide, ?_⟩
    · rw [h1.1]; exact h2.2
    · rw [h1.1, h2.1]; simp
  | false =>
    have hZ := resolved_Z arb h29
    have hB := resolved_ZBack arb h29
    have r1 := created_result arb (ChannelContext.new arb false) "Z".toList (by decide)
      (new_false_find arb _) (new_false_find arb _)
    have f1 : (createdCtx arb (ChannelContext.new arb false) "Z".toList).findChannelAlias
        "ZBack".toList = none := by
      rw [createdCtx_find, new_false_find, hZ]
      exact if_neg (by decide)
    have f2 : (createdCtx arb (ChannelContext.new arb false) "Z".toList).findChannelAlias
        (resolvedAlias arb "ZBack".toList).fullName = none := by
      rw [createdCtx_find, new_false_find, hZ, hB]
      exact if_neg (by decide)
    have r2 := created_result arb (createdCtx arb (ChannelContext.new arb false) "Z".toList)
      "ZBack".toList (by decide) f1 f2
    refine ⟨?_, ?_, by decide, ?_⟩
    · rw [r1, createdCtx_returned, hZ, storedAlias_of_valid _ _ (by decide)]
    · rw [r1, r2, createdCtx_returned, hB, storedAlias_of_valid _ _ (by decide)]
    · rw [r1, r2, createdCtx_list]
      simp

theorem insert_mem (s : ChannelIdxSet) (c x : ChannelIdx) :
    x ∈ ChannelIdxSet.insert s c ↔ x = c ∨ x ∈ s := by
  induction s with
  | nil => simp [ChannelIdxSet.insert]
  | cons y ys ih =>
    unfold ChannelIdxSet.insert
    by_cases h1 : c < y
    · rw [if_pos h1]; simp
    · rw [if_neg h1]
      by_cases h2 : c = y
      · rw [if_pos h2]; subst h2; simp
      · rw [if_neg h2, List.mem_cons, ih, List.mem_cons]
        constructor
        · rintro (h | h | h)
          · exact Or.inr (Or.inl h)
          · exact Or.inl h
          · exact Or.inr (Or.inr h)
        · rintro (h | h | h)
          · exact Or.inr (Or.inl h)
          · exact Or.inl h
          · exact Or.inr (Or.inr h)

theorem insert_ascending (s : ChannelIdxSet) (c : ChannelIdx)
    (hs : s.Pairwise (fun a b => a < b)) :
    (ChannelIdxSet.insert s c).Pairwise (fun a b => a < b) := by
  induction s with
  | nil => simp [ChannelIdxSet.insert]
  | cons y ys ih =>
    have hy := List.pairwise_cons.mp hs
    unfold ChannelIdxSet.insert
    by_cases h1 : c < y
    · rw [if_pos h1]
      refine List.pairwise_cons.mpr ⟨?_, hs⟩
      intro a ha
      rcases List.mem_cons.mp ha with h | h
      · rw [h]; exact h1
      · exact Nat.lt_trans h1 (hy.1 a h)
    · rw [if_neg h1]
      by_cases h2 : c = y
      · rw [if_pos h2]; exact hs
      · rw [if_neg h2]
        refine List.pairwise_cons.mpr ⟨?_, ih hy.2⟩
        intro a ha
        rcases (insert_mem ys c a).mp ha with h | h
        · rw [h]
          exact Nat.lt_of_le_of_ne (Nat.le_of_not_lt h1) (fun e => h2 e.symm)
        · exact hy.1 a h

theorem foldl_insert_spec (ids : List ChannelIdx) :
    ∀ s : ChannelIdxSet, s.Pairwise (fun a b => a < b) →
      (ids.foldl ChannelIdxSet.insert s).Pairwise (fun a b => a < b) ∧
      ∀ x, x ∈ ids.foldl ChannelIdxSet.insert s ↔ x ∈ s ∨ x ∈ ids := by
  induction ids with
  | nil => intro s hs; exact ⟨hs, fun x => by simp⟩
  | cons c cs ih =>
    intro s hs
    obtain ⟨h1, h2⟩ := ih (ChannelIdxSet.insert s c) (insert_ascending s c hs)
    refine ⟨h1, fun x => ?_⟩
    rw [List.foldl_cons, h2, insert_mem, List.mem_cons]
    constructor
    · rintro ((h | h) | h)
      · exact Or.inr (Or.inl h)
      · exact Or.inl h
      · exact Or.inr (Or.inr h)
    · rintro (h | h | h)
      · exact Or.inl (Or.inr h)
      · exact Or.inl (Or.inl h)
      · exact Or.inr h

/-- The mask of the set built from a list of ids holds exactly these ids, in
strictly ascending order. -/
theorem ofList_spec (ids : List ChannelIdx) :
    (ChannelSet.ofList ids).m_mask.Pairwise (fun a b => a < b) ∧
    ∀ x, x ∈ (ChannelSet.ofList ids).m_mask ↔ x ∈ ids := by
  obtain ⟨h1, h2⟩ := foldl_insert_spec ids [] List.Pairwise.nil
  exact ⟨h1, fun x => by rw [ChannelSet.ofList, h2]; simp⟩

theorem printLoop_pos (ctx : Option ChannelContext) (f : ChannelIdx → Str)
    (hf : ∀ os z, (match ctx with
        | some c => c.printChannelFullName os z
        | none => printChannelIdx os z) = os ++ f z) :
    ∀ (l : List ChannelIdx) (i : Nat) (os : Str), i > 0 →
      ChannelSet.printLoop ctx l i os
        = os ++ (l.map (fun z => [Char.ofNat 44] ++ f z)).flatten := by
  intro l
  induction l with
  | nil => intro i os _; simp [ChannelSet.printLoop]
  | cons z zs ih =>
    intro i os hi
    unfold ChannelSet.printLoop
    simp only [if_pos hi]
    rw [ih (i + 1) _ (Nat.succ_pos i)]
    cases ctx with
    | none =>
      have h := hf (os ++ [Char.ofNat 44]) z
      simp only [] at h
      simp only [h]
      simp [List.append_assoc]
    | some c =>
      have h := hf (os ++ [Char.ofNat 44]) z
      simp only [] at h
      simp only [h]
      simp [List.append_assoc]

theorem printLoop_zero (ctx : Option ChannelContext) (f : ChannelIdx → Str)
    (hf : ∀ os z, (match ctx with
        | some c => c.printChannelFullName os z
        | none => printChannelIdx os z) = os ++ f z)
    (z : ChannelIdx) (zs : List ChannelIdx) (os : Str) :
    ChannelSet.printLoop ctx (z :: zs) 0 os
      = os ++ f z ++ (zs.map (fun z => [Char.ofNat 44] ++ f z)).flatten := by
  unfold ChannelSet.printLoop
  simp only [gt_iff_lt, Nat.lt_irrefl, if_false]
  rw [printLoop_pos ctx f hf zs (0 + 1) _ (Nat.succ_pos 0)]
  cases ctx with
  | none =>
    have h := hf os z
    simp only [] at h
    simp only [h]
  | some c =>
    have h := hf os z
    simp only [] at h
    simp only [h]

theorem intercalate_cons (sep : Str) (f : ChannelIdx → Str) (z : ChannelIdx)
    (zs : List ChannelIdx) :
    List.intercalate sep ((z :: zs).map f) = f z ++ (zs.map (fun z => sep ++ f z)).flatten := by
  induction zs generalizing z with
  | nil => simp [List.intercalate]
  | cons y ys ih =>
    have h := ih y
    simp only [List.intercalate, List.map_cons, List.intersperse_cons_cons,
      List.flatten_cons] at h ⊢
    rw [h]
    simp [List.append_assoc]

/-- The text `ChannelSet::print` writes for a non-empty set: prefix, opening
bracket, the rendered ids separated by commas, closing bracket. -/
theorem print_eq (s : ChannelSet) (hne : s.m_mask ≠ []) (pfx : Option Str) (os : Str)
    (ctx : Option ChannelContext) (f : ChannelIdx → Str)
    (hf : ∀ os z, (match ctx with
        | some c => c.printChannelFullName os z
        | none => printChannelIdx os z) = os ++ f z) :
    s.print pfx os ctx
      = os ++ pfx.getD [] ++ "[".toList
        ++ List.intercalate ",".toList (s.m_mask.map f) ++ "]".toList := by
  obtain ⟨m⟩ := s
  cases m with
  | nil => exact absurd rfl hne
  | cons z zs =>
    unfold ChannelSet.print
    rw [intercalate_cons]
    cases zs with
    | nil =>
      have h0 : ¬ (([z] : List ChannelIdx).length = 0) := by simp
      have h1 : ([z] : List ChannelIdx).length = 1 := by simp
      simp only [if_neg h0, if_pos h1, List.headD_cons]
      cases ctx with
      | none =>
        have h := hf
        simp only [] at h
        simp only [h]
        cases pfx with
        | none => simp
        | some p =>
          by_cases hp0 : p = []
          · subst hp0; simp
          · simp [hp0]
      | some c =>
        have h := hf
        simp only [] at h
        simp only [h]
        cases pfx with
        | none => simp
        | some p =>
          by_cases hp0 : p = []
          · subst hp0; simp
          · simp [hp0]
    | cons y ys =>
      have h0 : ¬ ((z :: y :: ys).length = 0) := by simp
      have h1 : ¬ ((z :: y :: ys).length = 1) := by simp
      simp only [if_neg h0, if_neg h1]
      rw [printLoop_zero ctx f hf]
      cases pfx with
      | none => simp
      | some p =>
        by_cases h : p = []
        · subst h; simp
        · simp [h]

/-- C25. For every non-empty `ChannelSet`, `print` without a context writes
the prefix (when there is one and it is not empty), an opening bracket, the
decimal ids of the mask separated by single commas with no comma after the
last one, and a closing bracket; the mask of a set holds its ids in strictly
ascending order, each once.  The set of the four rgba ids prints as
`[1,2,3,4]`, and printing the same set a second time writes the same text
again. -/
theorem print_numeric :
    (∀ (s : ChannelSet) (pfx : Option Str) (os : Str), s.m_mask ≠ [] →
      s.print pfx os none
        = os ++ pfx.getD [] ++ "[".toList
          ++ List.intercalate ",".toList (s.m_mask.map (Nat.toDigits 10)) ++ "]".toList) ∧
    (∀ ids : List ChannelIdx,
      (ChannelSet.ofList ids).m_mask.Pairwise (fun a b => a < b) ∧
      (∀ x, x ∈ (ChannelSet.ofList ids).m_mask ↔ x ∈ ids) ∧
      (ids ≠ [] → (ChannelSet.ofList ids).m_mask ≠ [])) ∧
    (ChannelSet.ofList [Chan_A, Chan_G, Chan_R, Chan_B]).print none [] none
      = "[1,2,3,4]".toList ∧
    (∀ (s : ChannelSet) (pfx : Option Str) (os : Str), s.m_mask ≠ [] →
      s.print pfx (s.print pfx os none) none
        = os ++ s.print pfx [] none ++ s.print pfx [] none) := by
  have h1 : ∀ (s : ChannelSet) (pfx : Option Str) (os : Str), s.m_mask ≠ [] →
      s.print pfx os none
        = os ++ pfx.getD [] ++ "[".toList
          ++ List.intercalate ",".toList (s.m_mask.map (Nat.toDigits 10)) ++ "]".toList :=
    fun s pfx os hne => print_eq s hne pfx os none (Nat.toDigits 10) (fun _ _ => rfl)
  refine ⟨h1, ?_, by decide, ?_⟩
  · intro ids
    have h := ofList_spec ids
    refine ⟨h.1, h.2, ?_⟩
    intro hne e
    cases ids with
    | nil => exact hne rfl
    | cons c cs =>
      have hc := (h.2 c).mpr (List.mem_cons_self _ _)
      rw [e] at hc
      cases hc
  · intro s pfx os hne
    rw [h1 s pfx _ hne, h1 s pfx os hne, h1 s pfx [] hne]
    simp only [List.nil_append, List.append_assoc]

theorem std_fullName (arb : ChannelIdx) (h29 : Chan_CutoutZ < arb) (c : ChannelIdx)
    (hc : c < Chan_CutoutZ) :
    (ChannelContext.new arb true).getChannelFullName c
      = (ChannelContext.new 30 true).getChannelFullName c := by
  have h1 : c < arb - 1 := by
    simp only [ChannelIdx, Chan_CutoutZ] at *
    omega
  have h2 : c < (ChannelContext.new 30 true).m_last_assigned := by
    rw [new_last]; exact hc
  rw [new_true_threshold arb h29]
  simp only [getChannelFullName, deref, h1, h2, if_true]

theorem std_name (arb : ChannelIdx) (h29 : Chan_CutoutZ < arb) (c : ChannelIdx)
    (hc : c < Chan_CutoutZ) :
    (ChannelContext.new arb true).getChannelName c
      = (ChannelContext.new 30 true).getChannelName c := by
  have h1 : c < arb - 1 := by
    simp only [ChannelIdx, Chan_CutoutZ] at *
    omega
  have h2 : c < (ChannelContext.new 30 true).m_last_assigned := by
    rw [new_last]; exact hc
  rw [new_true_threshold arb h29]
  simp only [getChannelName, deref, h1, h2, if_true]

set_option maxRecDepth 1000000 in
/-- The method `getChannelFullName` on a freshly constructed context with
standard channels gives the four rgba ids their `layer.name` form. -/
theorem getChannelFullName_rgba (arb : ChannelIdx) (h29 : Chan_CutoutZ < arb) :
    (ChannelContext.new arb true).getChannelFullName Chan_R = "rgba.R".toList ∧
    (ChannelContext.new arb true).getChannelFullName Chan_G = "rgba.G".toList ∧
    (ChannelContext.new arb true).getChannelFullName Chan_B = "rgba.B".toList ∧
    (ChannelContext.new arb true).getChannelFullName Chan_A = "rgba.A".toList := by
  rw [std_fullName arb h29 Chan_R (by decide), std_fullName arb h29 Chan_G (by decide),
    std_fullName arb h29 Chan_B (by decide), std_fullName arb h29 Chan_A (by decide)]
  decide

set_option maxRecDepth 1000000 in
/-- C26. For every threshold above the standard range, every prefix and every
stream, the `ChannelSet` holding exactly the four rgba ids (`Chan_R`,
`Chan_G`, `Chan_B`, `Chan_A`), printed by `ChannelSet::print` with a freshly
constructed context with standard channels, renders as `[R,G,B,A]`, after the
prefix; with no prefix on an empty stream the text is exactly `[R,G,B,A]`. -/
theorem print_rgba_names (arb : ChannelIdx) (h29 : Chan_CutoutZ < arb) :
    (∀ x, x ∈ (ChannelSet.ofList [Chan_R, Chan_G, Chan_B, Chan_A]).m_mask ↔
      x = Chan_R ∨ x = Chan_G ∨ x = Chan_B ∨ x = Chan_A) ∧
    (∀ (pfx : Option Str) (os : Str),
      (ChannelSet.ofList [Chan_R, Chan_G, Chan_B, Chan_A]).print pfx os
          (some (ChannelContext.new arb true))
        = os ++ pfx.getD [] ++ "[R,G,B,A]".toList) ∧
    (ChannelSet.ofList [Chan_R, Chan_G, Chan_B, Chan_A]).print none []
        (some (ChannelContext.new arb true))
      = "[R,G,B,A]".toList := by
  have hm : (ChannelSet.ofList [Chan_R, Chan_G, Chan_B, Chan_A]).m_mask
      = [Chan_R, Chan_G, Chan_B, Chan_A] := by decide
  have hp : ∀ (pfx : Option Str) (os : Str),
      (ChannelSet.ofList [Chan_R, Chan_G, Chan_B, Chan_A]).print pfx os
          (some (ChannelContext.new arb true))
        = os ++ pfx.getD [] ++ "[R,G,B,A]".toList := by
    intro pfx os
    rw [print_eq _ (by rw [hm]; decide) pfx os (some (ChannelContext.new arb true))
      (ChannelContext.new arb true).getChannelName (fun _ _ => rfl), hm]
    simp only [List.map_cons, List.map_nil]
    rw [std_name arb h29 Chan_R (by decide), std_name arb h29 Chan_G (by decide),
      std_name arb h29 Chan_B (by decide), std_name arb h29 Chan_A (by decide)]
    have hR : (ChannelContext.new 30 true).getChannelName Chan_R = "R".toList := by
      decide
    have hG : (ChannelContext.new 30 true).getChannelName Chan_G = "G".toList := by
      decide
    have hB : (ChannelContext.new 30 true).getChannelName Chan_B = "B".toList := by
      decide
    have hA : (ChannelContext.new 30 true).getChannelName Chan_A = "A".toList := by
      decide
    rw [hR, hG, hB, hA, List.append_assoc (os ++ pfx.getD []),
      List.append_assoc (os ++ pfx.getD [])]
    have ht : "[".toList ++ List.intercalate ",".toList
        ["R".toList, "G".toList, "B".toList, "A".toList] ++ "]".toList
        = "[R,G,B,A]".toList := by decide
    rw [ht]
  refine ⟨?_, hp, ?_⟩
  · intro x
    rw [hm]
    simp only [List.mem_cons, List.mem_nil_iff, or_false]
  · rw [hp none []]
    rfl

/-- The ways a call of `getChannelAlias` ends: with a null pointer and the
context unchanged, with a registered pointer from one of the two lookups and
the context unchanged, or with the pointer to a newly appended alias. -/
theorem getChannelAlias_outcomes (arb : ChannelIdx) (ctx : ChannelContext)
    (name : Option Str) :
    ((name = none ∨ name = some []) ∧ ctx.getChannelAlias arb name = (ctx, none)) ∨
    (∃ n p, name = some n ∧ n ≠ [] ∧
      (ctx.findChannelAlias n = some p ∨
        (ctx.findChannelAlias n = none ∧
          ctx.findChannelAlias (resolvedAlias arb n).fullName = some p)) ∧
      ctx.getChannelAlias arb name = (ctx, some p)) ∨
    (∃ n, name = some n ∧ n ≠ [] ∧ ctx.findChannelAlias n = none ∧
      ctx.findChannelAlias (resolvedAlias arb n).fullName = none ∧
      ctx.getChannelAlias arb name
        = (createdCtx arb ctx n, some ctx.m_channelalias_list.length)) := by
  cases name with
  | none => exact Or.inl ⟨Or.inl rfl, rfl⟩
  | some n =>
    by_cases hn : n = []
    · subst hn
      exact Or.inl ⟨Or.inr rfl, rfl⟩
    · rcases getChannelAlias_cases arb ctx n hn with ⟨p, hp, h⟩ | ⟨h1, h2, h⟩
      · exact Or.inr (Or.inl ⟨n, p, rfl, hn, hp, h⟩)
      · exact Or.inr (Or.inr ⟨n, rfl, hn, h1, h2, h⟩)

/-- C27. Lookup hits have no effect, on every context: when the exact-name
lookup finds the name, or when it does not and the lookup of the completed
name (layer, dot, channel part) finds an alias, `getChannelAlias` returns
that alias and the context after the call equals the context before it in
all its members; the same holds when the call returns null, which it does
for the null and the empty name; and whenever the returned pointer is one of
an alias that was in the list before the call, the context is unchanged. -/
theorem getChannelAlias_hit_unchanged (arb : ChannelIdx) (ctx : ChannelContext)
    (name : Option Str) :
    (∀ p, ctx.findChannelAliasCStr name = some p →
      ctx.getChannelAlias arb name = (ctx, some p)) ∧
    (∀ n p, name = some n → n ≠ [] → ctx.findChannelAlias n = none →
      ctx.findChannelAlias
        ((resolvedAlias arb n).m_layer ++ [dot] ++ (resolvedAlias arb n).m_name) = some p →
      ctx.getChannelAlias arb name = (ctx, some p)) ∧
    ((name = none ∨ name = some []) → ctx.getChannelAlias arb name = (ctx, none)) ∧
    ((ctx.getChannelAlias arb name).2 = none → (ctx.getChannelAlias arb name).1 = ctx) ∧
    (∀ p, (ctx.getChannelAlias arb name).2 = some p → p < ctx.m_channelalias_list.length →
      (ctx.getChannelAlias arb name).1 = ctx) := by
  have hout := getChannelAlias_outcomes arb ctx name
  refine ⟨?_, ?_, ?_, ?_, ?_⟩
  · intro p hp
    cases name with
    | none => cases hp
    | some n =>
      unfold findChannelAliasCStr at hp
      simp only [] at hp
      split at hp
      · cases hp
      · exact getChannelAlias_of_find arb ctx n p hp
  · intro n p hname hn h1 h2
    rw [← fullName_of_layer (resolvedAlias_layer arb n)] at h2
    rcases hout with ⟨_, h⟩ | ⟨n', p', hn', _, hp, h⟩ | ⟨n', hn', _, _, h2', _⟩
    · rcases ‹name = none ∨ name = some []› with e | e
      · rw [e] at hname; cases hname
      · rw [e] at hname; cases hname; exact absurd rfl hn
    · rw [hname] at hn'; cases hn'
      rcases hp with hp | ⟨_, hp⟩
      · rw [h1] at hp; cases hp
      · rw [h2] at hp; cases hp; exact h
    · rw [hname] at hn'; cases hn'
      rw [h2] at h2'; cases h2'
  · rintro (e | e)
    · rw [e]; rfl
    · rw [e]; rfl
  · intro hnone
    rcases hout with ⟨_, h⟩ | ⟨_, _, _, _, _, h⟩ | ⟨_, _, _, _, _, h⟩
    · rw [h]
    · rw [h]
    · rw [h] at hnone; cases hnone
  · intro p hp hlt
    rcases hout with ⟨_, h⟩ | ⟨_, _, _, _, _, h⟩ | ⟨_, _, _, _, _, h⟩
    · rw [h]
    · rw [h]
    · rw [h] at hp
      cases hp
      exact absurd hlt (Nat.lt_irrefl _)

set_option maxRecDepth 1000000 in
theorem std_base_round_trip : ∀ i < 29,
    ((ChannelContext.new 30 true).m_channelalias_list[i]?).bind
      (fun a => (ChannelContext.new 30 true).findChannelAlias a.fullName) = some i := by
  decide

theorem fullNameInv_new (arb : ChannelIdx) (b : Bool) :
    FullNameInv (ChannelContext.new arb b) := by
  cases b with
  | false =>
    intro i a h
    have : (ChannelContext.new arb false).m_channelalias_list = [] := rfl
    rw [this] at h
    simp at h
  | true =>
    intro i a h
    have hmap := congrArg (fun l => l[i]?) (same_new arb 30).list
    simp only [List.getElem?_map] at hmap
    rw [h] at hmap
    cases h30 : (ChannelContext.new 30 true).m_channelalias_list[i]? with
    | none => rw [h30] at hmap; cases hmap
    | some a30 =>
      rw [h30] at hmap
      have he : erasePosition a = erasePosition a30 := Option.some.inj hmap
      have hi : i < 29 := by
        rcases Nat.lt_or_ge i 29 with hlt | hge
        · exact hlt
        · rw [List.getElem?_eq_none (by rw [std_base_length]; exact hge)] at h30
          cases h30
      have hb := std_base_round_trip i hi
      rw [h30] at hb
      rw [new_true_find, erase_fullName he]
      exact hb

theorem fullNameInv_get (arb : ChannelIdx) (ctx : ChannelContext) (name : Option Str)
    (hF : FullNameInv ctx) : FullNameInv (ctx.getChannelAlias arb name).1 := by
  rcases getChannelAlias_outcomes arb ctx name with
    ⟨_, h⟩ | ⟨_, _, _, _, _, h⟩ | ⟨n, _, _, _, h2, h⟩
  · rw [h]; exact hF
  · rw [h]; exact hF
  · rw [h]
    intro i a ha
    simp only [] at ha ⊢
    rw [createdCtx_list] at ha
    rw [createdCtx_find]
    rcases getElem?_concat_cases ha with hold | ⟨hi, hnew⟩
    · rw [hF i a hold]
    · rw [hnew, storedAlias_fullName, h2, hi]
      exact if_pos ⟨fullName_ne_nil (resolvedAlias_layer arb n), Or.inl rfl⟩

theorem fullNameInv_reachable (arb : ChannelIdx) (b : Bool) (ctx : ChannelContext)
    (h : Reachable arb b ctx) : FullNameInv ctx := by
  induction h with
  | init => exact fullNameInv_new arb b
  | step name _ ih => exact fullNameInv_get arb _ name ih

/-- C28. Full-name round trip: in every context reachable from a newly
constructed `ChannelContext` (with or without standard channels, for every
threshold) by `getChannelAlias` calls, every registered alias has a non-empty
layer, so that its full name is layer, dot, name, and it is found by its own
full name: both string overloads of `findChannelAlias` return the pointer to
this very alias, and so does `getChannelAlias`, which leaves the context
unchanged. -/
theorem fullName_round_trip (arb : ChannelIdx) (b : Bool) (ctx : ChannelContext)
    (hR : Reachable arb b ctx) (i : Nat) (a : ChannelAlias)
    (h : ctx.m_channelalias_list[i]? = some a) :
    a.m_layer ≠ [] ∧ a.fullName = a.m_layer ++ [dot] ++ a.m_name ∧
    ctx.findChannelAlias a.fullName = some i ∧
    ctx.findChannelAliasCStr (some a.fullName) = some i ∧
    ctx.getChannelAlias arb (some a.fullName) = (ctx, some i) ∧
    returnedAlias (ctx.getChannelAlias arb (some a.fullName)) = some a := by
  have hl : a.m_layer ≠ [] := (inv_reachable arb b ctx hR).layer_ne a (List.getElem?_mem h)
  have hf := fullNameInv_reachable arb b ctx hR i a h
  have hg := getChannelAlias_of_find arb ctx a.fullName i hf
  refine ⟨hl, fullName_of_layer hl, hf, ?_, hg, ?_⟩
  · unfold findChannelAliasCStr
    simp only [if_neg (fullName_ne_nil hl)]
    exact hf
  · rw [hg, returnedAlias_mk]
    exact h

/-- Registration of any alias object keeps the index invariant. -/
theorem indexInv_add_fresh (ctx : ChannelContext) (obj : ChannelAlias) (hI : IndexInv ctx) :
    IndexInv (ctx.addChannelAlias (.fresh obj)).1 := by
  have hlast : (ctx.m_channelalias_list ++ [storedAlias ctx obj])[ctx.m_channelalias_list.length]?
      = some (storedAlias ctx obj) := List.getElem?_concat_length _ _
  refine ⟨?_, ?_⟩
  · intro k i hk h
    rw [add_fresh_list]
    rw [add_fresh_name_find ctx obj k hk] at h
    cases h0 : StdMap.find ctx.m_channelalias_name_map k with
    | some i0 =>
      rw [h0] at h
      cases h
      obtain ⟨a, ha, hka⟩ := hI.name_idx k _ hk h0
      exact ⟨a, getElem?_append_of_some _ _ _ _ ha, hka⟩
    | none =>
      rw [h0] at h
      simp only [] at h
      split at h
      · next hkk =>
        cases h
        refine ⟨storedAlias ctx obj, hlast, ?_⟩
        rw [storedAlias_fullName, storedAlias_io]
        exact hkk
      · cases h
  · intro k i h
    rw [add_fresh_list]
    rw [add_fresh_chan_find] at h
    cases h0 : StdMap.find ctx.m_channelalias_channel_map k with
    | some i0 =>
      rw [h0] at h
      cases h
      obtain ⟨a, ha, hka⟩ := hI.chan_idx k _ h0
      exact ⟨a, getElem?_append_of_some _ _ _ _ ha, hka⟩
    | none =>
      rw [h0] at h
      simp only [] at h
      split at h
      · next hkk =>
        cases h
        exact ⟨storedAlias ctx obj, hlast, hkk.symm⟩
      · cases h

theorem indexInv_add (ctx : ChannelContext) (ptr : AliasPtr) (hI : IndexInv ctx) :
    IndexInv (ctx.addChannelAlias ptr).1 := by
  cases ptr with
  | null => exact hI
  | registered i => exact hI
  | fresh obj => exact indexInv_add_fresh ctx obj hI

theorem indexInv_addToLayer (ctx : ChannelContext) (l : Str) (o : ChanOrder)
    (hI : IndexInv ctx) : IndexInv (addToLayer ctx l o) := by
  refine ⟨?_, ?_⟩
  · rw [addToLayer_name_map, addToLayer_list]; exact hI.name_idx
  · rw [addToLayer_chan_map, addToLayer_list]; exact hI.chan_idx

theorem indexInv_get (arb : ChannelIdx) (ctx : ChannelContext) (name : Option Str)
    (hI : IndexInv ctx) : IndexInv (ctx.getChannelAlias arb name).1 := by
  rcases getChannelAlias_outcomes arb ctx name with
    ⟨_, h⟩ | ⟨_, _, _, _, _, h⟩ | ⟨n, _, _, _, _, h⟩
  · rw [h]; exact hI
  · rw [h]; exact hI
  · rw [h]
    exact indexInv_addToLayer _ _ _ (indexInv_add_fresh ctx _ hI)

theorem indexInv_new (arb : ChannelIdx) (b : Bool) : IndexInv (ChannelContext.new arb b) := by
  have hI := inv_new arb b
  refine ⟨?_, hI.chan_idx⟩
  intro k i _ h
  obtain ⟨a, ha, hk⟩ := hI.name_idx k i h
  exact ⟨a, ha, hk.imp id (fun h => h.1)⟩

theorem indexInv_reachableAny (arb : ChannelIdx) (b : Bool) (ctx : ChannelContext)
    (h : ReachableAny arb b ctx) : IndexInv ctx := by
  induction h with
  | init => exact indexInv_new arb b
  | add ptr _ ih => exact indexInv_add _ ptr ih
  | get name _ ih => exact indexInv_get arb _ name ih

/-- C29. Index consistency: in every context reachable from construction (with
or without standard channels, for every threshold) by calls of
`addChannelAlias` and `getChannelAlias`, whenever `findChannelAlias` of an id
returns an alias, that alias is registered and its channel id is the id
asked for, and whenever `findChannelAlias` of a string key (in either string
overload) returns an alias, that alias is registered and the key is its full
name or its stored default IO name. -/
theorem index_consistency (arb : ChannelIdx) (b : Bool) (ctx : ChannelContext)
    (hR : ReachableAny arb b ctx) :
    (∀ (id : ChannelIdx) (p : Nat), ctx.findChannelAliasIdx id = some p →
      ∃ a, ctx.m_channelalias_list[p]? = some a ∧ a.m_channel = id) ∧
    (∀ (key : Str) (p : Nat), ctx.findChannelAlias key = some p →
      ∃ a, ctx.m_channelalias_list[p]? = some a ∧ (key = a.fullName ∨ key = a.m_io_name)) ∧
    (∀ (key : Option Str) (p : Nat), ctx.findChannelAliasCStr key = some p →
      ∃ k a, key = some k ∧ ctx.m_channelalias_list[p]? = some a ∧
        (k = a.fullName ∨ k = a.m_io_name)) := by
  have hI := indexInv_reachableAny arb b ctx hR
  have hname : ∀ (key : Str) (p : Nat), ctx.findChannelAlias key = some p →
      ∃ a, ctx.m_channelalias_list[p]? = some a ∧
        (key = a.fullName ∨ key = a.m_io_name) := by
    intro key p h
    have hk := find_of_findChannelAlias h
    exact hI.name_idx key p hk.1 hk.2
  refine ⟨?_, hname, ?_⟩
  · intro id p h
    unfold findChannelAliasIdx at h
    split at h
    · exact hI.chan_idx id p h
    · cases h
  · intro key p h
    cases key with
    | none => cases h
    | some k =>
      unfold findChannelAliasCStr at h
      simp only [] at h
      split at h
      · cases h
      · obtain ⟨a, ha, hk⟩ := hname k p h
        exact ⟨k, a, rfl, ha, hk⟩

theorem stdmap_find_of_mem {κ ν : Type} [DecidableEq κ] (m : StdMap κ ν) (k : κ) (v : ν)
    (h : (k, v) ∈ m) : StdMap.find m k ≠ none := by
  induction m with
  | nil => simp at h
  | cons p m ih =>
    obtain ⟨k0, v0⟩ := p
    by_cases hk : k = k0
    · simp [StdMap.find, hk]
    · have hm : (k, v) ∈ m := by
        rcases List.mem_cons.mp h with e | e
        · exact absurd (congrArg Prod.fst e) hk
        · exact e
      simpa [StdMap.find, hk] using ih hm

/-- C30. Counter bounds the ids: in every context reachable from a newly
constructed `ChannelContext` (with or without standard channels) by
`getChannelAlias` calls, the threshold lying above the standard range, the
last-assigned counter is at least `Chan_ArbitraryStart - 1`, every
registered alias has a channel id between 1 and the counter, and the id
index holds no entry under the key 0. -/
theorem counter_bounds_ids (arb : ChannelIdx) (h29 : Chan_CutoutZ < arb) (b : Bool)
    (ctx : ChannelContext) (hR : Reachable arb b ctx) :
    arb - 1 ≤ ctx.m_last_assigned ∧
    (∀ a ∈ ctx.m_channelalias_list, 1 ≤ a.m_channel ∧ a.m_channel ≤ ctx.m_last_assigned) ∧
    StdMap.find ctx.m_channelalias_channel_map Chan_Invalid = none ∧
    (∀ p ∈ ctx.m_channelalias_channel_map, p.1 ≠ Chan_Invalid) := by
  have hI := inv_reachable arb b ctx hR
  have hzero : StdMap.find ctx.m_channelalias_channel_map Chan_Invalid = none := by
    cases hf : StdMap.find ctx.m_channelalias_channel_map Chan_Invalid with
    | none => rfl
    | some i =>
      obtain ⟨a, ha, hk⟩ := hI.chan_idx _ _ hf
      exact absurd hk (hI.chan_pos a (List.getElem?_mem ha))
  refine ⟨hI.counter, (ids_reachable arb h29 b ctx hR).bound, hzero, ?_⟩
  intro p hp he
  obtain ⟨k, v⟩ := p
  simp only [] at he
  subst he
  exact stdmap_find_of_mem _ _ _ hp hzero

/-- Witness of C22 at the threshold 30: the name `B`. -/
theorem getChannelAlias_rgba_witness :
    Chan_CutoutZ < 30 ∧
    returnedAlias ((ChannelContext.new 30 true).getChannelAlias 30 (some "B".toList))
      = some ⟨"B".toList, "rgba".toList, Chan_B, 2, "B".toList, .HALF⟩ ∧
    ((ChannelContext.new 30 true).getChannelAlias 30 (some "B".toList)).1
      = ChannelContext.new 30 true :=
  ⟨by decide, (getChannelAlias_rgba 30 (by decide)).2.2.1⟩

/-- Witness of C23 at the threshold 30, on a context with standard channels. -/
theorem getChannelAlias_custom_witness :
    Chan_CutoutZ < 30 ∧
    returnedAlias ((ChannelContext.new 30 true).getChannelAlias 30 (some "myCustomChan".toList))
      = some ⟨"myCustomChan".toList, "other".toList, 30, 0, [], .HALF⟩ ∧
    ((ChannelContext.new 30 true).getChannelAlias 30 (some "myCustomChan".toList)).1.m_layers
      = [⟨"other".toList, [⟨30, 0⟩]⟩] :=
  ⟨by decide, (getChannelAlias_custom 30 (by decide) true).1,
    (getChannelAlias_custom 30 (by decide) true).2.2.2.2.1⟩

/-- Witness of C24 at the threshold 30, on a context without standard channels. -/
theorem getChannelAlias_depth_witness :
    Chan_CutoutZ < 30 ∧
    returnedAlias ((ChannelContext.new 30 false).getChannelAlias 30 (some "Z".toList))
      = some ⟨"Z".toList, "depth".toList, Chan_Z, 0, "Z".toList, .FLOAT⟩ ∧
    returnedAlias
        (((ChannelContext.new 30 false).getChannelAlias 30 (some "Z".toList)).1.getChannelAlias 30
          (some "ZBack".toList))
      = some ⟨"ZBack".toList, "depth".toList, Chan_ZBack, 1, "ZBack".toList, .FLOAT⟩ :=
  ⟨by decide, (getChannelAlias_depth 30 (by decide) false).1,
    (getChannelAlias_depth 30 (by decide) false).2.1⟩

/-- Witness of C25: the ids 12, 3 and 12 again, printed after the prefix `c=`. -/
theorem print_numeric_witness :
    (ChannelSet.ofList [12, 3, 12]).m_mask ≠ [] ∧
    (ChannelSet.ofList [12, 3, 12]).print (some "c=".toList) [] none
      = [] ++ (some "c=".toList).getD [] ++ "[".toList
        ++ List.intercalate ",".toList
            ((ChannelSet.ofList [12, 3, 12]).m_mask.map (Nat.toDigits 10)) ++ "]".toList ∧
    (ChannelSet.ofList [12, 3, 12]).print (some "c=".toList) [] none = "c=[3,12]".toList :=
  ⟨by decide,
    print_numeric.1 (ChannelSet.ofList [12, 3, 12]) (some "c=".toList) [] (by decide),
    by decide⟩

set_option maxRecDepth 1000000 in
/-- Witness of C26 at the threshold 30: with the prefix `chans=` the text is
`chans=[R,G,B,A]`. -/
theorem print_rgba_names_witness :
    Chan_CutoutZ < 30 ∧
    (ChannelSet.ofList [Chan_R, Chan_G, Chan_B, Chan_A]).print (some "chans=".toList) []
        (some (ChannelContext.new 30 true))
      = [] ++ (some "chans=".toList).getD [] ++ "[R,G,B,A]".toList ∧
    (ChannelSet.ofList [Chan_R, Chan_G, Chan_B, Chan_A]).print (some "chans=".toList) []
        (some (ChannelContext.new 30 true))
      = "chans=[R,G,B,A]".toList :=
  ⟨by decide, (print_rgba_names 30 (by decide)).2.1 (some "chans=".toList) [], by decide⟩

set_option maxRecDepth 1000000 in
/-- Witness of C27: the IO name `R` on a fresh standard context is a lookup hit. -/
theorem getChannelAlias_hit_unchanged_witness :
    (ChannelContext.new 30 true).findChannelAliasCStr (some "R".toList) = some 0 ∧
    (ChannelContext.new 30 true).getChannelAlias 30 (some "R".toList)
      = (ChannelContext.new 30 true, some 0) :=
  ⟨by decide,
    (getChannelAlias_hit_unchanged 30 (ChannelContext.new 30 true) (some "R".toList)).1 0
      (by decide)⟩

/-- Witness of C28: the alias created for `foo.R` on a fresh context without
standard channels. -/
theorem fullName_round_trip_witness :
    Reachable 30 false
      ((ChannelContext.new 30 false).getChannelAlias 30 (some "foo.R".toList)).1 ∧
    ((ChannelContext.new 30 false).getChannelAlias 30
        (some "foo.R".toList)).1.m_channelalias_list[0]?
      = some ⟨"R".toList, "foo".toList, Chan_R, 0, "R".toList, .HALF⟩ ∧
    ((ChannelContext.new 30 false).getChannelAlias 30 (some "foo.R".toList)).1.findChannelAlias
        (ChannelAlias.mk "R".toList "foo".toList Chan_R 0 "R".toList .HALF).fullName
      = some 0 :=
  ⟨Reachable.step (some "foo.R".toList) Reachable.init, by decide,
    (fullName_round_trip 30 false
      ((ChannelContext.new 30 false).getChannelAlias 30 (some "foo.R".toList)).1
      (Reachable.step (some "foo.R".toList) Reachable.init) 0
      ⟨"R".toList, "foo".toList, Chan_R, 0, "R".toList, .HALF⟩ (by decide)).2.2.1⟩

/-- Witness of C29: an alias with an empty layer and a default IO name, added
by `addChannelAlias` to a fresh context without standard channels. -/
theorem index_consistency_witness :
    ReachableAny 30 false
      ((ChannelContext.new 30 false).addChannelAlias
        (.fresh ⟨"x".toList, [], Chan_Invalid, 0, "io".toList, .HALF⟩)).1 ∧
    ((ChannelContext.new 30 false).addChannelAlias
        (.fresh ⟨"x".toList, [], Chan_Invalid, 0, "io".toList, .HALF⟩)).1.findChannelAlias
        "io".toList = some 0 ∧
    ∃ a, ((ChannelContext.new 30 false).addChannelAlias
        (.fresh ⟨"x".toList, [], Chan_Invalid, 0, "io".toList, .HALF⟩)).1.m_channelalias_list[0]?
        = some a ∧
      ("io".toList = a.fullName ∨ "io".toList = a.m_io_name) :=
  ⟨ReachableAny.add (.fresh ⟨"x".toList, [], Chan_Invalid, 0, "io".toList, .HALF⟩)
      ReachableAny.init,
    by decide,
    (index_consistency 30 false
      ((ChannelContext.new 30 false).addChannelAlias
        (.fresh ⟨"x".toList, [], Chan_Invalid, 0, "io".toList, .HALF⟩)).1
      (ReachableAny.add (.fresh ⟨"x".toList, [], Chan_Invalid, 0, "io".toList, .HALF⟩)
        ReachableAny.init)).2.1 "io".toList 0 (by decide)⟩

/-- Witness of C30 at the threshold 30: after `foo` on a fresh context. -/
theorem counter_bounds_ids_witness :
    Chan_CutoutZ < 30 ∧
    Reachable 30 false
      ((ChannelContext.new 30 false).getChannelAlias 30 (some "foo".toList)).1 ∧
    30 - 1 ≤ ((ChannelContext.new 30 false).getChannelAlias 30
        (some "foo".toList)).1.m_last_assigned ∧
    ∀ a ∈ ((ChannelContext.new 30 false).getChannelAlias 30
        (some "foo".toList)).1.m_channelalias_list,
      1 ≤ a.m_channel ∧
      a.m_channel ≤ ((ChannelContext.new 30 false).getChannelAlias 30
        (some "foo".toList)).1.m_last_assigned :=
  ⟨by decide, Reachable.step (some "foo".toList) Reachable.init,
    (counter_bounds_ids 30 (by decide) false
      ((ChannelContext.new 30 false).getChannelAlias 30 (some "foo".toList)).1
      (Reachable.step (some "foo".toList) Reachable.init)).1,
    (counter_bounds_ids 30 (by decide) false
      ((ChannelContext.new 30 false).getChannelAlias 30 (some "foo".toList)).1
      (Reachable.step (some "foo".toList) Reachable.init)).2.1⟩

theorem mem_assign {κ ν : Type} [DecidableEq κ] (m : StdMap κ ν) (k : κ) (v : ν)
    (p : κ × ν) (h : p ∈ StdMap.assign m k v) : p ∈ m ∨ p = (k, v) := by
  induction m with
  | nil =>
    simp only [StdMap.assign, List.mem_singleton] at h
    exact Or.inr h
  | cons q m ih =>
    obtain ⟨k0, v0⟩ := q
    unfold StdMap.assign at h
    by_cases hk : k = k0
    · rw [if_pos hk] at h
      rcases List.mem_cons.mp h with e | e
      · exact Or.inr (by rw [e, hk])
      · exact Or.inl (List.mem_cons_of_mem _ e)
    · rw [if_neg hk] at h
      rcases List.mem_cons.mp h with e | e
      · exact Or.inl (by rw [e]; exact List.mem_cons_self _ _)
      · rcases ih e with h1 | h1
        · exact Or.inl (List.mem_cons_of_mem _ h1)
        · exact Or.inr h1

theorem mem_ite_assign {κ ν : Type} [DecidableEq κ] (m : StdMap κ ν) (k : κ) (v : ν)
    (c : Prop) [Decidable c] (p : κ × ν)
    (h : p ∈ (if c then StdMap.assign m k v else m)) : p ∈ m ∨ p = (k, v) := by
  by_cases hc : c
  · rw [if_pos hc] at h; exact mem_assign m k v p h
  · rw [if_neg hc] at h; exact Or.inl h

/-- Registration of any alias object keeps the bounds invariant. -/
theorem boundsInv_add_fresh (ctx : ChannelContext) (obj : ChannelAlias) (hB : BoundsInv ctx) :
    BoundsInv (ctx.addChannelAlias (.fresh obj)).1 := by
  have hlen : ctx.m_channelalias_list.length
      < (ctx.m_channelalias_list ++ [storedAlias ctx obj]).length := by simp
  rw [add_fresh_eq]
  refine ⟨?_, ?_, hB.layer_bound⟩
  · intro p hp
    simp only [] at hp ⊢
    rcases mem_ite_assign _ _ _ _ p hp with h1 | h1
    · rcases mem_ite_assign _ _ _ _ p h1 with h2 | h2
      · exact Nat.lt_trans (hB.name_bound p h2) hlen
      · rw [h2]; exact hlen
    · rw [h1]; exact hlen
  · intro p hp
    simp only [] at hp ⊢
    rcases mem_ite_assign _ _ _ _ p hp with h1 | h1
    · exact Nat.lt_trans (hB.chan_bound p h1) hlen
    · rw [h1]; exact hlen

theorem boundsInv_add (ctx : ChannelContext) (ptr : AliasPtr) (hB : BoundsInv ctx) :
    BoundsInv (ctx.addChannelAlias ptr).1 := by
  cases ptr with
  | null => exact hB
  | registered i => exact hB
  | fresh obj => exact boundsInv_add_fresh ctx obj hB

theorem boundsInv_addToLayer (ctx : ChannelContext) (name : Str) (o : ChanOrder)
    (hB : BoundsInv ctx) : BoundsInv (addToLayer ctx name o) := by
  refine ⟨?_, ?_, ?_⟩
  · rw [addToLayer_name_map, addToLayer_list]; exact hB.name_bound
  · rw [addToLayer_chan_map, addToLayer_list]; exact hB.chan_bound
  · cases hf : StdMap.find ctx.m_layer_name_map name with
    | none =>
      obtain ⟨e1, e2⟩ := addToLayer_none ctx name o hf
      intro p hp
      rw [e2] at hp
      rw [e1]
      rcases mem_assign _ _ _ p hp with h1 | h1
      · obtain ⟨l, hl, hn⟩ := hB.layer_bound p h1
        exact ⟨l, getElem?_append_of_some _ _ _ _ hl, hn⟩
      · rw [h1]
        exact ⟨⟨name, [o]⟩, List.getElem?_concat_length _ _, rfl⟩
    | some i0 =>
      obtain ⟨e1, e2⟩ := addToLayer_some ctx name o i0 hf
      intro p hp
      rw [e2] at hp
      rw [e1]
      obtain ⟨l, hl, hn⟩ := hB.layer_bound p hp
      by_cases hi : i0 = p.2
      · rw [← hi] at hl ⊢
        rw [List.getElem?_modify_eq, hl]
        exact ⟨_, rfl, hn⟩
      · rw [List.getElem?_modify_ne _ _ hi]
        exact ⟨l, hl, hn⟩

theorem boundsInv_get (arb : ChannelIdx) (ctx : ChannelContext) (name : Option Str)
    (hB : BoundsInv ctx) : BoundsInv (ctx.getChannelAlias arb name).1 := by
  rcases getChannelAlias_outcomes arb ctx name with
    ⟨_, h⟩ | ⟨_, _, _, _, _, h⟩ | ⟨n, _, _, _, _, h⟩
  · rw [h]; exact hB
  · rw [h]; exact hB
  · rw [h]
    exact boundsInv_addToLayer _ _ _ (boundsInv_add_fresh ctx _ hB)

theorem boundsInv_fold_std (arb : ChannelIdx) (rows : List StandardChannel) :
    ∀ ctx : ChannelContext, BoundsInv ctx →
      BoundsInv (rows.foldl
        (fun ctx c =>
          if c.layer_name = "invalid".toList then ctx
          else (ctx.addChannelAliasNew c.channel_name c.layer_name c.ordering_index
                  (toUInt32 (getLayerPositionFromKind arb c.ordering_index))
                  c.dflt_io_name c.dflt_io_pixel_type).1) ctx) := by
  induction rows with
  | nil => intro ctx h; exact h
  | cons c rows ih =>
    intro ctx h
    simp only [List.foldl_cons]
    apply ih
    by_cases hn : c.layer_name = "invalid".toList
    · rw [if_pos hn]; exact h
    · rw [if_neg hn]; exact boundsInv_add_fresh ctx _ h

theorem boundsInv_new (arb : ChannelIdx) (b : Bool) : BoundsInv (ChannelContext.new arb b) := by
  have h0 : BoundsInv ⟨[], [], [], [], [], arb - 1⟩ := by
    refine ⟨?_, ?_, ?_⟩ <;> intro p hp <;> simp at hp
  unfold ChannelContext.new
  cases b with
  | false => exact h0
  | true =>
    simp only [if_true]
    exact boundsInv_fold_std arb _ _ h0

theorem boundsInv_reachableAny (arb : ChannelIdx) (b : Bool) (ctx : ChannelContext)
    (h : ReachableAny arb b ctx) : BoundsInv ctx := by
  induction h with
  | init => exact boundsInv_new arb b
  | add ptr _ ih => exact boundsInv_add _ ptr ih
  | get name _ ih => exact boundsInv_get arb _ name ih

/-- C31. Index safety: in every context reachable from construction (with or
without standard channels, for every threshold) by calls of `addChannelAlias`
and `getChannelAlias`, every position stored in the name index and in the id
index is a valid index into the alias list, and every position stored in the
layer-name index is a valid index into the layer list at which the layer has
the key as its name.  So the pointer that any overload of `findChannelAlias`
returns is inside the list, the subscript of `getChannelName` and
`getChannelFullName` reads an element of the list, and the subscript into the
layer list that `getChannelAlias` makes after it has registered a new alias
is below the length of that list. -/
theorem index_safety (arb : ChannelIdx) (b : Bool) (ctx : ChannelContext)
    (hR : ReachableAny arb b ctx) :
    (∀ p ∈ ctx.m_channelalias_name_map, p.2 < ctx.m_channelalias_list.length) ∧
    (∀ p ∈ ctx.m_channelalias_channel_map, p.2 < ctx.m_channelalias_list.length) ∧
    (∀ p ∈ ctx.m_layer_name_map, ∃ l, ctx.m_layers[p.2]? = some l ∧ l.name = p.1) ∧
    (∀ (k : Str) (p : Nat), ctx.findChannelAlias k = some p →
      p < ctx.m_channelalias_list.length) ∧
    (∀ (k : Option Str) (p : Nat), ctx.findChannelAliasCStr k = some p →
      p < ctx.m_channelalias_list.length) ∧
    (∀ (id : ChannelIdx) (p : Nat), ctx.findChannelAliasIdx id = some p →
      p < ctx.m_channelalias_list.length) ∧
    (∀ (id : ChannelIdx) (i : Nat), StdMap.find ctx.m_channelalias_channel_map id = some i →
      ctx.m_channelalias_list[i]? = some (ctx.deref i)) ∧
    (∀ (k : Str) (l : Nat) (obj : ChannelAlias),
      StdMap.find (ctx.addChannelAlias (.fresh obj)).1.m_layer_name_map k = some l →
      l < (ctx.addChannelAlias (.fresh obj)).1.m_layers.length) := by
  have hB := boundsInv_reachableAny arb b ctx hR
  have hname : ∀ (k : Str) (p : Nat), ctx.findChannelAlias k = some p →
      p < ctx.m_channelalias_list.length := by
    intro k p h
    exact hB.name_bound _ (stdmap_find_mem _ _ _ (find_of_findChannelAlias h).2)
  have hlay : ∀ (k : Str) (l : Nat), StdMap.find ctx.m_layer_name_map k = some l →
      l < ctx.m_layers.length := by
    intro k l h
    obtain ⟨x, hx, _⟩ := hB.layer_bound _ (stdmap_find_mem _ _ _ h)
    rcases Nat.lt_or_ge l ctx.m_layers.length with hlt | hge
    · exact hlt
    · rw [List.getElem?_eq_none hge] at hx; cases hx
  refine ⟨hB.name_bound, hB.chan_bound, hB.layer_bound, hname, ?_, ?_, ?_, ?_⟩
  · intro k p h
    cases k with
    | none => cases h
    | some n =>
      unfold findChannelAliasCStr at h
      simp only [] at h
      split at h
      · cases h
      · exact hname n p h
  · intro id p h
    unfold findChannelAliasIdx at h
    split at h
    · exact hB.chan_bound _ (stdmap_find_mem _ _ _ h)
    · cases h
  · intro id i h
    have hi := hB.chan_bound _ (stdmap_find_mem _ _ _ h)
    unfold deref
    simp only [] at hi
    rw [List.getElem?_eq_getElem hi, List.getD_eq_getElem _ _ hi]
  · intro k l obj h
    exact hlay k l h

theorem strip_eq_filter (d s : Str) : strip s d = s.filter (fun c => decide (c ∉ d)) := by
  unfold strip
  induction d generalizing s with
  | nil => simp
  | cons y ys ih =>
    simp only [List.foldl_cons]
    rw [ih, List.filter_filter]
    apply List.filter_congr
    intro x _
    by_cases h1 : x = y
    · simp [h1]
    · simp [h1]

theorem mem_strip_iff (d s : Str) (x : Char) : x ∈ strip s d ↔ x ∈ s ∧ x ∉ d := by
  rw [strip_eq_filter, List.mem_filter]
  simp

theorem not_mem_of_find_last_of_none {s : Str} {d : Char} (h : find_last_of s d = none) :
    d ∉ s := by
  induction s with
  | nil => simp
  | cons x xs ih =>
    unfold find_last_of at h
    cases hx : find_last_of xs d with
    | some i => rw [hx] at h; cases h
    | none =>
      rw [hx] at h
      simp only [] at h
      by_cases hxd : x = d
      · rw [if_pos hxd] at h; cases h
      · intro hm
        rcases List.mem_cons.mp hm with e | e
        · exact hxd e.symm
        · exact ih hx e

theorem find_last_of_some {s : Str} {d : Char} {a : Nat} (h : find_last_of s d = some a) :
    ∃ l c, s = l ++ [d] ++ c ∧ d ∉ c ∧ l.length = a := by
  induction s generalizing a with
  | nil => cases h
  | cons x xs ih =>
    unfold find_last_of at h
    cases hx : find_last_of xs d with
    | some i =>
      rw [hx] at h
      simp only [Option.some.injEq] at h
      obtain ⟨l, c, e, hc, hl⟩ := ih hx
      refine ⟨x :: l, c, ?_, hc, ?_⟩
      · rw [e]; rfl
      · rw [← h, ← hl]; rfl
    | none =>
      rw [hx] at h
      simp only [] at h
      by_cases hxd : x = d
      · rw [if_pos hxd] at h
        simp only [Option.some.injEq] at h
        refine ⟨[], xs, ?_, not_mem_of_find_last_of_none hx, ?_⟩
        · rw [hxd]; rfl
        · rw [← h]; rfl
      · rw [if_neg hxd] at h; cases h

/-- C34. The reassembly property of `splitName`, for every name, with `s` the
name stripped of whitespace: when the last dot of `s` is at an index above 0,
the layer is not empty (its length is that index), layer, dot and channel
put together give `s`, the channel contains no dot, and neither part
contains whitespace; in every other case (no dot in `s`, or its last dot at
index 0) the layer is empty and the channel is the original name, not
stripped.  Here `find_last_of` returns the index after which no dot
follows, and nothing exactly when there is no dot. -/
theorem splitName_reassembly (name : Str) :
    (∀ a, find_last_of (strip name whitespace) dot = some a → a > 0 →
      (splitName name).1 ≠ [] ∧ (splitName name).1.length = a ∧
      (splitName name).1 ++ [dot] ++ (splitName name).2 = strip name whitespace ∧
      dot ∉ (splitName name).2 ∧
      (∀ ch ∈ (splitName name).1, ch ∉ whitespace) ∧
      (∀ ch ∈ (splitName name).2, ch ∉ whitespace)) ∧
    ((find_last_of (strip name whitespace) dot = none ∨
        find_last_of (strip name whitespace) dot = some 0) →
      splitName name = ([], name)) ∧
    (∀ a, find_last_of (strip name whitespace) dot = some a ↔
      ∃ l c, strip name whitespace = l ++ [dot] ++ c ∧ dot ∉ c ∧ l.length = a) ∧
    (find_last_of (strip name whitespace) dot = none ↔ dot ∉ strip name whitespace) ∧
    (∀ ch, ch ∈ strip name whitespace ↔ ch ∈ name ∧ ch ∉ whitespace) := by
  refine ⟨?_, ?_, ?_, ?_, mem_strip_iff whitespace name⟩
  · intro a h ha
    obtain ⟨l, c, e, hc, hl⟩ := find_last_of_some h
    have hs : splitName name = (l, c) := by
      unfold splitName
      simp only [h, if_pos ha]
      rw [e, ← hl, (take_drop_append_dot l c).1, (take_drop_append_dot l c).2]
    have hfree : ∀ ch ∈ l ++ [dot] ++ c, ch ∉ whitespace := by
      intro ch hch
      rw [← e] at hch
      exact ((mem_strip_iff whitespace name ch).mp hch).2
    rw [hs]
    refine ⟨?_, hl, e.symm, hc, ?_, ?_⟩
    · intro hnil
      have hnil' : l = [] := hnil
      rw [hnil'] at hl
      rw [← hl] at ha
      exact Nat.lt_irrefl _ ha
    · intro ch hch
      exact hfree ch (List.mem_append_left _ (List.mem_append_left _ hch))
    · intro ch hch
      exact hfree ch (List.mem_append_right _ hch)
  · rintro (h | h)
    · unfold splitName
      simp only [h]
    · unfold splitName
      simp only [h, gt_iff_lt, Nat.lt_irrefl, if_false]
  · intro a
    constructor
    · exact find_last_of_some
    · rintro ⟨l, c, e, hc, hl⟩
      rw [e, ← hl]
      exact find_last_of_append hc
  · constructor
    · exact not_mem_of_find_last_of_none
    · exact find_last_of_none

/-- One pass of `strip`: the characters of the buffer read that differ from the
delimiter are pushed, in order, behind the contents of the buffer written. -/
theorem strip_pass (dp : Char) (p0 p1 : Str) :
    p0.foldl (fun buf i => if i ≠ dp then buf ++ [i] else buf) p1
      = p1 ++ p0.filter (fun i => decide (i ≠ dp)) := by
  induction p0 generalizing p1 with
  | nil => simp
  | cons x xs ih =>
    simp only [List.foldl_cons]
    rw [ih]
    by_cases h : x = dp
    · simp [h]
    · simp [h]

theorem stripPasses_eq (d p0 : Str) :
    stripPasses d p0 [] = d.foldl (fun p0 dp => p0.filter (fun i => decide (i ≠ dp))) p0 := by
  induction d generalizing p0 with
  | nil => rfl
  | cons dp dps ih =>
    unfold stripPasses
    simp only [List.foldl_cons]
    rw [strip_pass, List.nil_append]
    exact ih _

/-- C36. For every text and every list of delimiters, of any length, `strip`
with its two buffers leaves in `src` exactly the characters of `src` that
are not in the delimiter list, in their order (the filtered text is a
subsequence of `src`); this is the function `strip` used by `splitName` and
the matcher.  With no delimiter the text is unchanged, with the default
delimiters exactly space, newline, tab and carriage return are removed, and
stripping a second time changes nothing. -/
theorem strip_spec (src delimiters : Str) :
    stripTwoBuffers src delimiters = src.filter (fun c => decide (c ∉ delimiters)) ∧
    strip src delimiters = stripTwoBuffers src delimiters ∧
    (stripTwoBuffers src delimiters).Sublist src ∧
    (∀ ch, ch ∈ stripTwoBuffers src delimiters ↔ ch ∈ src ∧ ch ∉ delimiters) ∧
    stripTwoBuffers src [] = src ∧
    stripTwoBuffers src whitespace
      = src.filter (fun c => decide (c ≠ Char.ofNat 32 ∧ c ≠ Char.ofNat 10 ∧
          c ≠ Char.ofNat 9 ∧ c ≠ Char.ofNat 13)) ∧
    stripTwoBuffers (stripTwoBuffers src delimiters) delimiters
      = stripTwoBuffers src delimiters := by
  have h1 : ∀ s d : Str, stripTwoBuffers s d = strip s d := by
    intro s d
    unfold stripTwoBuffers strip
    exact stripPasses_eq d s
  have h2 : ∀ s d : Str, stripTwoBuffers s d = s.filter (fun c => decide (c ∉ d)) := by
    intro s d
    rw [h1, strip_eq_filter]
  refine ⟨h2 _ _, (h1 _ _).symm, ?_, ?_, ?_, ?_, ?_⟩
  · rw [h2]; exact List.filter_sublist _
  · intro ch
    rw [h1]; exact mem_strip_iff _ _ _
  · rfl
  · rw [h2]
    apply List.filter_congr
    intro x _
    simp [whitespace]
  · rw [h2 (stripTwoBuffers src delimiters), h2 src, List.filter_filter]
    simp

theorem findIdx?_some_decomp {α : Type} (p : α → Bool) :
    ∀ (xs : List α) (i : Nat), xs.findIdx? p = some i →
      ∃ pre x post, xs = pre ++ x :: post ∧ pre.length = i ∧
        (∀ y ∈ pre, p y = false) ∧ p x = true := by
  intro xs
  induction xs with
  | nil => intro i h; simp at h
  | cons x xs ih =>
    intro i h
    rw [List.findIdx?_cons] at h
    by_cases hx : p x = true
    · rw [if_pos hx] at h
      cases h
      exact ⟨[], x, xs, rfl, rfl, fun y hy => by simp at hy, hx⟩
    · rw [if_neg hx, List.findIdx?_succ] at h
      cases hf : xs.findIdx? p with
      | none => rw [hf] at h; cases h
      | some j =>
        rw [hf] at h
        simp only [Option.map_some', Option.some.injEq] at h
        obtain ⟨pre, y, post, e, hl, hpre, hy⟩ := ih j hf
        refine ⟨x :: pre, y, post, by rw [e]; rfl, by rw [← h, ← hl]; rfl, ?_, hy⟩
        intro z hz
        rcases List.mem_cons.mp hz with e1 | e1
        · rw [e1]; simpa using hx
        · exact hpre z e1

/-- The tokens the loop of `split` appends from an index on, given fuel for
the rest of the text: the non-empty pieces into which the delimiters cut the
rest; none of them holds a delimiter, and together they are the rest without
its delimiters. -/
theorem splitLoop_spec (src delimiters : Str) :
    ∀ (fuel index : Nat) (tokens : List Str), index ≤ src.length →
      src.length - index < fuel →
      ∃ ts, splitLoop src delimiters fuel index tokens = some (tokens ++ ts) ∧
        ts = ((src.drop index).splitOnP (fun c => delimiters.contains c)).filter
          (fun t => decide (t ≠ [])) ∧
        (∀ t ∈ ts, t ≠ [] ∧ ∀ ch ∈ t, ch ∉ delimiters) ∧
        ts.flatten = (src.drop index).filter (fun c => decide (c ∉ delimiters)) := by
  intro fuel
  induction fuel with
  | zero => intro index tokens _ h; exact absurd h (Nat.not_lt_zero _)
  | succ fuel ih =>
    intro index tokens hle hfuel
    unfold splitLoop find_first_of
    cases hf : (src.drop index).findIdx? (fun c => delimiters.contains c) with
    | none =>
      have hnone : ∀ x ∈ src.drop index, ¬ (delimiters.contains x = true) := by
        intro x hx
        have := List.findIdx?_eq_none_iff.mp hf x hx
        simpa using this
      have hfree : ∀ ch ∈ src.drop index, ch ∉ delimiters := by
        intro ch hch
        simpa using hnone ch hch
      simp only [Option.map_none']
      rw [List.splitOnP_eq_single _ _ hnone]
      by_cases hlen : src.length > index
      · have hne : src.drop index ≠ [] := by
          intro e
          have := congrArg List.length e
          simp only [List.length_drop, List.length_nil] at this
          omega
        refine ⟨[src.drop index], by rw [if_pos hlen], by simp [hne], ?_, ?_⟩
        · intro t ht
          rw [List.mem_singleton] at ht
          rw [ht]
          exact ⟨hne, hfree⟩
        · simp only [List.flatten_cons, List.flatten_nil, List.append_nil]
          symm
          apply List.filter_eq_self.mpr
          intro a ha
          simpa using hfree a ha
      · have he : src.drop index = [] := List.drop_eq_nil_of_le (Nat.le_of_not_lt hlen)
        refine ⟨[], by rw [if_neg hlen, List.append_nil], by simp [he], ?_, by simp [he]⟩
        intro t ht
        cases ht
    | some i =>
      obtain ⟨pre, x, post, e, hl, hpre, hx⟩ := findIdx?_some_decomp _ _ i hf
      have hlen : (src.drop index).length = pre.length + (post.length + 1) := by
        rw [e]; simp
      rw [List.length_drop] at hlen
      have hpost : src.drop (index + i + 1) = post := by
        have h1 : src.drop (index + i + 1) = (src.drop index).drop (i + 1) := by
          rw [List.drop_drop]
          congr 1
        have h3 : pre ++ x :: post = (pre ++ [x]) ++ post := by simp
        rw [h1, e, ← hl, h3]
        exact List.drop_left' (by simp)
      have hpre' : (pre ++ x :: post).take (index + i - index) = pre := by
        have h5 : index + i - index = pre.length := by omega
        rw [h5]
        exact List.take_left' rfl
      have hpfree : ∀ ch ∈ pre, ch ∉ delimiters := by
        intro ch hch
        simpa using hpre ch hch
      have hxd : x ∈ delimiters := by simpa using hx
      obtain ⟨ts, hts, hruns, hprop, hflat⟩ :=
        ih (index + i + 1)
          (if index + i ≠ index then tokens ++ [(src.drop index).take (index + i - index)]
            else tokens)
          (by omega) (by omega)
      simp only [Option.map_some']
      rw [hpost] at hruns hflat
      have hfn : ∀ rest : List Str,
          List.filter (fun t => decide (t ≠ [])) ([] :: rest)
            = List.filter (fun t => decide (t ≠ [])) rest := by
        intro rest; simp
      have hfp : ∀ rest : List Str, pre ≠ [] →
          List.filter (fun t => decide (t ≠ [])) (pre :: rest)
            = pre :: List.filter (fun t => decide (t ≠ [])) rest := by
        intro rest h; simp [h]
      rw [hts, e, List.splitOnP_first _ _ (fun y hy => by simpa using hpfree y hy) x hx]
      by_cases hi : i = 0
      · have hp0 : pre = [] := List.length_eq_zero.mp (by omega)
        have hc : ¬ (index + i ≠ index) := by omega
        refine ⟨ts, by rw [if_neg hc], ?_, hprop, ?_⟩
        · rw [hruns, hp0, hfn]
        · rw [hflat, hp0]
          simp [hxd]
      · have hp0 : pre ≠ [] := by
          intro e0
          rw [e0] at hl
          exact hi hl.symm
        have hc : index + i ≠ index := by omega
        refine ⟨pre :: ts, ?_, ?_, ?_, ?_⟩
        · rw [if_pos hc, hpre', List.append_assoc]
          rfl
        · rw [hruns, hfp _ hp0]
        · intro t ht
          rcases List.mem_cons.mp ht with e1 | e1
          · rw [e1]; exact ⟨hp0, hpfree⟩
          · exact hprop t e1
        · rw [List.flatten_cons, hflat, List.filter_append]
          have hpf : pre.filter (fun c => decide (c ∉ delimiters)) = pre := by
            apply List.filter_eq_self.mpr
            intro a ha
            simpa using hpfree a ha
          rw [hpf]
          simp [hxd]

/-- C35. For every text, delimiter list and token vector, `split` returns (the
fuel of the loop, one round per character and one more, is enough) and
appends to the tokens, in order from left to right, exactly the non-empty
pieces into which the delimiter characters cut the text, that is its maximal
runs of characters that are not delimiters: no appended token is empty or
holds a delimiter, and the appended tokens put together are the text
without its delimiter characters.  For `a,,b,` and the comma the tokens `a`
and `b` are appended. -/
theorem split_spec (src delimiters : Str) (tokens : List Str) :
    (∃ ts, split src delimiters tokens = some (tokens ++ ts) ∧
      ts = (src.splitOnP (fun c => delimiters.contains c)).filter
        (fun t => decide (t ≠ [])) ∧
      (∀ t ∈ ts, t ≠ [] ∧ ∀ ch ∈ t, ch ∉ delimiters) ∧
      ts.flatten = src.filter (fun c => decide (c ∉ delimiters))) ∧
    split "a,,b,".toList ",".toList tokens = some (tokens ++ ["a".toList, "b".toList]) := by
  have h : ∀ (s d : Str), ∃ ts, split s d tokens = some (tokens ++ ts) ∧
      ts = (s.splitOnP (fun c => d.contains c)).filter (fun t => decide (t ≠ [])) ∧
      (∀ t ∈ ts, t ≠ [] ∧ ∀ ch ∈ t, ch ∉ d) ∧
      ts.flatten = s.filter (fun c => decide (c ∉ d)) := by
    intro s d
    have h0 := splitLoop_spec s d (s.length + 1) 0 tokens (Nat.zero_le _)
      (by rw [Nat.sub_zero]; exact Nat.lt_succ_self _)
    simpa only [List.drop_zero] using h0
  refine ⟨h src delimiters, ?_⟩
  obtain ⟨ts, hs, hts, _⟩ := h "a,,b,".toList ",".toList
  have hv : List.filter (fun t => decide (t ≠ []))
      (List.splitOnP (fun c => ",".toList.contains c) "a,,b,".toList)
      = ["a".toList, "b".toList] := by decide
  rw [hs, hts, hv]

set_option maxRecDepth 1000000 in
theorem table_full_names : ∀ c ∈ g_standard_channel_table,
    c.layer_name ≠ "invalid".toList →
    splitName (c.layer_name ++ [dot] ++ c.channel_name) = (c.layer_name, c.channel_name) ∧
    c.layer_name ++ [dot] ++ c.channel_name ≠ [] ∧
    (c.channel_name.map toupper ∈ matchTokens c ↔
      c.layer_name ∈ ["rgba".toList, "yuv".toList, "depth".toList, "spmask".toList,
        "tex".toList]) := by
  decide

set_option maxRecDepth 1000000 in
/-- Counterexample to C33: for the row of `Chan_AR` the canonical full name
`opacity.R` resolves to `Chan_R` on a fresh context without standard channels
(the channel part `R` is matched on its own) and to `Chan_AR` on a fresh
context with them. -/
theorem prepopulation_counterexample :
    stdRow "opacity" "R" "AR,RA" "AR" .HALF Chan_AR ∈ g_standard_channel_table ∧
    (returnedAlias ((ChannelContext.new 30 false).getChannelAlias 30
        (some "opacity.R".toList))).map (fun a => a.m_channel) = some Chan_R ∧
    (returnedAlias ((ChannelContext.new 30 true).getChannelAlias 30
        (some "opacity.R".toList))).map (fun a => a.m_channel) = some Chan_AR ∧
    Chan_R ≠ Chan_AR := by
  decide

/-- C33 (amended). For every threshold and every row of the standard table,
other than the invalid row, whose channel name is up to ASCII case one of
the row's own synonym tokens (these are the rows of the layers rgba, yuv,
depth, spmask and tex), resolving the canonical full name of the row with
`getChannelAlias` returns an alias with the id of the row both on a freshly
constructed context without standard channels and on one with them. -/
theorem prepopulation_independent (arb : ChannelIdx) :
    (∀ c ∈ g_standard_channel_table, c.layer_name ≠ "invalid".toList →
      c.channel_name.map toupper ∈ matchTokens c →
      ∃ a1 a2,
        returnedAlias ((ChannelContext.new arb false).getChannelAlias arb
          (some (c.layer_name ++ [dot] ++ c.channel_name))) = some a1 ∧
        returnedAlias ((ChannelContext.new arb true).getChannelAlias arb
          (some (c.layer_name ++ [dot] ++ c.channel_name))) = some a2 ∧
        a1.m_channel = c.ordering_index ∧ a2.m_channel = c.ordering_index ∧
        a1.m_channel = a2.m_channel) ∧
    (∀ c ∈ g_standard_channel_table, c.layer_name ≠ "invalid".toList →
      (c.channel_name.map toupper ∈ matchTokens c ↔
        c.layer_name ∈ ["rgba".toList, "yuv".toList, "depth".toList, "spmask".toList,
          "tex".toList])) := by
  refine ⟨?_, fun c hc hn => (table_full_names c hc hn).2.2⟩
  intro c hc hn ht
  have hT := table_full_names c hc hn
  have hrow := table_rows c hc hn
  -- without standard channels: the alias is created from the matched row
  have hm : stdMatch (splitName (c.layer_name ++ [dot] ++ c.channel_name)).2 = some c := by
    rw [hT.1]; exact stdMatch_of_upper_token hc ht
  have hres := resolved_of_match arb _ c hm
  have hchan : (resolvedAlias arb (c.layer_name ++ [dot] ++ c.channel_name)).m_channel
      = c.ordering_index := by rw [hres]
  have r1 := created_result arb (ChannelContext.new arb false)
    (c.layer_name ++ [dot] ++ c.channel_name) hT.2.1
    (new_false_find arb _) (new_false_find arb _)
  -- with standard channels: the full name is a key of the name index
  obtain ⟨p, a2, hf, ha2, _, hid⟩ := std_key_resolves arb (ChannelContext.new arb true)
    Reachable.init (c.layer_name ++ [dot] ++ c.channel_name) c.layer_name c.ordering_index
    (std_base_full c hc hn)
  have r2 := getChannelAlias_of_find arb _ _ p hf
  refine ⟨storedAlias (ChannelContext.new arb false)
      (resolvedAlias arb (c.layer_name ++ [dot] ++ c.channel_name)), a2, ?_, ?_, ?_, hid, ?_⟩
  · rw [r1, createdCtx_returned]
  · rw [r2, returnedAlias_mk]; exact ha2
  · rw [storedAlias_of_valid _ _ (by rw [hchan]; exact hrow.2.1), hchan]
  · rw [storedAlias_of_valid _ _ (by rw [hchan]; exact hrow.2.1), hchan, hid]

theorem splitName_of_parts (l c : Str) (hw : ∀ ch ∈ l ++ [dot] ++ c, ch ∉ whitespace)
    (hc : dot ∉ c) (hl : l ≠ []) : splitName (l ++ [dot] ++ c) = (l, c) := by
  unfold splitName
  rw [strip_of_free _ _ hw]
  simp only [find_last_of_append hc]
  have hpos : l.length > 0 := List.length_pos.mpr hl
  rw [if_pos hpos, (take_drop_append_dot l c).1, (take_drop_append_dot l c).2]

/-- The parts into which `splitName` cuts a plain name: the channel part has no
dot, and neither part has whitespace. -/
theorem splitName_plain {n : Str} (hp : plainName n) :
    dot ∉ (splitName n).2 ∧ (∀ ch ∈ (splitName n).2, ch ∉ whitespace) ∧
    (∀ ch ∈ (splitName n).1, ch ∉ whitespace) := by
  have hs : strip n whitespace = n := strip_of_free _ _ hp.1
  cases hf : find_last_of n dot with
  | none =>
    have hd := not_mem_of_find_last_of_none hf
    rw [splitName_nodot hd]
    exact ⟨hd, hp.1, fun ch h => by cases h⟩
  | some a =>
    obtain ⟨l, c, e, hc, hlen⟩ := find_last_of_some hf
    have hl : l ≠ [] := by
      intro e0
      apply hp.2
      rw [e, e0]
      rfl
    have hw : ∀ ch ∈ l ++ [dot] ++ c, ch ∉ whitespace := by rw [← e]; exact hp.1
    have hsp : splitName n = (l, c) := by
      rw [e]; exact splitName_of_parts l c hw hc hl
    rw [hsp]
    refine ⟨hc, ?_, ?_⟩
    · intro ch hch
      exact hw ch (List.mem_append_right _ hch)
    · intro ch hch
      exact hw ch (List.mem_append_left _ (List.mem_append_left _ hch))

theorem append_dot_inj_right {l1 n1 l2 n2 : Str}
    (h : l1 ++ [dot] ++ n1 = l2 ++ [dot] ++ n2) (h1 : dot ∉ n1) (h2 : dot ∉ n2) :
    l1 = l2 ∧ n1 = n2 := by
  have e1 : find_last_of (l1 ++ [dot] ++ n1) dot = some l1.length := find_last_of_append h1
  have e2 : find_last_of (l2 ++ [dot] ++ n2) dot = some l2.length := find_last_of_append h2
  rw [h, e2] at e1
  have hlen : l2.length = l1.length := Option.some.inj e1
  constructor
  · have t1 := (take_drop_append_dot l1 n1).1
    have t2 := (take_drop_append_dot l2 n2).1
    rw [h, ← hlen, t2] at t1
    exact t1.symm
  · have t1 := (take_drop_append_dot l1 n1).2
    have t2 := (take_drop_append_dot l2 n2).2
    rw [h, ← hlen, t2] at t1
    exact t1.symm

set_option maxRecDepth 100000 in
theorem table_layers_plain : ∀ c ∈ g_standard_channel_table,
    ∀ ch ∈ c.layer_name, ch ∉ whitespace := by
  decide

theorem resolved_layer_cases (arb : ChannelIdx) (n : Str) :
    (resolvedAlias arb n).m_layer = (splitName n).1 ∨
    ((splitName n).1 = [] ∧
      ((resolvedAlias arb n).m_layer = "other".toList ∨
        ∃ c ∈ g_standard_channel_table, (resolvedAlias arb n).m_layer = c.layer_name)) := by
  cases h : stdMatch (splitName n).2 with
  | some c =>
    rw [resolved_of_match arb n c h]
    by_cases hl : (splitName n).1 = []
    · right
      refine ⟨hl, Or.inr ⟨c, (stdMatch_row h).1, ?_⟩⟩
      simp only [hl, if_true]
    · left
      simp only [hl, if_false]
  | none =>
    rw [resolved_of_nomatch arb n h]
    by_cases hl : (splitName n).1 = []
    · right
      refine ⟨hl, Or.inl ?_⟩
      simp only [hl, if_true]
    · left
      simp only [hl, if_false]

theorem resolved_layer_plain (arb : ChannelIdx) {n : Str} (hp : plainName n) :
    ∀ ch ∈ (resolvedAlias arb n).m_layer, ch ∉ whitespace := by
  rcases resolved_layer_cases arb n with h | ⟨_, h | ⟨c, hc, h⟩⟩
  · rw [h]; exact (splitName_plain hp).2.2
  · rw [h]; decide
  · rw [h]; exact table_layers_plain c hc

/-- The id of the alias that `getChannelAlias` builds for a name: the id of the
row the channel part matches, or an arbitrary id when it matches none. -/
theorem stored_id_cases (arb : ChannelIdx) (ctx : ChannelContext) (n : Str)
    (hc : arb - 1 ≤ ctx.m_last_assigned) :
    (∀ c, stdMatch (splitName n).2 = some c →
      (storedAlias ctx (resolvedAlias arb n)).m_channel = c.ordering_index) ∧
    (stdMatch (splitName n).2 = none →
      arb ≤ (storedAlias ctx (resolvedAlias arb n)).m_channel) := by
  constructor
  · intro c h
    have hne : c.ordering_index ≠ Chan_Invalid := Nat.pos_iff_ne_zero.mp (stdMatch_row h).2.2.1
    rw [resolved_of_match arb n c h, storedAlias_channel]
    simp only [hne, if_false]
  · intro h
    rw [resolved_of_nomatch arb n h, storedAlias_channel]
    simp only [if_true]
    exact Nat.le_succ_of_pred_le hc

theorem resolved_fullName_of_split (arb : ChannelIdx) {n l c : Str}
    (h : splitName n = (l, c)) (hl : l ≠ []) :
    (resolvedAlias arb n).fullName = l ++ [dot] ++ c := by
  have hlay : (resolvedAlias arb n).m_layer = l := by
    rcases resolved_layer_cases arb n with h1 | ⟨h1, _⟩
    · rw [h1, h]
    · rw [h] at h1; exact absurd h1 hl
  rw [fullName_of_layer (resolvedAlias_layer arb n), hlay, resolved_name, h]

theorem reachable_of_plain (arb : ChannelIdx) (ctx : ChannelContext)
    (h : ReachablePlain arb ctx) : Reachable arb true ctx := by
  induction h with
  | init => exact Reachable.init
  | step name _ _ ih => exact Reachable.step name ih

theorem extends_length {c1 c2 : ChannelContext} (h : Extends c1 c2) :
    c1.m_channelalias_list.length ≤ c2.m_channelalias_list.length := by
  rcases Nat.lt_or_ge c2.m_channelalias_list.length c1.m_channelalias_list.length with hlt | hge
  · have h1 := h.list c2.m_channelalias_list.length _ (List.getElem?_eq_getElem hlt)
    rw [List.getElem?_eq_none (Nat.le_refl _)] at h1
    cases h1
  · exact hge

/-- The default IO name of a table row is a key of every newly constructed
context with standard channels. -/
theorem new_true_io_key (arb : ChannelIdx) (c : StandardChannel)
    (hc : c ∈ g_standard_channel_table) (hio : c.dflt_io_name ≠ []) :
    ∃ p, (ChannelContext.new arb true).findChannelAlias c.dflt_io_name = some p := by
  have h := std_base_io c hc hio
  rw [new_true_find]
  cases hf : (ChannelContext.new 30 true).findChannelAlias c.dflt_io_name with
  | none => rw [hf] at h; cases h
  | some p => exact ⟨p, rfl⟩

theorem plainInv_new (arb : ChannelIdx) : PlainInv arb (ChannelContext.new arb true) := by
  refine ⟨?_, fun k i h => Or.inl h⟩
  intro i a ha hi
  rw [List.getElem?_eq_none hi] at ha
  cases ha

theorem plainInv_get (arb : ChannelIdx) (ctx : ChannelContext) (name : Option Str)
    (hname : ∀ n, name = some n → plainName n) (hP : PlainInv arb ctx)
    (hE : Extends (ChannelContext.new arb true) ctx) (hcnt : arb - 1 ≤ ctx.m_last_assigned) :
    PlainInv arb (ctx.getChannelAlias arb name).1 := by
  rcases getChannelAlias_outcomes arb ctx name with
    ⟨_, h⟩ | ⟨_, _, _, _, _, h⟩ | ⟨n, hn, _, _, _, h⟩
  · rw [h]; exact hP
  · rw [h]; exact hP
  · have hp := hname n hn
    have hsp := splitName_plain hp
    have hid := stored_id_cases arb ctx n hcnt
    rw [h]
    refine ⟨?_, ?_⟩
    · intro i a ha hi
      simp only [] at ha
      rw [createdCtx_list] at ha
      rcases getElem?_concat_cases ha with hold | ⟨_, hnew⟩
      · exact hP.created i a hold hi
      · rw [hnew, storedAlias_layer, storedAlias_name, resolved_name]
        exact ⟨resolvedAlias_layer arb n, resolved_layer_plain arb hp, hsp.2.1, hsp.1,
          hid.1, hid.2⟩
    · intro k i hk
      simp only [] at hk ⊢
      rw [createdCtx_find] at hk
      rw [createdCtx_list]
      cases h0 : ctx.findChannelAlias k with
      | some i0 =>
        rw [h0] at hk
        cases hk
        rcases hP.keys k _ h0 with h1 | ⟨h1, a, ha, hka⟩
        · exact Or.inl h1
        · exact Or.inr ⟨h1, a, getElem?_append_of_some _ _ _ _ ha, hka⟩
      | none =>
        rw [h0] at hk
        simp only [] at hk
        split at hk
        · next hcond =>
          cases hk
          rcases hcond.2 with hF | hio
          · refine Or.inr ⟨extends_length hE, storedAlias ctx (resolvedAlias arb n),
              List.getElem?_concat_length _ _, ?_⟩
            rw [storedAlias_fullName]; exact hF
          · exfalso
            cases hm : stdMatch (splitName n).2 with
            | none =>
              rw [resolved_of_nomatch arb n hm] at hio
              exact hcond.1 hio
            | some c =>
              rw [resolved_of_match arb n c hm] at hio
              simp only [] at hio
              have hc := (stdMatch_row hm).1
              obtain ⟨p, hp0⟩ := new_true_io_key arb c hc (by rw [← hio]; exact hcond.1)
              have := hE.name _ _ hp0
              rw [← hio, h0] at this
              cases this
        · cases hk

theorem plainInv_reachable (arb : ChannelIdx) (ctx : ChannelContext)
    (h : ReachablePlain arb ctx) : PlainInv arb ctx := by
  induction h with
  | init => exact plainInv_new arb
  | step name hname hr ih =>
    have hR := reachable_of_plain arb _ hr
    exact plainInv_get arb _ name hname ih (extends_reachable arb true _ hR)
      (inv_reachable arb true _ hR).counter

/-- An appended alias of a context reached with plain names, found under a key
that is its full name and whose channel part is `x`, has the id that the
match of `x` decides. -/
theorem plain_created_id (arb : ChannelIdx) (ctx : ChannelContext) (hP : PlainInv arb ctx)
    (i : Nat) (a : ChannelAlias) (ha : ctx.m_channelalias_list[i]? = some a)
    (hi : (ChannelContext.new arb true).m_channelalias_list.length ≤ i) :
    splitName a.fullName = (a.m_layer, a.m_name) ∧
    (∀ c, stdMatch a.m_name = some c → a.m_channel = c.ordering_index) ∧
    (stdMatch a.m_name = none → arb ≤ a.m_channel) := by
  obtain ⟨h1, h2, h3, h4, h5, h6⟩ := hP.created i a ha hi
  refine ⟨?_, h5, h6⟩
  rw [fullName_of_layer h1]
  apply splitName_of_parts _ _ _ h4 h1
  intro ch hch
  rcases List.mem_append.mp hch with hl | hr
  · rcases List.mem_append.mp hl with hl1 | hl2
    · exact h2 ch hl1
    · rw [List.mem_singleton] at hl2
      rw [hl2]; decide
  · exact h3 ch hr

theorem find_alias_exists (arb : ChannelIdx) (ctx : ChannelContext) (hI : Inv arb ctx)
    {k : Str} {p : Nat} (h : ctx.findChannelAlias k = some p) :
    ∃ a, ctx.m_channelalias_list[p]? = some a := by
  obtain ⟨a, ha, _⟩ := hI.name_idx k p (find_of_findChannelAlias h).2
  exact ⟨a, ha⟩

/-- On a context reached with plain names from a newly constructed context
with standard channels, a plain name resolves to the id it resolves to on
the newly constructed context itself, unless both ids are arbitrary ones. -/
theorem plain_vs_fresh (arb : ChannelIdx) (ctx : ChannelContext)
    (hR : ReachablePlain arb ctx) (n : Str) (hn : n ≠ []) (hp : plainName n) :
    ∃ a a0, returnedAlias (ctx.getChannelAlias arb (some n)) = some a ∧
      returnedAlias ((ChannelContext.new arb true).getChannelAlias arb (some n)) = some a0 ∧
      (a.m_channel = a0.m_channel ∨ (arb ≤ a.m_channel ∧ arb ≤ a0.m_channel)) := by
  have hRe := reachable_of_plain arb ctx hR
  have hE := extends_reachable arb true ctx hRe
  have hI := inv_reachable arb true ctx hRe
  have hI0 := inv_new arb true
  have hP := plainInv_reachable arb ctx hR
  have hsp := splitName_plain hp
  -- the id that the match of the channel part decides
  have hJ : ∀ a a0 : ChannelAlias,
      ((∀ c, stdMatch (splitName n).2 = some c → a.m_channel = c.ordering_index) ∧
        (stdMatch (splitName n).2 = none → arb ≤ a.m_channel)) →
      ((∀ c, stdMatch (splitName n).2 = some c → a0.m_channel = c.ordering_index) ∧
        (stdMatch (splitName n).2 = none → arb ≤ a0.m_channel)) →
      (a.m_channel = a0.m_channel ∨ (arb ≤ a.m_channel ∧ arb ≤ a0.m_channel)) := by
    intro a a0 h1 h2
    cases hm : stdMatch (splitName n).2 with
    | some c => exact Or.inl (by rw [h1.1 c hm, h2.1 c hm])
    | none => exact Or.inr ⟨h1.2 hm, h2.2 hm⟩
  -- an appended alias found under the name or under the completed name
  have hcr : ∀ (p : Nat) (a : ChannelAlias), ctx.m_channelalias_list[p]? = some a →
      (ChannelContext.new arb true).m_channelalias_list.length ≤ p →
      (n = a.fullName ∨ (resolvedAlias arb n).fullName = a.fullName) →
      ((∀ c, stdMatch (splitName n).2 = some c → a.m_channel = c.ordering_index) ∧
        (stdMatch (splitName n).2 = none → arb ≤ a.m_channel)) := by
    intro p a ha hle hk
    obtain ⟨hs, h5, h6⟩ := plain_created_id arb ctx hP p a ha hle
    have hname : (splitName n).2 = a.m_name := by
      rcases hk with h | h
      · rw [h, hs]
      · have hl := (hP.created p a ha hle).1
        rw [fullName_of_layer (resolvedAlias_layer arb n), fullName_of_layer hl] at h
        exact (append_dot_inj_right h hsp.1 (hP.created p a ha hle).2.2.2.1).2
    rw [hname]
    exact ⟨h5, h6⟩
  have hfull : ∀ (p : Nat) (a : ChannelAlias), ctx.m_channelalias_list[p]? = some a →
      (ChannelContext.new arb true).m_channelalias_list.length ≤ p → n = a.fullName →
      (resolvedAlias arb n).fullName = n := by
    intro p a ha hle hk
    obtain ⟨hs, _, _⟩ := plain_created_id arb ctx hP p a ha hle
    have hl := (hP.created p a ha hle).1
    rw [← hk] at hs
    rw [resolved_fullName_of_split arb hs hl, ← fullName_of_layer hl, hk]
  rcases getChannelAlias_outcomes arb (ChannelContext.new arb true) (some n) with
    ⟨hnull, _⟩ | ⟨n0, p0, e0, _, hp0, hr0⟩ | ⟨n0, e0, _, h10, h20, hr0⟩
  · rcases hnull with e | e
    · cases e
    · cases e; exact absurd rfl hn
  · -- the newly constructed context finds the name or the completed name
    cases e0
    obtain ⟨a0, ha0⟩ : ∃ a0, (ChannelContext.new arb true).m_channelalias_list[p0]? = some a0 := by
      rcases hp0 with h | ⟨_, h⟩
      · exact find_alias_exists arb _ hI0 h
      · exact find_alias_exists arb _ hI0 h
    have hctx0 := hE.list p0 a0 ha0
    have hsame : ctx.getChannelAlias arb (some n) = (ctx, some p0) := by
      rcases hp0 with h | ⟨hnone0, h⟩
      · exact getChannelAlias_of_find arb ctx n p0 (hE.name _ _ h)
      · have hF := hE.name _ _ h
        rcases getChannelAlias_outcomes arb ctx (some n) with
          ⟨hnull, _⟩ | ⟨n1, p, e1, _, hp1, hr⟩ | ⟨n1, e1, _, _, h2, _⟩
        · rcases hnull with e | e
          · cases e
          · cases e; exact absurd rfl hn
        · cases e1
          rcases hp1 with h1 | ⟨_, h1⟩
          · rcases hP.keys n p h1 with hk | ⟨hle, a, ha, hk⟩
            · rw [hnone0] at hk; cases hk
            · rw [hfull p a ha hle hk, hnone0] at h; cases h
          · rw [hF] at h1; cases h1; exact hr
        · cases e1
          rw [hF] at h2; cases h2
    refine ⟨a0, a0, ?_, ?_, Or.inl rfl⟩
    · rw [hsame, returnedAlias_mk]; exact hctx0
    · rw [hr0, returnedAlias_mk]; exact ha0
  · -- the newly constructed context creates the alias
    cases e0
    have hJ0 := stored_id_cases arb (ChannelContext.new arb true) n hI0.counter
    have hret0 : returnedAlias ((ChannelContext.new arb true).getChannelAlias arb (some n))
        = some (storedAlias (ChannelContext.new arb true) (resolvedAlias arb n)) := by
      rw [hr0, createdCtx_returned]
    rcases getChannelAlias_outcomes arb ctx (some n) with
      ⟨hnull, _⟩ | ⟨n1, p, e1, _, hp1, hr⟩ | ⟨n1, e1, _, _, _, hr⟩
    · rcases hnull with e | e
      · cases e
      · cases e; exact absurd rfl hn
    · cases e1
      have hkey : ∃ a, ctx.m_channelalias_list[p]? = some a ∧
          (ChannelContext.new arb true).m_channelalias_list.length ≤ p ∧
          (n = a.fullName ∨ (resolvedAlias arb n).fullName = a.fullName) := by
        rcases hp1 with h1 | ⟨_, h1⟩
        · rcases hP.keys n p h1 with hk | ⟨hle, a, ha, hk⟩
          · rw [h10] at hk; cases hk
          · exact ⟨a, ha, hle, Or.inl hk⟩
        · rcases hP.keys _ p h1 with hk | ⟨hle, a, ha, hk⟩
          · rw [h20] at hk; cases hk
          · exact ⟨a, ha, hle, Or.inr hk⟩
      obtain ⟨a, ha, hle, hk⟩ := hkey
      refine ⟨a, _, ?_, hret0, hJ a _ (hcr p a ha hle hk) hJ0⟩
      rw [hr, returnedAlias_mk]; exact ha
    · cases e1
      refine ⟨_, _, ?_, hret0, hJ _ _ (stored_id_cases arb ctx n hI.counter) hJ0⟩
      rw [hr, createdCtx_returned]

set_option maxRecDepth 1000000 in
/-- Counterexample to C32: `other..R` resolves to the standard id `Chan_R` on
the newly constructed context with standard channels (layer `other.`,
channel part `R`), but to the arbitrary id 30 on the context reached by the
call `getChannelAlias(".R")`, which has registered an alias of layer `other`
and name `.R` under the full name `other..R`. -/
theorem history_dependence_counterexample :
    Reachable 30 true (ChannelContext.new 30 true) ∧
    Reachable 30 true ((ChannelContext.new 30 true).getChannelAlias 30 (some ".R".toList)).1 ∧
    "other..R".toList ≠ [] ∧
    (returnedAlias ((ChannelContext.new 30 true).getChannelAlias 30
        (some "other..R".toList))).map (fun a => a.m_channel) = some Chan_R ∧
    Chan_R < 30 ∧
    (returnedAlias (((ChannelContext.new 30 true).getChannelAlias 30
        (some ".R".toList)).1.getChannelAlias 30
        (some "other..R".toList))).map (fun a => a.m_channel) = some 30 ∧
    Chan_R ≠ 30 :=
  ⟨Reachable.init, Reachable.step (some ".R".toList) Reachable.init, by decide, by decide,
    by decide, by decide, by decide⟩

/-- C32 (amended). History independence of standard identities for plain
names, for every threshold: for any two contexts each reachable from a newly
constructed `ChannelContext` with standard channels by `getChannelAlias` calls
whose names contain no whitespace and do not begin with a dot, and any
non-empty name of that kind, if `getChannelAlias` of the name on the first
context returns an alias with an id below `Chan_ArbitraryStart`, then
`getChannelAlias` of the name on the second context returns an alias with
the same id. -/
theorem standard_id_history_independent (arb : ChannelIdx) (ctx1 ctx2 : ChannelContext)
    (h1 : ReachablePlain arb ctx1) (h2 : ReachablePlain arb ctx2)
    (n : Str) (hn : n ≠ []) (hp : plainName n) (a1 : ChannelAlias)
    (hr : returnedAlias (ctx1.getChannelAlias arb (some n)) = some a1)
    (hstd : a1.m_channel < arb) :
    ∃ a2, returnedAlias (ctx2.getChannelAlias arb (some n)) = some a2 ∧
      a2.m_channel = a1.m_channel := by
  obtain ⟨b1, b0, hb1, hb0, hc1⟩ := plain_vs_fresh arb ctx1 h1 n hn hp
  obtain ⟨b2, b0', hb2, hb0', hc2⟩ := plain_vs_fresh arb ctx2 h2 n hn hp
  rw [hb0] at hb0'
  cases hb0'
  rw [hr] at hb1
  cases hb1
  have e1 : a1.m_channel = b0.m_channel := by
    rcases hc1 with h | ⟨h, _⟩
    · exact h
    · exact absurd hstd (Nat.not_lt.mpr h)
  refine ⟨b2, hb2, ?_⟩
  rcases hc2 with h | ⟨_, h⟩
  · rw [h, e1]
  · rw [← e1] at h
    exact absurd hstd (Nat.not_lt.mpr h)

/-- Witness of C31: an alias with empty name and empty layer, whose full name
is the empty key, added to a fresh context without standard channels. -/
theorem index_safety_witness :
    ReachableAny 30 false
      ((ChannelContext.new 30 false).addChannelAlias
        (.fresh ⟨[], [], Chan_Invalid, 0, [], .HALF⟩)).1 ∧
    ((ChannelContext.new 30 false).addChannelAlias
        (.fresh ⟨[], [], Chan_Invalid, 0, [], .HALF⟩)).1.m_channelalias_name_map = [([], 0)] ∧
    ∀ p ∈ ((ChannelContext.new 30 false).addChannelAlias
        (.fresh ⟨[], [], Chan_Invalid, 0, [], .HALF⟩)).1.m_channelalias_name_map,
      p.2 < ((ChannelContext.new 30 false).addChannelAlias
        (.fresh ⟨[], [], Chan_Invalid, 0, [], .HALF⟩)).1.m_channelalias_list.length :=
  ⟨ReachableAny.add (.fresh ⟨[], [], Chan_Invalid, 0, [], .HALF⟩) ReachableAny.init,
    by decide,
    (index_safety 30 false
      ((ChannelContext.new 30 false).addChannelAlias
        (.fresh ⟨[], [], Chan_Invalid, 0, [], .HALF⟩)).1
      (ReachableAny.add (.fresh ⟨[], [], Chan_Invalid, 0, [], .HALF⟩) ReachableAny.init)).1⟩

set_option maxRecDepth 1000000 in
/-- Witness of C32 (amended): `foo.R` on the newly constructed context and on
the context reached by resolving `bar.G`. -/
theorem standard_id_history_independent_witness :
    ReachablePlain 30 (ChannelContext.new 30 true) ∧
    ReachablePlain 30
      ((ChannelContext.new 30 true).getChannelAlias 30 (some "bar.G".toList)).1 ∧
    "foo.R".toList ≠ [] ∧ plainName "foo.R".toList ∧
    returnedAlias ((ChannelContext.new 30 true).getChannelAlias 30 (some "foo.R".toList))
      = some ⟨"R".toList, "foo".toList, Chan_R, 0, "R".toList, .HALF⟩ ∧
    (ChannelAlias.mk "R".toList "foo".toList Chan_R 0 "R".toList .HALF).m_channel < 30 ∧
    ∃ a2, returnedAlias
        (((ChannelContext.new 30 true).getChannelAlias 30 (some "bar.G".toList)).1.getChannelAlias
          30 (some "foo.R".toList)) = some a2 ∧
      a2.m_channel
        = (ChannelAlias.mk "R".toList "foo".toList Chan_R 0 "R".toList .HALF).m_channel :=
  ⟨ReachablePlain.init,
    ReachablePlain.step (some "bar.G".toList)
      (fun m hm => by cases hm; decide) ReachablePlain.init,
    by decide, by decide, by decide, by decide,
    standard_id_history_independent 30 (ChannelContext.new 30 true)
      ((ChannelContext.new 30 true).getChannelAlias 30 (some "bar.G".toList)).1
      ReachablePlain.init
      (ReachablePlain.step (some "bar.G".toList)
        (fun m hm => by cases hm; decide) ReachablePlain.init)
      "foo.R".toList (by decide) (by decide)
      ⟨"R".toList, "foo".toList, Chan_R, 0, "R".toList, .HALF⟩ (by decide) (by decide)⟩

/-- Witness of C33 (amended) at the threshold 30: the row of `Chan_ZBack`. -/
theorem prepopulation_independent_witness :
    stdRow "depth" "ZBack" "ZB,ZBACK" "ZBack" .FLOAT Chan_ZBack ∈ g_standard_channel_table ∧
    ∃ a1 a2,
      returnedAlias ((ChannelContext.new 30 false).getChannelAlias 30
        (some ("depth".toList ++ [dot] ++ "ZBack".toList))) = some a1 ∧
      returnedAlias ((ChannelContext.new 30 true).getChannelAlias 30
        (some ("depth".toList ++ [dot] ++ "ZBack".toList))) = some a2 ∧
      a1.m_channel = Chan_ZBack ∧ a2.m_channel = Chan_ZBack ∧
      a1.m_channel = a2.m_channel :=
  ⟨by decide,
    (prepopulation_independent 30).1 (stdRow "depth" "ZBack" "ZB,ZBACK" "ZBack" .FLOAT Chan_ZBack)
      (by decide) (by decide) (by decide)⟩

/-- Witness of C34: the name `a. b.c`, whose stripped form `a.b.c` has its
last dot at index 3, and the name ` .x`, whose stripped form has it at 0. -/
theorem splitName_reassembly_witness :
    find_last_of (strip "a. b.c".toList whitespace) dot = some 3 ∧
    ((splitName "a. b.c".toList).1 ≠ [] ∧ (splitName "a. b.c".toList).1.length = 3 ∧
      (splitName "a. b.c".toList).1 ++ [dot] ++ (splitName "a. b.c".toList).2
        = strip "a. b.c".toList whitespace ∧
      dot ∉ (splitName "a. b.c".toList).2 ∧
      (∀ ch ∈ (splitName "a. b.c".toList).1, ch ∉ whitespace) ∧
      (∀ ch ∈ (splitName "a. b.c".toList).2, ch ∉ whitespace)) ∧
    splitName " .x".toList = ([], " .x".toList) :=
  ⟨by decide,
    (splitName_reassembly "a. b.c".toList).1 3 (by decide) (by decide),
    (splitName_reassembly " .x".toList).2.1 (Or.inr (by decide))⟩

/-- Witness of C35: the text `ab cd;e` with the delimiters space and semicolon. -/
theorem split_spec_witness :
    ∃ ts, split "ab cd;e".toList " ;".toList ["x".toList] = some (["x".toList] ++ ts) ∧
      ts = ("ab cd;e".toList.splitOnP (fun c => " ;".toList.contains c)).filter
        (fun t => decide (t ≠ [])) ∧
      (∀ t ∈ ts, t ≠ [] ∧ ∀ ch ∈ t, ch ∉ " ;".toList) ∧
      ts.flatten = "ab cd;e".toList.filter (fun c => decide (c ∉ " ;".toList)) :=
  (split_spec "ab cd;e".toList " ;".toList ["x".toList]).1

/-- Witness of C36: three delimiters applied to `a-b_c d`. -/
theorem strip_spec_witness :
    stripTwoBuffers "a-b_c d".toList "-_ ".toList = "abcd".toList ∧
    stripTwoBuffers "a-b_c d".toList "-_ ".toList
      = "a-b_c d".toList.filter (fun c => decide (c ∉ "-_ ".toList)) ∧
    strip "a-b_c d".toList "-_ ".toList = stripTwoBuffers "a-b_c d".toList "-_ ".toList :=
  ⟨by decide, (strip_spec "a-b_c d".toList "-_ ".toList).1,
    (strip_spec "a-b_c d".toList "-_ ".toList).2.1⟩

end Dcx
